import Mathlib

/-!
Verification development for the `rtree` spatial-index library (Go).

The Go source is shallowly embedded: pure functions become Lean functions,
the pointer-mutating tree operations become explicit tree-rebuilding
functions that follow the source's phase order, and the `float32`
rectangle algebra (an external collaborator with "standard AABB semantics"
per the specification) is modelled exactly over `ℚ`.  The sentinel value
`vmath.Infinity` (used for the empty rectangle `noBounds` and for initial
minima) is modelled by `Option`/`WithTop` rather than by a fake large
number.  Randomness (quickselect pivots) is modelled by an explicit pivot
stream, universally quantified in the theorems.  `sort.Sort` (an
unspecified comparison sort) is modelled by `List.insertionSort` with the
corresponding non-strict relation.  Recursions whose termination is not
structural carry an explicit fuel argument so that all definitions reduce
inside the kernel; the fuel supplied by the wrappers is proved (or, for
dead branches, argued in comments) sufficient.
-/

/- The Batteries rational-arithmetic definitions are `@[irreducible]`,
which blocks `decide` on concrete rational computations; this development
evaluates the embedded program on concrete inputs, so restore the default
reducibility of the four arithmetic primitives. -/
attribute [local semireducible] Rat.add Rat.mul Rat.sub Rat.inv

namespace RTreeSpec

set_option linter.unusedSectionVars false

/-! ## Geometry: `vmath.Vec2f` and `vmath.Rectf` over ℚ -/

/-- 2D vector (`vmath.Vec2f`), coordinates modelled over `ℚ`. -/
structure Vec2 where
  x : ℚ
  y : ℚ
  deriving DecidableEq

/-- Axis-aligned rectangle (`vmath.Rectf`). -/
structure Rectf where
  min : Vec2
  max : Vec2
  deriving DecidableEq

namespace Vec2

/-- Componentwise addition (`Vec2f.Add`). -/
def add (a b : Vec2) : Vec2 := ⟨a.x + b.x, a.y + b.y⟩

/-- Componentwise subtraction (`Vec2f.Sub`). -/
def sub (a b : Vec2) : Vec2 := ⟨a.x - b.x, a.y - b.y⟩

/-- Dot product (`Vec2f.Dot`). -/
def dot (a b : Vec2) : ℚ := a.x * b.x + a.y * b.y

/-- Scalar multiplication (`Vec2f.MulScalar`). -/
def mulScalar (a : Vec2) (s : ℚ) : Vec2 := ⟨a.x * s, a.y * s⟩

end Vec2

namespace Rectf

/-- `Rectf.Normalize`: reorder so that `min ≤ max` componentwise. -/
def normalize (r : Rectf) : Rectf :=
  ⟨⟨Min.min r.min.x r.max.x, Min.min r.min.y r.max.y⟩,
   ⟨Max.max r.min.x r.max.x, Max.max r.min.y r.max.y⟩⟩

/-- A rectangle is normalized when `min ≤ max` on both axes. -/
def isNormalized (r : Rectf) : Bool :=
  r.min.x ≤ r.max.x ∧ r.min.y ≤ r.max.y

/-- `Rectf.Area`. -/
def area (r : Rectf) : ℚ := (r.max.x - r.min.x) * (r.max.y - r.min.y)

/-- `bboxMargin`: sum of width and height. -/
def margin (r : Rectf) : ℚ := (r.max.x - r.min.x) + (r.max.y - r.min.y)

/-- `Rectf.Merge`: smallest rectangle containing both. -/
def mergeR (a b : Rectf) : Rectf :=
  ⟨⟨Min.min a.min.x b.min.x, Min.min a.min.y b.min.y⟩,
   ⟨Max.max a.max.x b.max.x, Max.max a.max.y b.max.y⟩⟩

/-- `Rectf.Intersects`: strict overlap; touching rectangles (equal floats)
do not intersect. -/
def intersects (a b : Rectf) : Bool :=
  a.min.x < b.max.x ∧ b.min.x < a.max.x ∧ a.min.y < b.max.y ∧ b.min.y < a.max.y

/-- `Rectf.ContainsRectf`: non-strict containment of `b` in `a`. -/
def containsR (a b : Rectf) : Bool :=
  a.min.x ≤ b.min.x ∧ a.min.y ≤ b.min.y ∧ b.max.x ≤ a.max.x ∧ b.max.y ≤ a.max.y

/-- `Rectf.SquarePointDistance`: squared distance from a point to the
rectangle (0 when the point is inside). -/
def sqPointDist (r : Rectf) (p : Vec2) : ℚ :=
  let dx := Max.max (r.min.x - p.x) (Max.max 0 (p.x - r.max.x))
  let dy := Max.max (r.min.y - p.y) (Max.max 0 (p.y - r.max.y))
  dx * dx + dy * dy

/-- Membership of a point in a (closed) rectangle. -/
def memPt (r : Rectf) (p : Vec2) : Bool :=
  r.min.x ≤ p.x ∧ p.x ≤ r.max.x ∧ r.min.y ≤ p.y ∧ p.y ≤ r.max.y

end Rectf

/-- `enlargedArea`: area of the bounding box enlarged by a new child,
computed directly (query.go / rtree.go helper). -/
def enlargedArea (bbox newChild : Rectf) : ℚ :=
  (max newChild.max.x bbox.max.x - min newChild.min.x bbox.min.x) *
    (max newChild.max.y bbox.max.y - min newChild.min.y bbox.min.y)

/-- `intersectionArea` as implemented by the source: the area of the
*merged* rectangle (the source quirk: it is the union's bounding area,
used only as a relative ordering in the split-index tiebreak). -/
def intersectionArea (a b : Rectf) : ℚ := (a.mergeR b).area

/-- `minMaxDist` (Roussopoulos-Kelley-Vincent): squared distance within
which at least one item must exist inside bounding rectangle `r`. -/
def minMaxDist (pos : Vec2) (r : Rectf) : ℚ :=
  let cx : ℚ := (r.min.x + r.max.x) * (1/2)
  let cy : ℚ := (r.min.y + r.max.y) * (1/2)
  let rmx : ℚ := if pos.x ≤ cx then r.min.x else r.max.x
  let rmy : ℚ := if pos.y ≤ cy then r.min.y else r.max.y
  let rMx : ℚ := if cx ≤ pos.x then r.min.x else r.max.x
  let rMy : ℚ := if cy ≤ pos.y then r.min.y else r.max.y
  let s : ℚ := (pos.x - rMx) * (pos.x - rMx) + (pos.y - rMy) * (pos.y - rMy)
  Min.min (s - (pos.x - rMx) * (pos.x - rMx) + (pos.x - rmx) * (pos.x - rmx))
    (s - (pos.y - rMy) * (pos.y - rMy) + (pos.y - rmy) * (pos.y - rmy))

/-! ## Optional rectangles: `noBounds` is `min = +∞, max = −∞`, modelled
as `none`; it merges as an identity, intersects nothing and is contained
in everything, matching the float semantics of the sentinel. -/

/-- Bounds value of a node: `none` models `noBounds`. -/
abbrev ORect := Option Rectf

/-- `extend`/`Merge` lifted to optional rectangles; `noBounds` is the
identity of merging. -/
def mergeO (a b : ORect) : ORect :=
  match a, b with
  | none, b => b
  | a, none => a
  | some a, some b => some (a.mergeR b)

/-- `Intersects` against a possibly-empty bound: `noBounds` (with
`min = +∞ > max`) intersects nothing. -/
def intersectsO (a : Rectf) (b : ORect) : Bool :=
  match b with
  | none => false
  | some b => a.intersects b

/-- `a.ContainsRectf b` for optional `b`: with `b = noBounds`
(`min = +∞`, `max = −∞`) every float comparison in the source holds. -/
def containsO (a : Rectf) (b : ORect) : Bool :=
  match b with
  | none => true
  | some b => a.containsR b

/-- `a.ContainsRectf b` for optional `a`: the `noBounds` side fails the
comparisons, containing nothing. -/
def containsO' (a : ORect) (b : Rectf) : Bool :=
  match a with
  | none => false
  | some a => a.containsR b

/-- `Rectf.Area` on an optional rectangle.  Never applied to `noBounds`
by the modelled call sites (children of well-formed internal nodes have
non-empty bounds); 0 is a harmless total default. -/
def areaO (r : ORect) : ℚ :=
  match r with
  | none => 0
  | some r => r.area

/-- `bboxMargin` on an optional rectangle; same remark as `areaO`. -/
def marginO (r : ORect) : ℚ :=
  match r with
  | none => 0
  | some r => r.margin

/-- `enlargedArea` with an optional existing child bound; same remark as
`areaO`. -/
def enlargedAreaO (bbox : Rectf) (c : ORect) : ℚ :=
  match c with
  | none => 0
  | some c => enlargedArea bbox c

/-- `SquarePointDistance` from a position to an optional bound; only
applied to non-empty bounds in well-formed trees. -/
def sqPointDistO (b : ORect) (p : Vec2) : ℚ :=
  match b with
  | none => 0
  | some r => r.sqPointDist p

/-! ## Nodes and trees (node.go) -/

/-- An R-tree node (`node` in node.go): children (internal) or items
(leaf), cached height, leaf flag and cached bounds. -/
inductive Node (α : Type) where
  | mk (children : List (Node α)) (items : List α) (height : ℕ) (leaf : Bool) (bounds : ORect)

namespace Node

/-- Child list of a node. -/
def children : Node α → List (Node α)
  | mk cs _ _ _ _ => cs

/-- Item list of a node. -/
def items : Node α → List α
  | mk _ its _ _ _ => its

/-- Cached height of a node. -/
def height : Node α → ℕ
  | mk _ _ h _ _ => h

/-- Leaf flag of a node. -/
def leaf : Node α → Bool
  | mk _ _ _ l _ => l

/-- Cached bounds of a node. -/
def bounds : Node α → ORect
  | mk _ _ _ _ b => b

/-- Number of entries of a node (`len(children) + len(items)`). -/
def entryCount (n : Node α) : ℕ := n.children.length + n.items.length

end Node

/-- `newNode()`: an empty leaf of height 1 with `noBounds`. -/
def newNode {α : Type} : Node α := .mk [] [] 1 true none

/-- The tree handle (`RTree`): parameters and root.  The bounds function
is not stored but passed to each operation (it is a fixed collaborator
for a given tree instance). -/
structure RTree (α : Type) where
  maxEntries : ℕ
  minEntries : ℕ
  root : Node α

/-- Parameter clamping performed by `New`: `maxEntries ≤ 0` defaults to
16, then is clamped to at least 4; `minEntries = max(2, ceil(0.4*maxEntries))`
(the float product rounds to the exact rational result for all relevant
sizes, so the ceiling is computed exactly). -/
def newParams (maxEntries0 : ℤ) : ℕ × ℕ :=
  let m1 : ℤ := if maxEntries0 ≤ 0 then 16 else maxEntries0
  let mE : ℕ := Nat.max 4 m1.toNat
  (mE, Nat.max 2 ((2 * mE + 4) / 5))

/-- `New(boundsFunc, maxEntries)`: fresh tree with a fresh empty root. -/
def RTree.new (α : Type) (maxEntries0 : ℤ) : RTree α :=
  let p := newParams maxEntries0
  ⟨p.1, p.2, newNode⟩

/-- `Clear`: replace the root by a fresh empty leaf. -/
def RTree.clear (t : RTree α) : RTree α := ⟨t.maxEntries, t.minEntries, newNode⟩

section Ops

variable {α : Type} (bboxFn : α → Rectf)

/-- Fold of `extend` over a list of optional bounds starting from
`noBounds` (the loop body of `calcSubBBox`). -/
def foldBounds (bs : List ORect) : ORect := bs.foldl mergeO none

/-- The entry bounds of a node in entry order: item boxes for leaves,
child bounds for internal nodes (the two branches of `calcSubBBox`). -/
def entryBoundsL (n : Node α) : List ORect :=
  if n.leaf then n.items.map (fun it => some (bboxFn it)) else n.children.map Node.bounds

/-- `calcSubBBox(node, start, end)`: bbox of the entries in `[start, end)`. -/
def calcSubBBox (n : Node α) (s e : ℕ) : ORect :=
  foldBounds (((entryBoundsL bboxFn n).drop s).take (e - s))

/-- `calcBBox(node)`: recompute the node's bounds from all its entries. -/
def calcBBox (n : Node α) : Node α :=
  .mk n.children n.items n.height n.leaf (foldBounds (entryBoundsL bboxFn n))

end Ops

/-! ## quickselect (quickselect.go)

The `sort.Interface` receiver is modelled as a `List α` indexed through
`List.getD`, with a strict comparison `lt`.  The random pivot
(`rand.Intn(last-first+1) + first`) is modelled by an arbitrary stream
`σ : ℕ → ℕ` reduced into the admissible range; quantifying over all `σ`
covers every possible sequence of random draws.  The loops carry fuel;
`quickselect` supplies fuel `length + 1`, which theorem
`quickselectF_isSome` proves sufficient. -/

section Quickselect

variable {α : Type} [Inhabited α] (lt : α → α → Bool)

/-- `a.Swap(i, j)` on the list model. -/
def swapL (a : List α) (i j : ℕ) : List α :=
  (a.set i (a.getD j default)).set j (a.getD i default)

/-- `a.Less(i, j)` on the list model. -/
def lessAt (a : List α) (i j : ℕ) : Bool :=
  lt (a.getD i default) (a.getD j default)

/-- Inner scan `for left <= lastIdx && a.Less(left, pivotIdx) { left++ }`. -/
def scanL (a : List α) (lastIdx pivotIdx : ℕ) : ℕ → ℕ → ℕ
  | 0, left => left
  | fuel + 1, left =>
    if left ≤ lastIdx then
      if lessAt lt a left pivotIdx then scanL a lastIdx pivotIdx fuel (left + 1) else left
    else left

/-- Inner scan `for right >= pivotIdx && a.Less(pivotIdx, right) { right-- }`. -/
def scanR (a : List α) (pivotIdx : ℕ) : ℕ → ℕ → ℕ
  | 0, right => right
  | fuel + 1, right =>
    if pivotIdx ≤ right then
      if lessAt lt a pivotIdx right then scanR a pivotIdx fuel (right - 1) else right
    else right

/-- Outer loop of `partition` (`for left <= right { ... }`); returns the
final state and the final `right` index. -/
def partGo (pivotIdx lastIdx : ℕ) : ℕ → List α → ℕ → ℕ → List α × ℕ
  | 0, a, _, right => (a, right)
  | fuel + 1, a, left, right =>
    if left ≤ right then
      let l1 := scanL lt a lastIdx pivotIdx (lastIdx + 2) left
      let r1 := scanR lt a pivotIdx (right + 1) right
      if l1 ≤ r1 then partGo pivotIdx lastIdx fuel (swapL a l1 r1) (l1 + 1) (r1 - 1)
      else (a, r1)
    else (a, right)

/-- `partition(a, firstIdx, lastIdx, pivotIdx)`: Hoare-style partition;
returns the permuted list and the final pivot position. -/
def partitionL (a : List α) (firstIdx lastIdx pivotIdx : ℕ) : List α × ℕ :=
  let a1 := swapL a firstIdx pivotIdx
  let res := partGo lt firstIdx lastIdx (lastIdx + 2) a1 (firstIdx + 1) lastIdx
  (swapL res.1 firstIdx res.2, res.2)

/-- The recursive body of `quickselect`; the pivot guess of the `fuel`-th
remaining iteration is `first + σ fuel % (last - first + 1)`.  Returns
`none` when the fuel is exhausted. -/
def quickselectF (σ : ℕ → ℕ) : ℕ → List α → ℕ → ℕ → ℕ → Option (List α)
  | 0, _, _, _, _ => none
  | fuel + 1, a, n, first, last =>
    let guess := first + σ fuel % (last - first + 1)
    let pr := partitionL lt a first last guess
    if n = pr.2 then some pr.1
    else if n < pr.2 then quickselectF σ fuel pr.1 n first (pr.2 - 1)
    else quickselectF σ fuel pr.1 n (pr.2 + 1) last

/-- `quickselect(a, n)`: fuel `a.length + 1` is sufficient
(`quickselectF_isSome`), so the default branch is never taken for
`n < a.length`. -/
def quickselect (σ : ℕ → ℕ) (a : List α) (n : ℕ) : List α :=
  (quickselectF lt σ (a.length + 1) a n 0 (a.length - 1)).getD a

/-! ### Lemmas about `swapL` and the scans -/

end Quickselect

/-! ## Numeric helpers

Go computes the OMT parameters with `float64` (`math.Ceil`, `math.Log`,
`math.Pow`, `math.Sqrt`); for the integer magnitudes involved these are
the exact ceiling operations modelled here. -/

/-- Ceiling division. -/
def ceilDiv (a b : ℕ) : ℕ := (a + b - 1) / b

/-- Loop computing the least `k` with `n ≤ k * k` (fuel-driven). -/
def csqrtGo (n : ℕ) : ℕ → ℕ → ℕ
  | 0, k => k
  | f + 1, k => if k * k < n then csqrtGo n f (k + 1) else k

/-- `math.Ceil(math.Sqrt(n))` for a natural `n`. -/
def csqrt (n : ℕ) : ℕ := csqrtGo n n 0

/-- Loop computing the least `h` with `n ≤ b ^ h` (fuel-driven). -/
def clogGo (b n : ℕ) : ℕ → ℕ → ℕ → ℕ
  | 0, h, _ => h
  | f + 1, h, p => if n ≤ p then h else clogGo b n f (h + 1) (p * b)

/-- `math.Ceil(logN(n, b))`: the least `h` with `n ≤ b ^ h`. -/
def clogCeil (b n : ℕ) : ℕ := clogGo b n n 0 1

/-- `math.MaxInt32`, the cap used by the uncapped query wrappers. -/
def maxInt : ℤ := 2147483647

/-- Split a list into consecutive chunks of `sz` (the index-loop pattern
`for i := left; i <= right; i += sz`). -/
def chunkF {α : Type} : ℕ → ℕ → List α → List (List α)
  | 0, _, l => if l.isEmpty then [] else [l]
  | f + 1, sz, l => if l.isEmpty then [] else l.take sz :: chunkF f sz (l.drop sz)

/-- Chunking with sufficient fuel. -/
def chunk {α : Type} (sz : ℕ) (l : List α) : List (List α) := chunkF l.length sz l

section TreeOps

variable {α : Type} [Inhabited α] [DecidableEq α] (bboxFn : α → Rectf)

/-- Strict comparison by a rational key (the `Less` of the `itemsByMinX`,
`itemsByMinY`, `nodesByMinX`, `nodesByMinY` sort interfaces). -/
def ltKey (key : α → ℚ) : α → α → Bool := fun a b => decide (key a < key b)

/-- `groupItems`: iterative partial sort with an explicit stack of closed
index ranges; each oversized range is split at the central group boundary
after a `quickselect`.  `σ` supplies the random pivots (disambiguated per
stack frame through `Nat.pair`); the fuel `2 * length + 4` dominates the
number of stack frames ever created. -/
def groupItemsGo (key : α → ℚ) (σ : ℕ → ℕ) (gs : ℕ) :
    ℕ → List α → List (ℕ × ℕ) → List α
  | 0, xs, _ => xs
  | f + 1, xs, stack =>
    match stack.getLast? with
    | none => xs
    | some (lft, rgt) =>
      let stack1 := stack.dropLast
      if rgt - lft ≤ gs then groupItemsGo key σ gs f xs stack1
      else
        let pivot := ceilDiv (rgt - lft) (2 * gs) * gs
        let sub := (xs.drop lft).take (rgt - lft + 1)
        let sub1 := quickselect (ltKey key) (fun k => σ (Nat.pair f k)) sub pivot
        let xs1 := xs.take lft ++ sub1 ++ xs.drop (rgt + 1)
        groupItemsGo key σ gs f xs1 (stack1 ++ [(lft, lft + pivot), (lft + pivot, rgt)])

/-- `groupItems(items, 0, len-1, groupSize, dim)` on a whole list. -/
def groupItemsL (key : α → ℚ) (σ : ℕ → ℕ) (gs : ℕ) (xs : List α) : List α :=
  groupItemsGo key σ gs (2 * xs.length + 4) xs [(0, xs.length - 1)]

/-- All items stored in a node's subtree (fuel-indexed; the node heights
of well-formed trees bound the depth). -/
def subItemsF : ℕ → Node α → List α
  | 0, _ => []
  | h + 1, n => n.items ++ (n.children.map (subItemsF h)).flatten

/-- Items of a subtree, reading the recursion depth off the height field. -/
def subItems (n : Node α) : List α := subItemsF n.height n

/-- Number of nodes of a subtree (fuel-indexed). -/
def nodeCountF : ℕ → Node α → ℕ
  | 0, _ => 0
  | h + 1, n => 1 + (n.children.map (nodeCountF h)).sum

/-- Node count read off the height field; used as worklist fuel. -/
def nodeCount (n : Node α) : ℕ := nodeCountF n.height n

/-! ## Query engine (query.go)

The work lists (`nodesToSearch`) push at the end and `popNode` pops from
the end; the model keeps the same order.  `maxResults` is `int` in Go and
is modelled as `ℤ`; the slice truncation `(*items)[:maxLen]` is
`List.take maxLen.toNat` (only caps `≥ 0` are the subject of claims). -/

/-- `addAllItemsN`: append every item under the nodes of the work list,
truncating once the cap is reached. -/
def addAllItemsNF (maxLen : ℤ) : ℕ → List (Node α) → List α → List α
  | 0, _, acc => acc
  | fuel + 1, stack, acc =>
    match stack.getLast? with
    | none => acc
    | some node =>
      let acc1 := acc ++ node.items
      if maxLen ≤ (acc1.length : ℤ) then acc1.take maxLen.toNat
      else addAllItemsNF maxLen fuel (stack.dropLast ++ node.children) acc1

/-- The child loop of `search`: skip non-intersecting children, flush
fully contained ones (early-returning at the cap), push the rest. -/
def searchKids (area : Rectf) (maxResults : ℤ) (fuelA : ℕ) :
    List (Node α) → List (Node α) → List α → List (Node α) × List α × Bool
  | [], stack, acc => (stack, acc, false)
  | c :: cs, stack, acc =>
    if intersectsO area c.bounds then
      if containsO area c.bounds then
        let acc1 := addAllItemsNF maxResults fuelA [c] acc
        if maxResults ≤ (acc1.length : ℤ) then (stack, acc1, true)
        else searchKids area maxResults fuelA cs stack acc1
      else searchKids area maxResults fuelA cs (stack ++ [c]) acc
    else searchKids area maxResults fuelA cs stack acc

/-- The item loop of `search`: include an item per the `mustCover` rule,
early-returning at the cap. -/
def searchItems (area : Rectf) (mustCover : Bool) (maxResults : ℤ) :
    List α → List α → List α × Bool
  | [], acc => (acc, false)
  | it :: its, acc =>
    if (mustCover && area.containsR (bboxFn it)) ||
        (!mustCover && area.intersects (bboxFn it)) then
      let acc1 := acc ++ [it]
      if maxResults ≤ (acc1.length : ℤ) then (acc1, true)
      else searchItems area mustCover maxResults its acc1
    else searchItems area mustCover maxResults its acc

/-- Main loop of `search`. -/
def searchLoopF (area : Rectf) (mustCover : Bool) (maxResults : ℤ) (fuelA : ℕ) :
    ℕ → List (Node α) → List α → List α
  | 0, _, acc => acc
  | fuel + 1, stack, acc =>
    match stack.getLast? with
    | none => acc
    | some node =>
      match searchKids area maxResults fuelA node.children stack.dropLast acc with
      | (_, acc1, true) => acc1
      | (stack1, acc1, false) =>
        match searchItems bboxFn area mustCover maxResults node.items acc1 with
        | (acc2, true) => acc2
        | (acc2, false) => searchLoopF area mustCover maxResults fuelA fuel stack1 acc2

/-- `search(area, mustCover, maxResults)`. -/
def RTree.searchQ (t : RTree α) (area0 : Rectf) (mustCover : Bool)
    (maxResults : ℤ) : List α :=
  let area := area0.normalize
  if intersectsO area t.root.bounds then
    searchLoopF bboxFn area mustCover maxResults (1 + nodeCount t.root)
      (1 + nodeCount t.root) [t.root] []
  else []

/-- `SearchN(area, mustCover, maxResults)`. -/
def RTree.searchN (t : RTree α) (area : Rectf) (mustCover : Bool)
    (maxResults : ℤ) : List α :=
  RTree.searchQ bboxFn t area mustCover maxResults

/-- `Search(area, mustCover)`. -/
def RTree.searchA (t : RTree α) (area : Rectf) (mustCover : Bool) : List α :=
  RTree.searchQ bboxFn t area mustCover maxInt

/-- The child loop of `Intersects`: `true` on a fully contained child. -/
def intersectsKids (area : Rectf) :
    List (Node α) → List (Node α) → List (Node α) × Bool
  | [], stack => (stack, false)
  | c :: cs, stack =>
    if intersectsO area c.bounds then
      if containsO area c.bounds then (stack, true)
      else intersectsKids area cs (stack ++ [c])
    else intersectsKids area cs stack

/-- Main loop of `Intersects`. -/
def intersectsLoopF (area : Rectf) : ℕ → List (Node α) → Bool
  | 0, _ => false
  | fuel + 1, stack =>
    match stack.getLast? with
    | none => false
    | some node =>
      match intersectsKids area node.children stack.dropLast with
      | (_, true) => true
      | (stack1, false) =>
        if node.items.any (fun it => area.intersects (bboxFn it)) then true
        else intersectsLoopF area fuel stack1

/-- `Intersects(area)`: any stored item overlapping the area? -/
def RTree.intersectsQ (t : RTree α) (area0 : Rectf) : Bool :=
  let area := area0.normalize
  if intersectsO area t.root.bounds then
    intersectsLoopF bboxFn area (1 + nodeCount t.root) [t.root]
  else false

/-- Work-list loop of `Size`. -/
def sizeLoopF : ℕ → List (Node α) → ℕ → ℕ
  | 0, _, cnt => cnt
  | fuel + 1, stack, cnt =>
    match stack.getLast? with
    | none => cnt
    | some node => sizeLoopF fuel (stack.dropLast ++ node.children) (cnt + node.items.length)

/-- `Size()`: total number of stored items. -/
def RTree.sizeQ (t : RTree α) : ℕ := sizeLoopF (1 + nodeCount t.root) [t.root] 0

/-! ## Nearest neighbour (query.go) -/

/-- `minMaxDist` against a node bound; never applied to `noBounds` in
well-formed trees (internal nodes have non-empty children bounds). -/
def minMaxDistO (pos : Vec2) (b : ORect) : ℚ :=
  match b with
  | none => 0
  | some r => minMaxDist pos r

/-- `sortNodesByDistance`: pair each child with its squared distance and
sort ascending (on a copy; the tree is left untouched). -/
def sortNodesByDistance (pos : Vec2) (nodes : List (Node α)) : List (Node α × ℚ) :=
  (nodes.map (fun c => (c, sqPointDistO c.bounds pos))).insertionSort
    (fun p q => p.2 ≤ q.2)

/-- `pruneNodes`: drop the children whose squared distance exceeds the
least `minMaxDist` (clipped by the current best squared distance). -/
def pruneNodesL (pos : Vec2) (nearestSqDist : WithTop ℚ)
    (sorted : List (Node α × ℚ)) : List (Node α × ℚ) :=
  let minMinMaxDist := sorted.foldl
    (fun acc p => Min.min ((minMaxDistO pos p.1.bounds : ℚ) : WithTop ℚ) acc)
    nearestSqDist
  sorted.filter (fun p => ((p.2 : ℚ) : WithTop ℚ) ≤ minMinMaxDist)

/-- Child loop of `nearestNeighbor`: visit pruned children in distance
order, breaking off once a child is farther than the current best. -/
def nnGoAux (visit : Node α → Option α → WithTop ℚ → Option α × WithTop ℚ) :
    List (Node α × ℚ) → Option α → WithTop ℚ → Option α × WithTop ℚ
  | [], nearest, nsd => (nearest, nsd)
  | (c, d) :: rest, nearest, nsd =>
    if nsd < ((d : ℚ) : WithTop ℚ) then (nearest, nsd)
    else
      let r := visit c nearest nsd
      if r.2 < nsd then nnGoAux visit rest r.1 r.2
      else nnGoAux visit rest nearest nsd

/-- `nearestNeighbor(pos, node, nearest, nearestSqDist)`; the initial
`math32.Infinity` is the `⊤` of `WithTop ℚ`. -/
def nnRec (pos : Vec2) : ℕ → Node α → Option α → WithTop ℚ → Option α × WithTop ℚ
  | 0, _, nearest, nsd => (nearest, nsd)
  | h + 1, node, nearest, nsd =>
    if node.leaf then
      node.items.foldl
        (fun acc it =>
          let d := (bboxFn it).sqPointDist pos
          if ((d : ℚ) : WithTop ℚ) < acc.2 then (some it, ((d : ℚ) : WithTop ℚ))
          else acc)
        (nearest, nsd)
    else
      nnGoAux (nnRec pos h)
        (pruneNodesL pos nsd (sortNodesByDistance pos node.children)) nearest nsd

/-- `NearestNeighbor(pos)`: closest stored item, `nil` on an empty tree. -/
def RTree.nearestNeighborQ (t : RTree α) (pos : Vec2) : Option α :=
  (nnRec bboxFn pos t.root.height t.root none ⊤).1

/-! ## Insertion and node splitting (rtree.go)

Go mutates nodes along the captured `insertPath`; the model replays the
same updates along the list of child indexes chosen by `chooseSubtree`.
The phase order of the source (all overflow splits bottom-up first, then
`adjustParentBBoxes` extends every path node) is reproduced with a
"pending extension": a recursive call returns the updated path node with
the extension by the inserted box not yet applied, because the parent's
split decisions read the child's pre-extension bounds; the parent applies
it afterwards (inside whichever split half the child landed in). -/

/-- Bounding boxes of a list of items. -/
def itemBBs (xs : List α) : List ORect := xs.map (fun it => some (bboxFn it))

/-- Bounding boxes of a list of nodes. -/
def nodeBBs (cs : List (Node α)) : List ORect := cs.map Node.bounds

/-- `extend(&n.bounds, bb)` on a node. -/
def extendO (n : Node α) (bb : ORect) : Node α :=
  Node.mk n.children n.items n.height n.leaf (mergeO n.bounds bb)

/-- `enlargedArea` on possibly-absent rectangles: the area of the merged
box (for present rectangles this is exactly the Go width·height formula,
and `noBounds` is the neutral element of the merge). -/
def enlargedAreaOO (a b : ORect) : ℚ := areaO (mergeO a b)

/-- `intersectionArea` on possibly-absent rectangles: despite the name it
returns the area of the *merged* box (`a.Merge(b).Area()`). -/
def intersectionAreaO (a b : ORect) : ℚ := areaO (mergeO a b)

/-- `nodesByMinX` sort key; `noBounds.Min[0]` is `+Inf`, i.e. `⊤`. -/
def keyNX (n : Node α) : WithTop ℚ :=
  match n.bounds with
  | none => ⊤
  | some r => (r.min.x : WithTop ℚ)

/-- `nodesByMinY` sort key. -/
def keyNY (n : Node α) : WithTop ℚ :=
  match n.bounds with
  | none => ⊤
  | some r => (r.min.y : WithTop ℚ)

/-- The inner loop of `chooseSubtree`: index of the child with the least
area enlargement, ties broken by the smaller area.  `minArea` is updated
with `vmath.Min(minArea, area)` when a better enlargement is found, as in
the source. -/
def chooseChildGo (bb : ORect) :
    List (Node α) → ℕ → WithTop ℚ → WithTop ℚ → Option ℕ → Option ℕ
  | [], _, _, _, best => best
  | c :: cs, i, minEnl, minArea, best =>
    let area : ℚ := areaO c.bounds
    let enl : ℚ := enlargedAreaOO bb c.bounds - area
    if (enl : WithTop ℚ) < minEnl then
      chooseChildGo bb cs (i + 1) (enl : WithTop ℚ) (Min.min minArea (area : WithTop ℚ)) (some i)
    else if (enl : WithTop ℚ) = minEnl then
      if (area : WithTop ℚ) < minArea then
        chooseChildGo bb cs (i + 1) minEnl (area : WithTop ℚ) (some i)
      else chooseChildGo bb cs (i + 1) minEnl minArea best
    else chooseChildGo bb cs (i + 1) minEnl minArea best

/-- `chooseSubtree(bbox, root, level)` as the list of child indexes from
the root down to the target node (the target is where the list ends:
at a leaf or at depth `level`). -/
def chooseSubtreePath (bb : ORect) : ℕ → Node α → ℕ → ℕ → List ℕ
  | 0, _, _, _ => []
  | f + 1, n, depth, level =>
    if n.leaf || depth == level then []
    else
      match chooseChildGo bb n.children 0 ⊤ ⊤ none with
      | none => []
      | some i => i :: chooseSubtreePath bb f (n.children.getD i newNode) (depth + 1) level

/-- One margin-accumulating sweep of `allDistMargin`: extend the running
box by each entry in turn, summing the margins. -/
def marginSweep : List ORect → ORect → ℚ
  | [], _ => 0
  | b :: bs, acc =>
    let acc1 := mergeO acc b
    marginO acc1 + marginSweep bs acc1

/-- `allDistMargin(node, min, max)` over the sorted entry boxes. -/
def allDistMarginB (minE cnt : ℕ) (bbs : List ORect) : ℚ :=
  let leftB := foldBounds (bbs.take minE)
  let rightB := foldBounds ((bbs.take cnt).drop (cnt - minE))
  marginO leftB + marginO rightB
    + marginSweep ((bbs.take (cnt - minE)).drop minE) leftB
    + marginSweep (((bbs.take (cnt - minE)).drop minE).reverse) rightB

/-- `chooseSplitIndex(node, min, count)` over the sorted entry boxes:
minimise the "overlap" (in fact the merged area), ties by total area;
`minArea` is clipped with `vmath.Min(area, minArea)` on an overlap
improvement, as in the source.  Defaults to `count - min`. -/
def chooseSplitIndexB (minE cnt : ℕ) (bbs : List ORect) : ℕ :=
  (((List.range (cnt - 2 * minE + 1)).map (fun k => k + minE)).foldl
    (fun (st : WithTop ℚ × WithTop ℚ × ℕ) i =>
      let b1 := foldBounds (bbs.take i)
      let b2 := foldBounds ((bbs.take cnt).drop i)
      let ov : ℚ := intersectionAreaO b1 b2
      let ar : ℚ := areaO b1 + areaO b2
      if (ov : WithTop ℚ) < st.1 then
        ((ov : WithTop ℚ), Min.min (ar : WithTop ℚ) st.2.1, i)
      else if (ov : WithTop ℚ) = st.1 then
        if (ar : WithTop ℚ) < st.2.1 then (st.1, (ar : WithTop ℚ), i)
        else st
      else st)
    (⊤, ⊤, cnt - minE)).2.2

/-- `split` of a leaf node: `chooseSplitAxis` (sort by x, compare the
total distribution margins with the y-sort, keep the better axis),
`chooseSplitIndex`, then distribute the items and `calcBBox` both halves.
The kept half retains the node's `children` field untouched. -/
def splitLeaf (minE : ℕ) (n : Node α) : Node α × Node α :=
  let cnt := n.entryCount
  let kx := fun it => (bboxFn it).min.x
  let ky := fun it => (bboxFn it).min.y
  let sx := n.items.insertionSort (fun a b => decide (kx a ≤ kx b))
  let mX := allDistMarginB minE cnt (itemBBs bboxFn sx)
  let sy := sx.insertionSort (fun a b => decide (ky a ≤ ky b))
  let mY := allDistMarginB minE cnt (itemBBs bboxFn sy)
  let sorted := if mX < mY then sy.insertionSort (fun a b => decide (kx a ≤ kx b)) else sy
  let idx := chooseSplitIndexB minE cnt (itemBBs bboxFn sorted)
  (Node.mk n.children (sorted.take idx) n.height n.leaf (foldBounds (itemBBs bboxFn (sorted.take idx))),
   Node.mk [] (sorted.drop idx) n.height n.leaf (foldBounds (itemBBs bboxFn (sorted.drop idx))))

/-- `split` of an internal node.  The child at index `mark` (the one on
the insertion path) still owes its extension by the inserted box `bb`;
the split decisions read its pre-extension bounds and the extension is
applied inside whichever half it lands in, without touching that half's
freshly computed bounds (in the source the extension is the later
in-place `adjustParentBBoxes` mutation). -/
def splitInternal (minE : ℕ) (mark : Option ℕ) (bb : ORect) (n : Node α) : Node α × Node α :=
  let cnt := n.entryCount
  let pairs := n.children.enum.map (fun p => (p.2, mark == some p.1))
  let kx := fun (p : Node α × Bool) => keyNX p.1
  let ky := fun (p : Node α × Bool) => keyNY p.1
  let sx := pairs.insertionSort (fun a b => decide (kx a ≤ kx b))
  let mX := allDistMarginB minE cnt (sx.map (fun p => p.1.bounds))
  let sy := sx.insertionSort (fun a b => decide (ky a ≤ ky b))
  let mY := allDistMarginB minE cnt (sy.map (fun p => p.1.bounds))
  let sorted := if mX < mY then sy.insertionSort (fun a b => decide (kx a ≤ kx b)) else sy
  let idx := chooseSplitIndexB minE cnt (sorted.map (fun p => p.1.bounds))
  let unmark := fun (p : Node α × Bool) => if p.2 then extendO p.1 bb else p.1
  let lp := sorted.take idx
  let rp := sorted.drop idx
  (Node.mk (lp.map unmark) n.items n.height n.leaf (foldBounds (lp.map (fun p => p.1.bounds))),
   Node.mk (rp.map unmark) [] n.height n.leaf (foldBounds (rp.map (fun p => p.1.bounds))))

/-- `split`: dispatch on the leaf flag. -/
def splitStep (minE : ℕ) (mark : Option ℕ) (bb : ORect) (n : Node α) : Node α × Node α :=
  if n.leaf then splitLeaf bboxFn minE n else splitInternal minE mark bb n

/-- The per-level step of the insertion replay at an internal path node:
install the updated child, append its split sibling (if any), split on
overflow (only the sibling's arrival can overflow, matching the break of
the `splitNodes` cascade), and otherwise settle the child's pending
extension. -/
def insertStep (bb : ORect) (maxE minE : ℕ)
    (rec : Node α → Node α × Option (Node α)) (i : ℕ) (n : Node α) :
    Node α × Option (Node α) :=
  let pr := rec (n.children.getD i newNode)
  match pr.2 with
  | none =>
    (Node.mk (n.children.set i (extendO pr.1 bb)) n.items n.height n.leaf n.bounds, none)
  | some s =>
    let children1 := n.children.set i pr.1 ++ [s]
    let n1 := Node.mk children1 n.items n.height n.leaf n.bounds
    if maxE < n1.entryCount then
      let q := splitStep bboxFn minE (some i) bb n1
      (q.1, some q.2)
    else
      (Node.mk (children1.set i (extendO pr.1 bb)) n.items n.height n.leaf n.bounds, none)

/-- Replay of `Insert` below the root along the chosen index path: the
target leaf receives the item and the bounds extension, then overflow
splits cascade upwards.  Returns the updated path node (extension by the
item's box still pending) and its split sibling, if any. -/
def insertGo (bb : Rectf) (it : α) (maxE minE : ℕ) : List ℕ → Node α → Node α × Option (Node α)
  | [], n =>
    let n1 := Node.mk n.children (n.items ++ [it]) n.height n.leaf (mergeO n.bounds (some bb))
    if maxE < n1.entryCount then
      let q := splitStep bboxFn minE none (some bb) n1
      (q.1, some q.2)
    else (n1, none)
  | i :: rest, n => insertStep bboxFn (some bb) maxE minE (insertGo bb it maxE minE rest) i n

/-- Replay of `insertNode` (subtree insertion at a given level): the
target node receives the new child and the bounds extension. -/
def insertNodeGo (bb : ORect) (nn : Node α) (maxE minE : ℕ) :
    List ℕ → Node α → Node α × Option (Node α)
  | [], n =>
    let n1 := Node.mk (n.children ++ [nn]) n.items n.height n.leaf (mergeO n.bounds bb)
    if maxE < n1.entryCount then
      let q := splitStep bboxFn minE none bb n1
      (q.1, some q.2)
    else (n1, none)
  | i :: rest, n => insertStep bboxFn bb maxE minE (insertNodeGo bb nn maxE minE rest) i n

/-- `splitRoot(a, b)`: fresh root with the two nodes as children. -/
def splitRootMk (a b : Node α) : Node α :=
  Node.mk [a, b] [] (a.height + 1) false (mergeO (mergeO none a.bounds) b.bounds)

/-- Finish an insertion: settle the root's pending extension and, if the
root split, grow a new root.  `splitRoot` computes the new root's bounds
before `adjustParentBBoxes` extends the kept half, so the extension is
applied inside the children list only. -/
def finishInsert (bb : ORect) (pr : Node α × Option (Node α)) : Node α :=
  match pr.2 with
  | none => extendO pr.1 bb
  | some s =>
    Node.mk [extendO pr.1 bb, s] [] (pr.1.height + 1) false
      (mergeO (mergeO none pr.1.bounds) s.bounds)

/-- `Insert(item)`. -/
def RTree.insertItem (t : RTree α) (it : α) : RTree α :=
  let bb := bboxFn it
  let path := chooseSubtreePath (some bb) (t.root.height + 1) t.root 0 (t.root.height - 1)
  { t with root := finishInsert (some bb) (insertGo bboxFn bb it t.maxEntries t.minEntries path t.root) }

/-- `insertNode(node, level)`. -/
def RTree.insertNodeOp (t : RTree α) (nn : Node α) (level : ℕ) : RTree α :=
  let bb := nn.bounds
  let path := chooseSubtreePath bb (t.root.height + 1) t.root 0 level
  { t with root := finishInsert bb (insertNodeGo bboxFn bb nn t.maxEntries t.minEntries path t.root) }

/-! ## Removal (rtree.go)

`Remove` is a pruned depth-first search: every visited leaf is scanned
for the item, and an internal node is descended into only if its bounds
contain the item's box.  On a hit, `condense` recomputes the bounds of
every node on the path bottom-up and unlinks nodes that became empty
(clearing the tree if the root itself ran empty). -/

/-- `removeChildItem`: drop the first stored item equal to the target. -/
def removeFirstMatch (eqF : α → α → Bool) (target : α) : List α → Option (List α)
  | [] => none
  | x :: xs =>
    if eqF target x then some xs
    else
      match removeFirstMatch eqF target xs with
      | none => none
      | some xs1 => some (x :: xs1)

/-- Try the removal on each child in order; on the first success rebuild
the children list (dropping a child that ran empty, as `condense` does). -/
def removeKidsAux (rec : Node α → Option (Option (Node α))) :
    List (Node α) → Option (List (Node α))
  | [] => none
  | c :: cs =>
    match rec c with
    | some none => some cs
    | some (some c1) => some (c1 :: cs)
    | none =>
      match removeKidsAux rec cs with
      | none => none
      | some cs1 => some (c :: cs1)

/-- The pruned depth-first removal.  `none`: item not found here;
`some none`: found, and this node ran empty (to be unlinked);
`some (some n1)`: found, node rebuilt with recomputed bounds. -/
def removeGo (bb : Rectf) (target : α) (eqF : α → α → Bool) :
    ℕ → Node α → Option (Option (Node α))
  | 0, _ => none
  | h + 1, n =>
    if n.leaf then
      match removeFirstMatch eqF target n.items with
      | none => none
      | some items1 =>
        if n.children.length + items1.length == 0 then some none
        else some (some (Node.mk n.children items1 n.height n.leaf (foldBounds (itemBBs bboxFn items1))))
    else
      if containsO' n.bounds bb then
        match removeKidsAux (removeGo bb target eqF h) n.children with
        | none => none
        | some cs1 =>
          if cs1.length + n.items.length == 0 then some none
          else some (some (Node.mk cs1 n.items n.height n.leaf (foldBounds (nodeBBs cs1))))
      else none

/-- `Remove(item, equalsFn)`; a `none` comparator is the Go interface
equality `child == item`, modelled by decidable equality on `α`. -/
def RTree.removeOp (t : RTree α) (target : α) (eqF : Option (α → α → Bool)) : RTree α :=
  let eq1 := eqF.getD (fun a b => decide (a = b))
  match removeGo bboxFn (bboxFn target) target eq1 t.root.height t.root with
  | none => t
  | some none => { t with root := newNode }
  | some (some r1) => { t with root := r1 }

/-! ## OMT bulk loading (rtree.go)

`build` splits the items into near-square groups by partially sorting by
x into vertical strips and each strip by y.  The goroutine-parallel strip
processing appends children under a mutex in nondeterministic order; the
model fixes the sequential strip order.  The random quickselect pivots
come from the `σ` stream, split into independent substreams with
`Nat.pair` tags (all claims quantify over every stream). -/

/-- A fresh leaf for an item group (`newNode` + items + `calcBBox`). -/
def mkLeafB (xs : List α) : Node α :=
  Node.mk [] xs 1 true (foldBounds (itemBBs bboxFn xs))

/-- One internal layer of `build`: group by x into strips of `grpX`, each
strip by y into groups of `grpY`, and build a child from every group. -/
def buildLayer (rec : ℕ → List α → Node α) (σ : ℕ → ℕ)
    (grpY grpX height : ℕ) (xs : List α) : Node α :=
  let xs1 := groupItemsL (fun it => (bboxFn it).min.x) (fun k => σ (Nat.pair 0 k)) grpX xs
  let children := ((chunk grpX xs1).enum.map (fun p =>
    let s1 := groupItemsL (fun it => (bboxFn it).min.y)
      (fun k => σ (Nat.pair 1 (Nat.pair p.1 k))) grpY p.2
    (chunk grpY s1).enum.map (fun q => rec (Nat.pair p.1 q.1) q.2))).flatten
  Node.mk children [] height false (foldBounds (nodeBBs children))

/-- The recursive (non-top) `build(items, left, right, height)`: a leaf
once the group fits in a node, otherwise a layer with `grpY = ⌈count/E⌉`
and `grpX = grpY·⌈√E⌉`.  A call with height `0` and an oversized group is
unreachable (the balance invariant gives `count ≤ E^height`). -/
def buildRec (maxE : ℕ) : ℕ → (ℕ → ℕ) → List α → Node α
  | 0, _, xs => mkLeafB bboxFn xs
  | h + 1, σ, xs =>
    if xs.length ≤ maxE then mkLeafB bboxFn xs
    else
      let grpY := ceilDiv xs.length maxE
      buildLayer bboxFn
        (fun tag => buildRec maxE h (fun k => σ (Nat.pair 2 (Nat.pair tag k))))
        (fun k => σ (Nat.pair 3 k)) grpY (grpY * csqrt maxE) (h + 1) xs

/-- The top-level `build` call (`height = 0` in the source): computes the
target height `⌈log_E count⌉` and widens the root fan-out to
`⌈count / E^(height-1)⌉` before building the first layer. -/
def buildTop (maxE : ℕ) (σ : ℕ → ℕ) (xs : List α) : Node α :=
  if xs.length ≤ maxE then mkLeafB bboxFn xs
  else
    let height := clogCeil maxE xs.length
    let mx := ceilDiv xs.length (maxE ^ (height - 1))
    let grpY := ceilDiv xs.length mx
    buildLayer bboxFn
      (fun tag => buildRec bboxFn maxE (height - 1) (fun k => σ (Nat.pair 2 (Nat.pair tag k))))
      (fun k => σ (Nat.pair 3 k)) grpY (grpY * csqrt mx) height xs

/-- `BulkLoad(items)`: small batches are inserted one by one; otherwise
the batch is built into a separate tree that is adopted, merged root-to-
root, or inserted as a subtree into the taller tree (STLT). -/
def RTree.bulkLoad (σ : ℕ → ℕ) (t : RTree α) (xs : List α) : RTree α :=
  if xs.length < t.minEntries then
    xs.foldl (fun tt it => RTree.insertItem bboxFn tt it) t
  else
    let newTree := buildTop bboxFn t.maxEntries σ xs
    if t.root.entryCount == 0 then { t with root := newTree }
    else if t.root.height == newTree.height then
      { t with root := splitRootMk t.root newTree }
    else if t.root.height < newTree.height then
      RTree.insertNodeOp bboxFn { t with root := newTree } t.root
        (newTree.height - t.root.height - 1)
    else
      RTree.insertNodeOp bboxFn t newTree (t.root.height - newTree.height - 1)

/-! ## Structural invariants (checked, decidable) -/

/-- Well-formed subtree: consistent heights and leaf flags, no items in
internal nodes, no children in leaves, internal nodes non-empty. -/
def wfB : ℕ → Node α → Bool
  | 0, _ => false
  | f + 1, n =>
    if n.leaf then n.children.isEmpty && n.height == 1
    else
      n.items.isEmpty && !n.children.isEmpty
        && n.children.all (fun c => c.height + 1 == n.height && wfB f c)

/-- Every node's bounds contain the boxes of all items in its subtree. -/
def coversB : ℕ → Node α → Bool
  | 0, _ => true
  | f + 1, n =>
    (subItemsF (f + 1) n).all (fun it => containsO' n.bounds (bboxFn it))
      && n.children.all (coversB f)

/-- Every node's bounds equal the exact union of its subtree item boxes. -/
def boundsExactB : ℕ → Node α → Bool
  | 0, _ => true
  | f + 1, n =>
    decide (n.bounds = foldBounds (itemBBs bboxFn (subItemsF (f + 1) n)))
      && n.children.all (boundsExactB f)

/-- Every node in the subtree holds at most `maxE` entries. -/
def entryLeB (maxE : ℕ) : ℕ → Node α → Bool
  | 0, _ => true
  | f + 1, n => decide (n.entryCount ≤ maxE) && n.children.all (entryLeB maxE f)

/-- Every node in the subtree holds between `minE` and `maxE` entries. -/
def entryRangeB (minE maxE : ℕ) : ℕ → Node α → Bool
  | 0, _ => true
  | f + 1, n =>
    decide (minE ≤ n.entryCount) && decide (n.entryCount ≤ maxE)
      && n.children.all (entryRangeB minE maxE f)

/-- The trees constructible through the public mutating interface. -/
inductive Reachable (bf : α → Rectf) : RTree α → Prop where
  | mkNew (m : ℤ) : Reachable bf (RTree.new α m)
  | clearOf {t : RTree α} : Reachable bf t → Reachable bf (RTree.clear t)
  | insertOf {t : RTree α} (it : α) : Reachable bf t → Reachable bf (RTree.insertItem bf t it)
  | bulkLoadOf {t : RTree α} (σ : ℕ → ℕ) (xs : List α) :
      Reachable bf t → Reachable bf (RTree.bulkLoad bf σ t xs)
  | removeOf {t : RTree α} (it : α) (eq : Option (α → α → Bool)) :
      Reachable bf t → Reachable bf (RTree.removeOp bf t it eq)

end TreeOps

/-- Containment between optional rectangles: `noBounds` is contained in
everything and contains nothing but `noBounds`. -/
def subO : ORect → ORect → Bool
  | none, _ => true
  | some _, none => false
  | some ra, some rb => rb.containsR ra

/-- One-sided bounds accuracy: every node's cached bounds contain the
union of the bounding boxes of all items in its subtree (the containment
half of `boundsExactB`). -/
def boundsSupB {α : Type} (bboxFn : α → Rectf) : ℕ → Node α → Bool
  | 0, _ => true
  | f + 1, n =>
    subO (foldBounds (itemBBs bboxFn (subItemsF (f + 1) n))) n.bounds
      && n.children.all (boundsSupB bboxFn f)

/-- Recursive "positive query" predicate: one node-expansion step of the
`Intersects`/`search` traversals reports a hit on a node when some child
bound intersects the (normalized) area and is either fully contained in
it or recursively hits, or when some item box intersects the area. -/
def hitB {α : Type} (bboxFn : α → Rectf) (area : Rectf) : ℕ → Node α → Bool
  | 0, _ => false
  | f + 1, n =>
    n.children.any (fun c => intersectsO area c.bounds
        && (containsO area c.bounds || hitB bboxFn area f c))
      || n.items.any (fun it => area.intersects (bboxFn it))

section TreeInv

variable {α : Type} (bf : α → Rectf)

/-- The checked per-subtree invariant maintained by every public
operation: the fuel equals the cached height; leaves have height 1, no
children, and (below the root) at least one item; internal nodes have no
items, at least one child, and children of height one less; every node
has at most `maxE` entries; and every node's bounds contain the box of
every item in its subtree. -/
def okB (maxE : ℕ) (isRoot : Bool) : ℕ → Node α → Bool
  | 0, _ => false
  | f + 1, n =>
    decide (n.height = f + 1)
    && (if n.leaf then
          n.children.isEmpty && n.height == 1 && (isRoot || !n.items.isEmpty)
        else
          n.items.isEmpty && !n.children.isEmpty
            && n.children.all (fun c => c.height + 1 == n.height))
    && decide (n.entryCount ≤ maxE)
    && (subItemsF (f + 1) n).all (fun x => containsO' n.bounds (bf x))
    && n.children.all (okB maxE false f)

/-- The parameter facts `New` establishes and no operation changes. -/
def paramsOkB (t : RTree α) : Bool :=
  decide (4 ≤ t.maxEntries) && decide (2 ≤ t.minEntries)
    && decide (2 * t.minEntries ≤ t.maxEntries + 1)

/-- The whole-tree invariant: parameters plus the root's subtree. -/
def treeOkB (t : RTree α) : Bool :=
  paramsOkB t && okB bf t.maxEntries true t.root.height t.root

end TreeInv

/-- Validity of a `chooseSubtree` index path ending at a leaf (the shape
produced for item insertion in a well-formed tree). -/
def leafPathB {α : Type} : List ℕ → Node α → Bool
  | [], n => n.leaf
  | i :: rest, n =>
    !n.leaf && decide (i < n.children.length) && leafPathB rest (n.children.getD i newNode)

/-- Validity of a `chooseSubtree` index path ending at an internal node
of the given height (the shape produced for subtree insertion). -/
def descPathB {α : Type} (th : ℕ) : List ℕ → Node α → Bool
  | [], n => decide (n.height = th) && !n.leaf
  | i :: rest, n =>
    !n.leaf && decide (i < n.children.length) && descPathB th rest (n.children.getD i newNode)

/-- The quantity `chooseSubtree` minimises for a child: the area
enlargement `enlargedArea(bbox, child.bounds) - area(child.bounds)`. -/
def enlC (bb : ORect) {α : Type} (c : Node α) : ℚ :=
  enlargedAreaOO bb c.bounds - areaO c.bounds

/-! ## Concrete example data

Item type `ℕ`: an item is an index into a fixed table of rectangles, so
distinct copies of geometrically equal boxes stay distinguishable (Go
compares interface values). -/

/-- A degenerate point rectangle. -/
def ptB (x y : ℚ) : Rectf := ⟨⟨x, y⟩, ⟨x, y⟩⟩

/-- Five points on the x-axis at 0, 10, 2, 7, 4. -/
def bfA (n : ℕ) : Rectf := ptB ([0, 10, 2, 7, 4].getD n 0) 0

/-- The five points of `bfA` inserted one by one (maxEntries 4): the
fifth insert splits the root leaf and `adjustParentBBoxes` inflates the
kept half's bounds by the box of the item that moved to the sibling. -/
def tA : RTree ℕ :=
  RTree.insertItem bfA (RTree.insertItem bfA (RTree.insertItem bfA (RTree.insertItem bfA
    (RTree.insertItem bfA (RTree.new ℕ 4) 0) 1) 2) 3) 4

/-- Points 0, 1, 2, … on the x-axis. -/
def bfB (n : ℕ) : Rectf := ptB (n : ℚ) 0

/-- Thirteen points bulk-loaded into an empty tree (maxEntries 4): the
OMT grouping leaves a last leaf with a single item. -/
def tB : RTree ℕ := RTree.bulkLoad bfB (fun _ => 0) (RTree.new ℕ 4) (List.range 13)

/-- Six points: a cluster near (4,2), one far point (10,4), one at (5,5). -/
def bfC (n : ℕ) : Rectf :=
  ptB ([4, 4, 4, 3, 10, 5].getD n 0) ([2, 2, 0, 2, 4, 5].getD n 0)

/-- Insert the six `bfC` points, then remove the far point 4: the leaf
kept by the split retains bounds inflated towards (10,4) although the
supporting item is gone. -/
def tC : RTree ℕ :=
  RTree.removeOp bfC
    (RTree.insertItem bfC (RTree.insertItem bfC (RTree.insertItem bfC (RTree.insertItem bfC
      (RTree.insertItem bfC (RTree.insertItem bfC (RTree.new ℕ 4) 0) 1) 2) 3) 4) 5)
    4 none

/-- The nearest-neighbour query position for `tC`. -/
def posC : Vec2 := ⟨10, 4⟩

/-- Items 0–4 are points near (100,100); any other index is the origin. -/
def bfD (n : ℕ) : Rectf := if n < 5 then ptB (100 + (n : ℚ)) 100 else ptB 0 0

/-- Five far points inserted one by one (height-2 tree). -/
def tD : RTree ℕ :=
  RTree.insertItem bfD (RTree.insertItem bfD (RTree.insertItem bfD (RTree.insertItem bfD
    (RTree.insertItem bfD (RTree.new ℕ 4) 0) 1) 2) 3) 4

/-- A leaf node carrying only a bounding box (for `chooseSubtree` data). -/
def mkLeafRect (r : Rectf) : Node ℕ := Node.mk [] [] 1 true (some r)

/-- Three children: a small off-target box, a large box containing the
query box, and a smaller box also containing the query box. -/
def kidsC5 : List (Node ℕ) :=
  [mkLeafRect ⟨⟨0,0⟩,⟨1,1⟩⟩, mkLeafRect ⟨⟨0,0⟩,⟨10,10⟩⟩, mkLeafRect ⟨⟨2,2⟩,⟨8,8⟩⟩]

/-- The query box for the `chooseSubtree` step on `kidsC5`. -/
def bbC5 : ORect := some ⟨⟨3,3⟩,⟨4,4⟩⟩

section QuickselectLemmas

variable {α : Type} [Inhabited α] {lt : α → α → Bool}

theorem length_swapL (a : List α) (i j : ℕ) : (swapL a i j).length = a.length := by
  simp [swapL]

theorem getD_swapL_of_ne (a : List α) {i j k : ℕ} (hi : k ≠ i) (hj : k ≠ j) (d : α) :
    (swapL a i j).getD k d = a.getD k d := by
  simp only [swapL, List.getD_eq_getElem?_getD, List.getElem?_set]
  simp [Ne.symm hj, Ne.symm hi]

theorem getD_swapL_left (a : List α) {i j : ℕ} (hi : i < a.length) (hj : j < a.length) :
    (swapL a i j).getD i default = a.getD j default := by
  by_cases hij : i = j
  · subst hij
    simp [swapL, List.getD_eq_getElem?_getD, List.getElem?_set, hi]
  · simp only [swapL, List.getD_eq_getElem?_getD, List.getElem?_set]
    simp [Ne.symm hij, hij, hi, List.getElem?_eq_getElem hj, List.getElem?_eq_getElem hi]

theorem getD_swapL_right (a : List α) {i j : ℕ} (hi : i < a.length) (hj : j < a.length) :
    (swapL a i j).getD j default = a.getD i default := by
  simp only [swapL, List.getD_eq_getElem?_getD, List.getElem?_set]
  simp [hj, List.length_set, List.getElem?_eq_getElem hi]

theorem set_getD_self (a : List α) (i : ℕ) (d : α) (h : i < a.length) :
    a.set i (a.getD i d) = a := by
  apply List.ext_getElem?
  intro k
  rw [List.getElem?_set]
  split
  · next heq =>
    subst heq
    rw [List.getD_eq_getElem a d h]
    exact (List.getElem?_eq_getElem h).symm
  · rfl

theorem swapL_perm (a : List α) {i j : ℕ} (hi : i < a.length) (hj : j < a.length) :
    (swapL a i j).Perm a := by
  classical
  rcases eq_or_ne i j with hij | hij
  · subst hij
    unfold swapL
    rw [List.set_set, set_getD_self a i default hi]
  · rw [List.perm_iff_count]
    intro x
    unfold swapL
    have hi' : i < (a.set i (a.getD j default)).length := by simpa using hi
    have hj' : j < (a.set i (a.getD j default)).length := by simpa using hj
    rw [List.count_set (h := hj'), List.count_set (h := hi)]
    have e1 : (a.set i (a.getD j default))[j] = a[j] := by
      rw [List.getElem_set]
      simp [hij]
    have e2 : a.getD j default = a[j] := List.getD_eq_getElem a default hj
    have e3 : a.getD i default = a[i] := List.getD_eq_getElem a default hi
    rw [e1, e2, e3]
    have c1 : (if (a[j] == x) = true then 1 else 0) ≤ List.count x a := by
      split
      · next h => exact List.one_le_count_iff.mpr ((beq_iff_eq.mp h) ▸ List.getElem_mem hj)
      · exact Nat.zero_le _
    have c2 : (if (a[i] == x) = true then 1 else 0) ≤ List.count x a := by
      split
      · next h => exact List.one_le_count_iff.mpr ((beq_iff_eq.mp h) ▸ List.getElem_mem hi)
      · exact Nat.zero_le _
    omega

theorem scanL_ge (a : List α) (lastIdx pivotIdx : ℕ) :
    ∀ fuel left, left ≤ scanL lt a lastIdx pivotIdx fuel left
  | 0, left => Nat.le_refl _
  | fuel + 1, left => by
    unfold scanL
    split
    · split
      · exact Nat.le_trans (Nat.le_succ _) (scanL_ge a lastIdx pivotIdx fuel (left + 1))
      · exact Nat.le_refl _
    · exact Nat.le_refl _

theorem scanL_passes (a : List α) (lastIdx pivotIdx : ℕ) :
    ∀ fuel left k, left ≤ k → k < scanL lt a lastIdx pivotIdx fuel left →
      lessAt lt a k pivotIdx = true
  | 0, left, k, hk1, hk2 => absurd (Nat.lt_of_le_of_lt hk1 hk2) (Nat.lt_irrefl _)
  | fuel + 1, left, k, hk1, hk2 => by
    revert hk2
    unfold scanL
    split
    · split
      · next hless =>
        intro hk2
        rcases Nat.eq_or_lt_of_le hk1 with heq | hlt
        · exact heq ▸ hless
        · exact scanL_passes a lastIdx pivotIdx fuel (left + 1) k hlt hk2
      · intro hk2
        exact absurd (Nat.lt_of_le_of_lt hk1 hk2) (Nat.lt_irrefl _)
    · intro hk2
      exact absurd (Nat.lt_of_le_of_lt hk1 hk2) (Nat.lt_irrefl _)

theorem scanL_stop (a : List α) (lastIdx pivotIdx : ℕ) :
    ∀ fuel left, lastIdx + 2 ≤ fuel + left →
      lastIdx < scanL lt a lastIdx pivotIdx fuel left ∨
        lessAt lt a (scanL lt a lastIdx pivotIdx fuel left) pivotIdx = false
  | 0, left, hf => by
    left
    show lastIdx < scanL lt a lastIdx pivotIdx 0 left
    unfold scanL
    omega
  | fuel + 1, left, hf => by
    unfold scanL
    split
    · next hle =>
      split
      · exact scanL_stop a lastIdx pivotIdx fuel (left + 1) (by omega)
      · next hless => exact Or.inr (Bool.of_not_eq_true hless)
    · next hgt => exact Or.inl (Nat.lt_of_not_le hgt)

theorem scanR_le (a : List α) (pivotIdx : ℕ) :
    ∀ fuel right, scanR lt a pivotIdx fuel right ≤ right
  | 0, right => Nat.le_refl _
  | fuel + 1, right => by
    unfold scanR
    split
    · split
      · exact Nat.le_trans (scanR_le a pivotIdx fuel (right - 1)) (Nat.sub_le _ _)
      · exact Nat.le_refl _
    · exact Nat.le_refl _

theorem scanR_ge (hirr : ∀ x : α, lt x x = false) (a : List α) (pivotIdx : ℕ) :
    ∀ fuel right, pivotIdx ≤ right → pivotIdx ≤ scanR lt a pivotIdx fuel right
  | 0, right, h => h
  | fuel + 1, right, h => by
    unfold scanR
    rw [if_pos h]
    split
    · next hless =>
      have hne : pivotIdx ≠ right := by
        intro heq
        rw [heq, lessAt, hirr] at hless
        exact Bool.false_ne_true hless
      exact scanR_ge hirr a pivotIdx fuel (right - 1) (by omega)
    · exact h

theorem scanR_passes (a : List α) (pivotIdx : ℕ) :
    ∀ fuel right k, scanR lt a pivotIdx fuel right < k → k ≤ right →
      lessAt lt a pivotIdx k = true
  | 0, right, k, hk1, hk2 => absurd (Nat.lt_of_lt_of_le hk1 hk2) (Nat.lt_irrefl _)
  | fuel + 1, right, k, hk1, hk2 => by
    revert hk1
    unfold scanR
    split
    · split
      · next hless =>
        intro hk1
        rcases Nat.eq_or_lt_of_le hk2 with heq | hlt
        · exact heq ▸ hless
        · exact scanR_passes a pivotIdx fuel (right - 1) k hk1 (by omega)
      · intro hk1
        exact absurd (Nat.lt_of_lt_of_le hk1 hk2) (Nat.lt_irrefl _)
    · intro hk1
      exact absurd (Nat.lt_of_lt_of_le hk1 hk2) (Nat.lt_irrefl _)

theorem scanR_stop (hirr : ∀ x : α, lt x x = false) (a : List α) (pivotIdx : ℕ) :
    ∀ fuel right, pivotIdx ≤ right → right + 1 ≤ fuel + pivotIdx →
      lessAt lt a pivotIdx (scanR lt a pivotIdx fuel right) = false
  | 0, right, h, hf => by
    have : right = pivotIdx := by omega
    subst this
    unfold scanR
    rw [lessAt, hirr]
  | fuel + 1, right, h, hf => by
    unfold scanR
    rw [if_pos h]
    split
    · next hless =>
      have hne : pivotIdx ≠ right := by
        intro heq
        rw [heq, lessAt, hirr] at hless
        exact Bool.false_ne_true hless
      exact scanR_stop hirr a pivotIdx fuel (right - 1) (by omega) (by omega)
    · next hless => exact Bool.of_not_eq_true hless

/-- Loop invariant of `partition`'s outer loop: at exit the pivot value
(at index `f`) is untouched, entries of `[f+1, rr]` are not greater than
the pivot, entries of `(rr, l]` are not smaller, the list is a
permutation touching only `[f, l]`, and `rr` stays within `[f, l]`. -/
theorem partGo_spec (hirr : ∀ x : α, lt x x = false)
    (hasym : ∀ x y : α, lt x y = true → lt y x = false) :
    ∀ (fuel : ℕ) (a : List α) (left right f l : ℕ),
    f + 1 ≤ left → f ≤ right → right ≤ l → l < a.length →
    right + 2 ≤ fuel + left →
    (∀ k, f + 1 ≤ k → k < left → lt (a.getD f default) (a.getD k default) = false) →
    (∀ k, right < k → k ≤ l → lt (a.getD k default) (a.getD f default) = false) →
    (partGo lt f l fuel a left right).1.length = a.length ∧
      (partGo lt f l fuel a left right).1.Perm a ∧
      (∀ k, k < f ∨ l < k →
        (partGo lt f l fuel a left right).1.getD k default = a.getD k default) ∧
      (partGo lt f l fuel a left right).1.getD f default = a.getD f default ∧
      f ≤ (partGo lt f l fuel a left right).2 ∧
      (partGo lt f l fuel a left right).2 ≤ l ∧
      (∀ k, f + 1 ≤ k → k ≤ (partGo lt f l fuel a left right).2 →
        lt ((partGo lt f l fuel a left right).1.getD f default)
          ((partGo lt f l fuel a left right).1.getD k default) = false) ∧
      (∀ k, (partGo lt f l fuel a left right).2 < k → k ≤ l →
        lt ((partGo lt f l fuel a left right).1.getD k default)
          ((partGo lt f l fuel a left right).1.getD f default) = false)
  | 0, a, left, right, f, l, hleft, hfr, hrl, hlen, hfuel, hLE, hGE => by
    have hlr : right < left := by omega
    unfold partGo
    exact ⟨rfl, List.Perm.refl a, fun k _ => rfl, rfl, hfr, hrl,
      fun k hk1 hk2 => hLE k hk1 (by omega), fun k hk1 hk2 => hGE k hk1 hk2⟩
  | fuel + 1, a, left, right, f, l, hleft, hfr, hrl, hlen, hfuel, hLE, hGE => by
    unfold partGo
    by_cases hlr : left ≤ right
    · rw [if_pos hlr]
      set l1 := scanL lt a l f (l + 2) left with hl1def
      set r1 := scanR lt a f (right + 1) right with hr1def
      have hl1ge : left ≤ l1 := scanL_ge a l f (l + 2) left
      have hl1stop : l < l1 ∨ lessAt lt a l1 f = false :=
        scanL_stop a l f (l + 2) left (by omega)
      have hl1pass : ∀ k, left ≤ k → k < l1 → lessAt lt a k f = true :=
        fun k hk1 hk2 => scanL_passes a l f (l + 2) left k hk1 hk2
      have hr1le : r1 ≤ right := scanR_le a f (right + 1) right
      have hr1ge : f ≤ r1 := scanR_ge hirr a f (right + 1) right (by omega)
      have hr1stop : lessAt lt a f r1 = false :=
        scanR_stop hirr a f (right + 1) right (by omega) (by omega)
      have hr1pass : ∀ k, r1 < k → k ≤ right → lessAt lt a f k = true :=
        fun k hk1 hk2 => scanR_passes a f (right + 1) right k hk1 hk2
      have hLE2 : ∀ k, f + 1 ≤ k → k < l1 →
          lt (a.getD f default) (a.getD k default) = false := by
        intro k hk1 hk2
        by_cases hkl : k < left
        · exact hLE k hk1 hkl
        · exact hasym _ _ (hl1pass k (by omega) hk2)
      have hGE2 : ∀ k, r1 < k → k ≤ l →
          lt (a.getD k default) (a.getD f default) = false := by
        intro k hk1 hk2
        by_cases hkr : right < k
        · exact hGE k hkr hk2
        · exact hasym _ _ (hr1pass k hk1 (by omega))
      by_cases hcmp : l1 ≤ r1
      · rw [if_pos hcmp]
        have hl1b : l1 ≤ l := by omega
        have hl1len : l1 < a.length := by omega
        have hr1len : r1 < a.length := by omega
        have hfl1 : f < l1 := by omega
        have hfr1 : f < r1 := by omega
        set a2 := swapL a l1 r1 with ha2
        have hlen2 : a2.length = a.length := length_swapL a l1 r1
        have hfix : ∀ k, k ≠ l1 → k ≠ r1 → a2.getD k default = a.getD k default :=
          fun k h1 h2 => getD_swapL_of_ne a h1 h2 default
        have hat_l1 : a2.getD l1 default = a.getD r1 default :=
          getD_swapL_left a hl1len hr1len
        have hat_r1 : a2.getD r1 default = a.getD l1 default :=
          getD_swapL_right a hl1len hr1len
        have hpiv2 : a2.getD f default = a.getD f default :=
          hfix f (by omega) (by omega)
        have ih := partGo_spec hirr hasym fuel a2 (l1 + 1) (r1 - 1) f l
          (by omega) (by omega) (by omega) (by omega) (by omega)
          (by
            intro k hk1 hk2
            rcases Nat.lt_or_ge k l1 with hk | hk
            · rw [hpiv2, hfix k (by omega) (by omega)]
              exact hLE2 k hk1 hk
            · have : k = l1 := by omega
              subst this
              rw [hpiv2, hat_l1]
              have := hr1stop
              rw [lessAt] at this
              exact this)
          (by
            intro k hk1 hk2
            have hkr1 : r1 ≤ k := by omega
            rcases Nat.eq_or_lt_of_le hkr1 with hk | hk
            · rw [hpiv2, ← hk, hat_r1]
              rcases hl1stop with h | h
              · omega
              · rw [lessAt] at h
                exact h
            · rw [hpiv2, hfix k (by omega) (by omega)]
              exact hGE2 k hk hk2)
        obtain ⟨c1, c2, c3, c4, c5, c6, c7, c8⟩ := ih
        refine ⟨by rw [c1, hlen2], c2.trans (swapL_perm a hl1len hr1len), ?_, ?_,
          c5, c6, c7, c8⟩
        · intro k hk
          rw [c3 k hk, hfix k (by omega) (by omega)]
        · rw [c4, hpiv2]
      · rw [if_neg hcmp]
        refine ⟨rfl, List.Perm.refl a, fun k _ => rfl, rfl, hr1ge, by omega, ?_, ?_⟩
        · intro k hk1 hk2
          exact hLE2 k hk1 (by omega)
        · intro k hk1 hk2
          exact hGE2 k hk1 hk2
    · rw [if_neg hlr]
      exact ⟨rfl, List.Perm.refl a, fun k _ => rfl, rfl, hfr, hrl,
        fun k hk1 hk2 => hLE k hk1 (by omega), fun k hk1 hk2 => hGE k hk1 hk2⟩

/-- Postcondition of `partition`: the returned index `p` lies in
`[f, l]`, entries left of `p` (within the range) are not greater than the
entry at `p`, entries right of it are not smaller, and the call permutes
only the segment `[f, l]`. -/
theorem partitionL_spec (hirr : ∀ x : α, lt x x = false)
    (hasym : ∀ x y : α, lt x y = true → lt y x = false)
    (a : List α) (f l g : ℕ) (hfg : f ≤ g) (hgl : g ≤ l) (hlen : l < a.length) :
    (partitionL lt a f l g).1.length = a.length ∧
      (partitionL lt a f l g).1.Perm a ∧
      (∀ k, k < f ∨ l < k →
        (partitionL lt a f l g).1.getD k default = a.getD k default) ∧
      f ≤ (partitionL lt a f l g).2 ∧
      (partitionL lt a f l g).2 ≤ l ∧
      (∀ i, f ≤ i → i < (partitionL lt a f l g).2 →
        lt ((partitionL lt a f l g).1.getD (partitionL lt a f l g).2 default)
          ((partitionL lt a f l g).1.getD i default) = false) ∧
      (∀ j, (partitionL lt a f l g).2 < j → j ≤ l →
        lt ((partitionL lt a f l g).1.getD j default)
          ((partitionL lt a f l g).1.getD (partitionL lt a f l g).2 default) = false) := by
  have hflen : f < a.length := by omega
  have hglen : g < a.length := by omega
  have hlen1 : (swapL a f g).length = a.length := length_swapL a f g
  obtain ⟨c1, c2, c3, c4, c5, c6, c7, c8⟩ :=
    partGo_spec hirr hasym (l + 2) (swapL a f g) (f + 1) l f l
      (Nat.le_refl _) (by omega) (Nat.le_refl _) (by omega) (by omega)
      (fun k hk1 hk2 => by omega) (fun k hk1 hk2 => by omega)
  set b0 := (partGo lt f l (l + 2) (swapL a f g) (f + 1) l).1 with hb0
  set rr := (partGo lt f l (l + 2) (swapL a f g) (f + 1) l).2 with hrr
  have hpart1 : (partitionL lt a f l g).1 = swapL b0 f rr := rfl
  have hpart2 : (partitionL lt a f l g).2 = rr := rfl
  rw [hpart1, hpart2]
  have hfb : f < b0.length := by omega
  have hrb : rr < b0.length := by omega
  have hswr : (swapL b0 f rr).getD rr default = b0.getD f default :=
    getD_swapL_right b0 hfb hrb
  refine ⟨?_, ?_, ?_, c5, c6, ?_, ?_⟩
  · rw [length_swapL, c1, hlen1]
  · exact ((swapL_perm b0 hfb hrb).trans c2).trans (swapL_perm a hflen hglen)
  · intro k hk
    have hk1 : k ≠ f := by omega
    have hk2 : k ≠ rr := by omega
    have hk3 : k ≠ g := by rcases hk with h | h <;> omega
    rw [getD_swapL_of_ne b0 hk1 hk2 default, c3 k hk,
      getD_swapL_of_ne a hk1 hk3 default]
  · intro i hi1 hi2
    rcases Nat.eq_or_lt_of_le hi1 with heq | hlt
    · have hswf : (swapL b0 f rr).getD f default = b0.getD rr default :=
        getD_swapL_left b0 hfb hrb
      rw [hswr, ← heq, hswf]
      exact c7 rr (by omega) (Nat.le_refl _)
    · have hne : (swapL b0 f rr).getD i default = b0.getD i default :=
        getD_swapL_of_ne b0 (by omega) (by omega) default
      rw [hswr, hne]
      exact c7 i (by omega) (by omega)
  · intro j hj1 hj2
    have hne : (swapL b0 f rr).getD j default = b0.getD j default :=
      getD_swapL_of_ne b0 (by omega) (by omega) default
    rw [hswr, hne]
    exact c8 j hj1 hj2

/-- A permutation that fixes everything outside `[f, l]` maps each value
inside the segment to a value of the original segment. -/
theorem seg_exists (b a : List α) (f l : ℕ) (hperm : b.Perm a)
    (hframe : ∀ k, k < f ∨ l < k → b.getD k default = a.getD k default)
    (hl : l < a.length) (j : ℕ) (hj1 : f ≤ j) (hj2 : j ≤ l) :
    ∃ j2, f ≤ j2 ∧ j2 ≤ l ∧ b.getD j default = a.getD j2 default := by
  have hlen : b.length = a.length := hperm.length_eq
  have htake : b.take f = a.take f := by
    apply List.ext_getElem?
    intro k
    rcases Nat.lt_or_ge k f with hk | hk
    · rw [List.getElem?_take_of_lt hk, List.getElem?_take_of_lt hk]
      have hkb : k < b.length := by omega
      have hka : k < a.length := by omega
      rw [List.getElem?_eq_getElem hkb, List.getElem?_eq_getElem hka]
      have := hframe k (Or.inl hk)
      rw [List.getD_eq_getElem b default hkb, List.getD_eq_getElem a default hka] at this
      rw [this]
    · rw [List.getElem?_take_eq_none (by simpa using hk),
        List.getElem?_take_eq_none (by simpa using hk)]
  have hdrop : b.drop (l + 1) = a.drop (l + 1) := by
    apply List.ext_getElem?
    intro k
    rw [List.getElem?_drop, List.getElem?_drop]
    rcases Nat.lt_or_ge (l + 1 + k) a.length with hk | hk
    · have hkb : l + 1 + k < b.length := by omega
      rw [List.getElem?_eq_getElem hkb, List.getElem?_eq_getElem hk]
      have := hframe (l + 1 + k) (Or.inr (by omega))
      rw [List.getD_eq_getElem b default hkb, List.getD_eq_getElem a default hk] at this
      rw [this]
    · rw [List.getElem?_eq_none (by omega), List.getElem?_eq_none (by omega)]
  have hdecb : b = b.take f ++ ((b.drop f).take (l + 1 - f) ++ b.drop (l + 1)) := by
    conv_lhs => rw [← List.take_append_drop f b]
    congr 1
    conv_lhs => rw [← List.take_append_drop (l + 1 - f) (b.drop f)]
    congr 1
    rw [List.drop_drop]
    congr 1
    omega
  have hdeca : a = a.take f ++ ((a.drop f).take (l + 1 - f) ++ a.drop (l + 1)) := by
    conv_lhs => rw [← List.take_append_drop f a]
    congr 1
    conv_lhs => rw [← List.take_append_drop (l + 1 - f) (a.drop f)]
    congr 1
    rw [List.drop_drop]
    congr 1
    omega
  have hsegperm : ((b.drop f).take (l + 1 - f)).Perm ((a.drop f).take (l + 1 - f)) := by
    have h1 := hperm
    rw [hdecb, hdeca, htake, hdrop] at h1
    have h2 := (List.perm_append_left_iff (a.take f)).mp h1
    exact (List.perm_append_right_iff (a.drop (l + 1))).mp h2
  have hjlen : j - f < ((b.drop f).take (l + 1 - f)).length := by
    rw [List.length_take, List.length_drop]
    omega
  have hjval : ((b.drop f).take (l + 1 - f))[j - f] = b.getD j default := by
    rw [List.getElem_take, List.getElem_drop]
    rw [List.getD_eq_getElem b default (by omega)]
    congr 1
    omega
  have hmem : b.getD j default ∈ (a.drop f).take (l + 1 - f) := by
    rw [← hjval]
    exact hsegperm.mem_iff.mp (List.getElem_mem hjlen)
  rw [List.mem_iff_getElem] at hmem
  obtain ⟨i0, hi0, hval⟩ := hmem
  have hi0' : i0 < l + 1 - f := by
    have := hi0
    rw [List.length_take, List.length_drop] at this
    omega
  refine ⟨f + i0, by omega, by omega, ?_⟩
  rw [List.getElem_take, List.getElem_drop] at hval
  rw [← hval, List.getD_eq_getElem a default (by omega)]

/-- The fuel `l + 1 - f` is sufficient for `quickselectF`: the searched
range keeps `n` and strictly shrinks after every partition (claim C10's
content, generic in the strict comparison). -/
theorem quickselectF_isSome (hirr : ∀ x : α, lt x x = false)
    (hasym : ∀ x y : α, lt x y = true → lt y x = false) (σ : ℕ → ℕ) (n : ℕ) :
    ∀ (fuel : ℕ) (a : List α) (f l : ℕ), f ≤ n → n ≤ l → l < a.length →
      l + 1 - f ≤ fuel → (quickselectF lt σ fuel a n f l).isSome = true
  | 0, a, f, l, h1, h2, h3, h4 => by omega
  | fuel + 1, a, f, l, h1, h2, h3, h4 => by
    unfold quickselectF
    have hguess1 : f ≤ f + σ fuel % (l - f + 1) := Nat.le_add_right _ _
    have hguess2 : f + σ fuel % (l - f + 1) ≤ l := by
      have := Nat.mod_lt (σ fuel) (y := l - f + 1) (by omega)
      omega
    obtain ⟨c1, c2, c3, c4, c5, c6, c7⟩ :=
      partitionL_spec hirr hasym a f l (f + σ fuel % (l - f + 1)) hguess1 hguess2 h3
    by_cases he : n = (partitionL lt a f l (f + σ fuel % (l - f + 1))).2
    · rw [if_pos he]
      rfl
    · rw [if_neg he]
      by_cases hlt2 : n < (partitionL lt a f l (f + σ fuel % (l - f + 1))).2
      · rw [if_pos hlt2]
        exact quickselectF_isSome hirr hasym σ n fuel _ f _ h1 (by omega) (by omega)
          (by omega)
      · rw [if_neg hlt2]
        exact quickselectF_isSome hirr hasym σ n fuel _ _ l (by omega) (by omega)
          (by omega) (by omega)

end QuickselectLemmas

section QuickselectOrder

variable {α : Type} [Inhabited α] [LinearOrder α]

/-- The strict `Less` of a `sort.Interface` backed by a linear order. -/
def ltOrd : α → α → Bool := fun x y => decide (x < y)

theorem ltOrd_irrefl : ∀ x : α, ltOrd x x = false := by
  intro x
  simp [ltOrd]

theorem ltOrd_asym : ∀ x y : α, ltOrd x y = true → ltOrd y x = false := by
  intro x y h
  simp only [ltOrd, decide_eq_true_eq] at h
  simp [ltOrd, le_of_lt h]

theorem ltOrd_false_iff {x y : α} : ltOrd x y = false ↔ y ≤ x := by
  simp [ltOrd, not_lt]

/-- Full functional specification of `quickselectF` over a linear order:
given the outside-of-range separation invariants, it succeeds and returns
a permutation, fixed outside `[f, l]`, whose entry at `n` dominates every
earlier entry and is dominated by every later entry. -/
theorem quickselectF_spec (σ : ℕ → ℕ) (n : ℕ) :
    ∀ (fuel : ℕ) (a : List α) (f l : ℕ), f ≤ n → n ≤ l → l < a.length →
      l + 1 - f ≤ fuel →
      (∀ i j, i < f → f ≤ j → j ≤ l → a.getD i default ≤ a.getD j default) →
      (∀ i j, l < i → i < a.length → f ≤ j → j ≤ l →
        a.getD j default ≤ a.getD i default) →
      ∃ r, quickselectF (ltOrd (α := α)) σ fuel a n f l = some r ∧
        r.length = a.length ∧ r.Perm a ∧
        (∀ k, k < f ∨ l < k → r.getD k default = a.getD k default) ∧
        (∀ i, i < n → r.getD i default ≤ r.getD n default) ∧
        (∀ j, n < j → j < r.length → r.getD n default ≤ r.getD j default)
  | 0, a, f, l, h1, h2, h3, h4, sepL, sepR => by omega
  | fuel + 1, a, f, l, h1, h2, h3, h4, sepL, sepR => by
    have hguess1 : f ≤ f + σ fuel % (l - f + 1) := Nat.le_add_right _ _
    have hguess2 : f + σ fuel % (l - f + 1) ≤ l := by
      have := Nat.mod_lt (σ fuel) (y := l - f + 1) (by omega)
      omega
    obtain ⟨c1, c2, c3, c4, c5, c6, c7⟩ :=
      partitionL_spec ltOrd_irrefl ltOrd_asym a f l (f + σ fuel % (l - f + 1))
        hguess1 hguess2 h3
    set b := (partitionL (ltOrd (α := α)) a f l (f + σ fuel % (l - f + 1))).1 with hb
    set p := (partitionL (ltOrd (α := α)) a f l (f + σ fuel % (l - f + 1))).2 with hp
    have hseg : ∀ j, f ≤ j → j ≤ l →
        ∃ j2, f ≤ j2 ∧ j2 ≤ l ∧ b.getD j default = a.getD j2 default :=
      fun j hj1 hj2 => seg_exists b a f l c2 c3 h3 j hj1 hj2
    have hle6 : ∀ i, f ≤ i → i < p → b.getD i default ≤ b.getD p default :=
      fun i hi1 hi2 => ltOrd_false_iff.mp (c6 i hi1 hi2)
    have hge7 : ∀ j, p < j → j ≤ l → b.getD p default ≤ b.getD j default :=
      fun j hj1 hj2 => ltOrd_false_iff.mp (c7 j hj1 hj2)
    unfold quickselectF
    dsimp only
    by_cases he : n = p
    · rw [← hp, ← hb, if_pos he]
      refine ⟨b, rfl, c1, c2, c3, ?_, ?_⟩
      · rw [he]
        intro i hi
        rcases Nat.lt_or_ge i f with hif | hif
        · obtain ⟨j2, hj1, hj2, hval⟩ := hseg p (by omega) (by omega)
          rw [c3 i (Or.inl hif), hval]
          exact sepL i j2 hif hj1 hj2
        · exact hle6 i hif hi
      · rw [he]
        intro j hj1 hj2
        rcases le_or_lt j l with hjl | hjl
        · exact hge7 j hj1 hjl
        · obtain ⟨j2, hj1x, hj2x, hval⟩ := hseg p (by omega) (by omega)
          rw [c3 j (Or.inr hjl), hval]
          exact sepR j j2 hjl (by omega) hj1x hj2x
    · rw [← hp, ← hb, if_neg he]
      by_cases hlt2 : n < p
      · rw [if_pos hlt2]
        have sepL2 : ∀ i j, i < f → f ≤ j → j ≤ p - 1 →
            b.getD i default ≤ b.getD j default := by
          intro i j hi hj1 hj2
          obtain ⟨j2, hja, hjb, hval⟩ := hseg j hj1 (by omega)
          rw [c3 i (Or.inl hi), hval]
          exact sepL i j2 hi hja hjb
        have sepR2 : ∀ i j, p - 1 < i → i < b.length → f ≤ j → j ≤ p - 1 →
            b.getD j default ≤ b.getD i default := by
          intro i j hi1 hi2 hj1 hj2
          have hjp : j < p := by omega
          rcases Nat.lt_or_ge i (p + 1) with hip | hip
          · have : i = p := by omega
            subst this
            exact hle6 j hj1 hjp
          · rcases le_or_lt i l with hil | hil
            · exact le_trans (hle6 j hj1 hjp) (hge7 i (by omega) hil)
            · obtain ⟨j2, hja, hjb, hval⟩ := hseg j hj1 (by omega)
              rw [c3 i (Or.inr hil), hval]
              exact sepR i j2 hil (by omega) hja hjb
        obtain ⟨r, hr0, hr1, hr2, hr3, hr4, hr5⟩ :=
          quickselectF_spec σ n fuel b f (p - 1) h1 (by omega) (by omega) (by omega)
            sepL2 sepR2
        refine ⟨r, hr0, by omega, hr2.trans c2, ?_, hr4, hr5⟩
        intro k hk
        have hkk : k < f ∨ p - 1 < k := by rcases hk with h | h <;> omega
        rw [hr3 k hkk]
        exact c3 k hk
      · rw [if_neg hlt2]
        have hpn : p < n := by omega
        have sepL2 : ∀ i j, i < p + 1 → p + 1 ≤ j → j ≤ l →
            b.getD i default ≤ b.getD j default := by
          intro i j hi hj1 hj2
          rcases Nat.lt_or_ge i f with hif | hif
          · obtain ⟨j2, hja, hjb, hval⟩ := hseg j (by omega) hj2
            rw [c3 i (Or.inl hif), hval]
            exact sepL i j2 hif hja hjb
          · rcases Nat.lt_or_ge i p with hip | hip
            · exact le_trans (hle6 i hif hip) (hge7 j (by omega) hj2)
            · have : i = p := by omega
              subst this
              exact hge7 j (by omega) hj2
        have sepR2 : ∀ i j, l < i → i < b.length → p + 1 ≤ j → j ≤ l →
            b.getD j default ≤ b.getD i default := by
          intro i j hi1 hi2 hj1 hj2
          obtain ⟨j2, hja, hjb, hval⟩ := hseg j (by omega) hj2
          rw [c3 i (Or.inr hi1), hval]
          exact sepR i j2 hi1 (by omega) hja hjb
        obtain ⟨r, hr0, hr1, hr2, hr3, hr4, hr5⟩ :=
          quickselectF_spec σ n fuel b (p + 1) l (by omega) h2 (by omega) (by omega)
            sepL2 sepR2
        refine ⟨r, hr0, by omega, hr2.trans c2, ?_, hr4, hr5⟩
        intro k hk
        have hkk : k < p + 1 ∨ l < k := by rcases hk with h | h <;> omega
        rw [hr3 k hkk]
        exact c3 k hk

/-- Counting from below: if the first `m` positions satisfy `q`, the
count is at least `m`. -/
theorem countP_ge_of_front (l : List α) (q : α → Bool) (m : ℕ) (hm : m ≤ l.length)
    (h : ∀ i, i < m → q (l.getD i default) = true) : m ≤ l.countP q := by
  have hcnt : l.countP q = (l.take m).countP q + (l.drop m).countP q := by
    conv_lhs => rw [← List.take_append_drop m l]
    exact List.countP_append q _ _
  have hfull : (l.take m).countP q = (l.take m).length := by
    rw [List.countP_eq_length]
    intro x hx
    rw [List.mem_iff_getElem] at hx
    obtain ⟨i, hi, hval⟩ := hx
    have hi' : i < m := by
      have := hi
      rw [List.length_take] at this
      omega
    have hx2 : x = l.getD i default := by
      rw [← hval, List.getElem_take, List.getD_eq_getElem l default (by omega)]
    rw [hx2]
    exact h i hi'
  rw [hcnt, hfull, List.length_take]
  omega

/-- Counting from above: if only positions below `m` can satisfy `q`, the
count is at most `m`. -/
theorem countP_le_of_front (l : List α) (q : α → Bool) (m : ℕ)
    (h : ∀ i, i < l.length → q (l.getD i default) = true → i < m) :
    l.countP q ≤ m := by
  have hcnt : l.countP q = (l.take m).countP q + (l.drop m).countP q := by
    conv_lhs => rw [← List.take_append_drop m l]
    exact List.countP_append q _ _
  have hzero : (l.drop m).countP q = 0 := by
    rw [List.countP_eq_zero]
    intro x hx
    rw [List.mem_iff_getElem] at hx
    obtain ⟨i, hi, hval⟩ := hx
    have hi2 : m + i < l.length := by
      have := hi
      rw [List.length_drop] at this
      omega
    have hx2 : x = l.getD (m + i) default := by
      rw [← hval, List.getElem_drop, List.getD_eq_getElem l default hi2]
    intro hq
    rw [hx2] at hq
    have := h (m + i) hi2 hq
    omega
  have hlen := List.countP_le_length q (l := l.take m)
  rw [List.length_take] at hlen
  omega

/-- An entry whose earlier entries are all `≤` it and later entries all
`≥` it equals, in any sorted permutation, the entry at the same position:
the `n`-th entry is the `n`-th order statistic. -/
theorem getD_eq_sorted_getD [LinearOrder α] (r s : List α) (n : ℕ) (hperm : r.Perm s)
    (hsort : s.Sorted (fun x y => x ≤ y)) (hn : n < r.length)
    (hle : ∀ i, i < n → r.getD i default ≤ r.getD n default)
    (hge : ∀ j, n < j → j < r.length → r.getD n default ≤ r.getD j default) :
    r.getD n default = s.getD n default := by
  have hlen : r.length = s.length := hperm.length_eq
  have hns : n < s.length := by omega
  have hmono : ∀ i j, i ≤ j → j < s.length → s.getD i default ≤ s.getD j default := by
    intro i j hij hj
    rcases Nat.eq_or_lt_of_le hij with heq | hlt
    · rw [heq]
    · have hp := (List.pairwise_iff_getElem.mp hsort) i j (by omega) hj hlt
      rw [List.getD_eq_getElem s default (by omega), List.getD_eq_getElem s default hj]
      exact hp
  rcases lt_trichotomy (r.getD n default) (s.getD n default) with hlt | heq | hgt
  · exfalso
    have h1 : n + 1 ≤ r.countP (fun x => decide (x ≤ r.getD n default)) := by
      apply countP_ge_of_front r _ (n + 1) (by omega)
      intro i hi
      rcases Nat.lt_or_ge i n with hin | hin
      · simpa using hle i hin
      · have hieq : i = n := by omega
        subst hieq
        simp
    have h2 : s.countP (fun x => decide (x ≤ r.getD n default)) ≤ n := by
      apply countP_le_of_front
      intro i hi hq
      simp only [decide_eq_true_eq] at hq
      by_contra hni
      have hsn : s.getD n default ≤ s.getD i default := hmono n i (by omega) hi
      exact absurd (le_trans hsn hq) (not_le.mpr hlt)
    have := hperm.countP_eq (fun x => decide (x ≤ r.getD n default))
    omega
  · exact heq
  · exfalso
    have h1 : n + 1 ≤ s.countP (fun x => decide (x ≤ s.getD n default)) := by
      apply countP_ge_of_front s _ (n + 1) (by omega)
      intro i hi
      simpa using hmono i n (by omega) hns
    have h2 : r.countP (fun x => decide (x ≤ s.getD n default)) ≤ n := by
      apply countP_le_of_front
      intro i hi hq
      simp only [decide_eq_true_eq] at hq
      by_contra hni
      have hin : n ≤ i := by omega
      rcases Nat.eq_or_lt_of_le hin with heq2 | hlt2
      · rw [← heq2] at hq
        exact absurd hq (not_le.mpr hgt)
      · have hni2 := hge i hlt2 hi
        exact absurd (le_trans hni2 hq) (not_le.mpr hgt)
    have := hperm.countP_eq (fun x => decide (x ≤ s.getD n default))
    omega

end QuickselectOrder

/-! ## Claim theorems -/

/-! ### Search result length bounds (C8) -/

section SearchLen

variable {α : Type} (bboxFn : α → Rectf)

theorem addAllItemsNF_len (maxLen : ℤ) (h0 : 0 ≤ maxLen) :
    ∀ (fuel : ℕ) (stack : List (Node α)) (acc : List α),
      (acc.length : ℤ) ≤ maxLen →
      (((addAllItemsNF maxLen fuel stack acc : List α).length : ℤ) ≤ maxLen) := by
  intro fuel
  induction fuel with
  | zero => intro stack acc h; simpa [addAllItemsNF] using h
  | succ f ih =>
    intro stack acc h
    unfold addAllItemsNF
    cases hs : stack.getLast? with
    | none => simpa using h
    | some node =>
      simp only
      by_cases hle : maxLen ≤ (((acc ++ node.items).length : ℤ))
      · rw [if_pos hle]
        have h1 : ((acc ++ node.items).take maxLen.toNat).length ≤ maxLen.toNat :=
          le_trans (List.length_take_le _ _) le_rfl
        have := Int.toNat_of_nonneg h0
        omega
      · rw [if_neg hle]
        exact ih _ _ (le_of_lt (lt_of_not_le hle))

theorem addAllItemsNF_zero :
    ∀ (fuel : ℕ) (stack : List (Node α)),
      addAllItemsNF (0 : ℤ) fuel stack ([] : List α) = [] := by
  intro fuel stack
  cases fuel with
  | zero => rfl
  | succ f =>
    unfold addAllItemsNF
    cases hs : stack.getLast? with
    | none => rfl
    | some node =>
      simp only
      split
      · simp
      · next hcond => exact absurd (by positivity) hcond

theorem searchKids_len (area : Rectf) (maxRes : ℤ) (h1 : 1 ≤ maxRes) (fuelA : ℕ) :
    ∀ (cs stack : List (Node α)) (acc : List α), (acc.length : ℤ) < maxRes →
      (((searchKids area maxRes fuelA cs stack acc).2.1.length : ℤ) ≤ maxRes) ∧
      ((searchKids area maxRes fuelA cs stack acc).2.2 = false →
        ((searchKids area maxRes fuelA cs stack acc).2.1.length : ℤ) < maxRes) := by
  intro cs
  induction cs with
  | nil => intro stack acc h; exact ⟨le_of_lt h, fun _ => h⟩
  | cons c cs ih =>
    intro stack acc h
    unfold searchKids
    by_cases hi : intersectsO area c.bounds
    · rw [if_pos hi]
      by_cases hc : containsO area c.bounds
      · rw [if_pos hc]
        simp only
        by_cases hfull : maxRes ≤ ((addAllItemsNF maxRes fuelA [c] acc).length : ℤ)
        · rw [if_pos hfull]
          have := addAllItemsNF_len maxRes (le_trans (by norm_num) h1) fuelA [c] acc (le_of_lt h)
          exact ⟨this, fun hfalse => by simp at hfalse⟩
        · rw [if_neg hfull]
          exact ih stack _ (lt_of_not_le hfull)
      · rw [if_neg hc]
        exact ih (stack ++ [c]) acc h
    · rw [if_neg hi]
      exact ih stack acc h

theorem searchKids_zero (area : Rectf) (fuelA : ℕ) :
    ∀ (cs stack : List (Node α)),
      (searchKids area (0 : ℤ) fuelA cs stack ([] : List α)).2.1 = [] := by
  intro cs
  induction cs with
  | nil => intro stack; rfl
  | cons c cs ih =>
    intro stack
    unfold searchKids
    by_cases hi : intersectsO area c.bounds
    · rw [if_pos hi]
      by_cases hc : containsO area c.bounds
      · rw [if_pos hc]
        simp only [addAllItemsNF_zero]
        rw [if_pos (by simp : (0 : ℤ) ≤ (([] : List α).length : ℤ))]
      · rw [if_neg hc]; exact ih (stack ++ [c])
    · rw [if_neg hi]; exact ih stack

theorem searchItems_len (area : Rectf) (mc : Bool) (maxRes : ℤ) :
    ∀ (its : List α) (acc : List α), (acc.length : ℤ) < maxRes →
      (((searchItems bboxFn area mc maxRes its acc).1.length : ℤ) ≤ maxRes) ∧
      ((searchItems bboxFn area mc maxRes its acc).2 = false →
        ((searchItems bboxFn area mc maxRes its acc).1.length : ℤ) < maxRes) := by
  intro its
  induction its with
  | nil => intro acc h; exact ⟨le_of_lt h, fun _ => h⟩
  | cons it its ih =>
    intro acc h
    unfold searchItems
    by_cases hsel : (mc && area.containsR (bboxFn it)) || (!mc && area.intersects (bboxFn it))
    · rw [if_pos hsel]
      simp only
      by_cases hfull : maxRes ≤ ((acc ++ [it]).length : ℤ)
      · rw [if_pos hfull]
        refine ⟨?_, fun hfalse => by simp at hfalse⟩
        show ((acc ++ [it]).length : ℤ) ≤ maxRes
        have : ((acc ++ [it]).length : ℤ) = (acc.length : ℤ) + 1 := by simp
        omega
      · rw [if_neg hfull]
        exact ih _ (lt_of_not_le hfull)
    · rw [if_neg hsel]
      exact ih acc h

theorem searchItems_zero (area : Rectf) (mc : Bool) :
    ∀ (its : List α),
      (((searchItems bboxFn area mc (0 : ℤ) its ([] : List α)).1.length : ℤ) ≤ 1) ∧
      ((searchItems bboxFn area mc (0 : ℤ) its ([] : List α)).2 = false →
        (searchItems bboxFn area mc (0 : ℤ) its ([] : List α)).1 = []) := by
  intro its
  induction its with
  | nil => exact ⟨by simp [searchItems], fun _ => rfl⟩
  | cons it its ih =>
    unfold searchItems
    by_cases hsel : (mc && area.containsR (bboxFn it)) || (!mc && area.intersects (bboxFn it))
    · rw [if_pos hsel]
      simp only
      split
      · exact ⟨by simp, fun hfalse => by simp at hfalse⟩
      · next hcond => exact absurd (by positivity) hcond
    · rw [if_neg hsel]
      exact ih

theorem searchLoopF_len (area : Rectf) (mc : Bool) (maxRes : ℤ) (h1 : 1 ≤ maxRes) (fuelA : ℕ) :
    ∀ (fuel : ℕ) (stack : List (Node α)) (acc : List α), (acc.length : ℤ) < maxRes →
      ((searchLoopF bboxFn area mc maxRes fuelA fuel stack acc).length : ℤ) ≤ maxRes := by
  intro fuel
  induction fuel with
  | zero => intro stack acc h; simpa [searchLoopF] using le_of_lt h
  | succ f ih =>
    intro stack acc h
    unfold searchLoopF
    cases hs : stack.getLast? with
    | none => simpa using le_of_lt h
    | some node =>
      simp only
      have hk := searchKids_len area maxRes h1 fuelA node.children stack.dropLast acc h
      cases hkr : searchKids area maxRes fuelA node.children stack.dropLast acc with
      | mk stack1 rest =>
        cases rest with
        | mk acc1 flag =>
          rw [hkr] at hk
          cases flag with
          | true => simpa using hk.1
          | false =>
            simp only
            have hlt : (acc1.length : ℤ) < maxRes := hk.2 rfl
            have hit := searchItems_len bboxFn area mc maxRes node.items acc1 hlt
            cases hir : searchItems bboxFn area mc maxRes node.items acc1 with
            | mk acc2 flag2 =>
              rw [hir] at hit
              cases flag2 with
              | true => simpa using hit.1
              | false => exact ih stack1 acc2 (hit.2 rfl)

theorem searchLoopF_zero (area : Rectf) (mc : Bool) (fuelA : ℕ) :
    ∀ (fuel : ℕ) (stack : List (Node α)),
      ((searchLoopF bboxFn area mc (0 : ℤ) fuelA fuel stack ([] : List α)).length : ℤ) ≤ 1 := by
  intro fuel
  induction fuel with
  | zero => intro stack; simp [searchLoopF]
  | succ f ih =>
    intro stack
    unfold searchLoopF
    cases hs : stack.getLast? with
    | none => simp
    | some node =>
      simp only
      have hk0 := searchKids_zero area fuelA node.children stack.dropLast
      cases hkr : searchKids area (0 : ℤ) fuelA node.children stack.dropLast [] with
      | mk stack1 rest =>
        cases rest with
        | mk acc1 flag =>
          rw [hkr] at hk0
          simp only at hk0
          subst hk0
          cases flag with
          | true => simp
          | false =>
            simp only
            have hit := searchItems_zero bboxFn area mc node.items
            cases hir : searchItems bboxFn area mc (0 : ℤ) node.items [] with
            | mk acc2 flag2 =>
              rw [hir] at hit
              cases flag2 with
              | true => simpa using hit.1
              | false =>
                have : acc2 = [] := hit.2 rfl
                subst this
                exact ih stack1

end SearchLen

/-! ### `chooseSubtree` selection (C5) -/

section ChooseChild

variable {α : Type}

theorem chooseChildGo_isSome (bb : ORect) :
    ∀ (cs : List (Node α)) (k : ℕ) (minEnl minA : WithTop ℚ) (b0 : ℕ),
      (chooseChildGo bb cs k minEnl minA (some b0)).isSome := by
  intro cs
  induction cs with
  | nil => intro k minEnl minA b0; rfl
  | cons c cs ih =>
    intro k minEnl minA b0
    unfold chooseChildGo
    dsimp only
    split
    · exact ih _ _ _ _
    · split
      · split
        · exact ih _ _ _ _
        · exact ih _ _ _ _
      · exact ih _ _ _ _

theorem chooseChildGo_spec (bb : ORect) (full : List (Node α)) :
    ∀ (cs : List (Node α)) (k : ℕ) (minEnl minA : WithTop ℚ) (best : Option ℕ),
      full.drop k = cs →
      (∀ b, best = some b → b < full.length ∧
        ((enlC bb (full.getD b newNode) : ℚ) : WithTop ℚ) = minEnl) →
      (∀ b, chooseChildGo bb cs k minEnl minA best = some b →
        b < full.length ∧
        ((enlC bb (full.getD b newNode) : ℚ) : WithTop ℚ) ≤ minEnl ∧
        ∀ j, k ≤ j → j < full.length →
          enlC bb (full.getD b newNode) ≤ enlC bb (full.getD j newNode)) := by
  intro cs
  induction cs with
  | nil =>
    intro k minEnl minA best hdrop hbest b hr
    simp only [chooseChildGo] at hr
    obtain ⟨hb, he⟩ := hbest b hr
    refine ⟨hb, le_of_eq he, fun j hkj hj => absurd hj (not_lt.mpr ?_)⟩
    have : full.length ≤ k := by
      have := congrArg List.length hdrop
      simp at this
      omega
    omega
  | cons c cs ih =>
    intro k minEnl minA best hdrop hbest b hr
    have hklen : k < full.length := by
      by_contra hk
      rw [List.drop_eq_nil_of_le (not_lt.mp hk)] at hdrop
      exact List.noConfusion hdrop
    have hck : full.getD k newNode = c := by
      have h1 : full.drop k = full.getD k newNode :: full.drop (k + 1) := by
        rw [List.getD_eq_getElem full newNode hklen]
        exact (List.drop_eq_getElem_cons hklen)
      rw [hdrop] at h1
      exact (List.cons.injEq _ _ _ _ ▸ h1).1.symm
    have hdrop1 : full.drop (k + 1) = cs := by
      have h1 : full.drop k = full.getD k newNode :: full.drop (k + 1) := by
        rw [List.getD_eq_getElem full newNode hklen]
        exact (List.drop_eq_getElem_cons hklen)
      rw [hdrop] at h1
      exact (List.cons.injEq _ _ _ _ ▸ h1).2.symm
    unfold chooseChildGo at hr
    dsimp only at hr
    set area := areaO c.bounds with harea
    set enl := enlargedAreaOO bb c.bounds - area with henl
    have henlc : enlC bb c = enl := rfl
    by_cases hlt : ((enl : ℚ) : WithTop ℚ) < minEnl
    · rw [if_pos hlt] at hr
      have := ih (k + 1) ((enl : ℚ) : WithTop ℚ) (Min.min minA ((area : ℚ) : WithTop ℚ))
        (some k) hdrop1
        (fun b2 hb2 => by
          have hbk : k = b2 := by injection hb2
          subst hbk
          exact ⟨hklen, by rw [hck, henlc]⟩)
        b hr
      obtain ⟨h1, h2, h3⟩ := this
      refine ⟨h1, le_of_lt (lt_of_le_of_lt h2 hlt), fun j hkj hj => ?_⟩
      rcases eq_or_lt_of_le hkj with hjk | hjk
      · rw [← hjk, hck, henlc]
        exact_mod_cast h2
      · exact h3 j hjk hj
    · rw [if_neg hlt] at hr
      by_cases heq : ((enl : ℚ) : WithTop ℚ) = minEnl
      · rw [if_pos heq] at hr
        by_cases harea2 : ((area : ℚ) : WithTop ℚ) < minA
        · rw [if_pos harea2] at hr
          have := ih (k + 1) minEnl ((area : ℚ) : WithTop ℚ) (some k) hdrop1
            (fun b2 hb2 => by
              have hbk : k = b2 := by injection hb2
              subst hbk
              exact ⟨hklen, by rw [hck, henlc, heq]⟩)
            b hr
          obtain ⟨h1, h2, h3⟩ := this
          refine ⟨h1, h2, fun j hkj hj => ?_⟩
          rcases eq_or_lt_of_le hkj with hjk | hjk
          · rw [← hjk, hck, henlc]
            have : ((enlC bb (full.getD b newNode) : ℚ) : WithTop ℚ) ≤ ((enl : ℚ) : WithTop ℚ) :=
              le_trans h2 (le_of_eq heq.symm)
            exact_mod_cast this
          · exact h3 j hjk hj
        · rw [if_neg harea2] at hr
          have := ih (k + 1) minEnl minA best hdrop1 hbest b hr
          obtain ⟨h1, h2, h3⟩ := this
          refine ⟨h1, h2, fun j hkj hj => ?_⟩
          rcases eq_or_lt_of_le hkj with hjk | hjk
          · rw [← hjk, hck, henlc]
            have : ((enlC bb (full.getD b newNode) : ℚ) : WithTop ℚ) ≤ ((enl : ℚ) : WithTop ℚ) :=
              le_trans h2 (le_of_eq heq.symm)
            exact_mod_cast this
          · exact h3 j hjk hj
      · rw [if_neg heq] at hr
        have hgt : minEnl < ((enl : ℚ) : WithTop ℚ) :=
          lt_of_le_of_ne (not_lt.mp hlt) (fun h => heq h.symm)
        have := ih (k + 1) minEnl minA best hdrop1 hbest b hr
        obtain ⟨h1, h2, h3⟩ := this
        refine ⟨h1, h2, fun j hkj hj => ?_⟩
        rcases eq_or_lt_of_le hkj with hjk | hjk
        · rw [← hjk, hck, henlc]
          have : ((enlC bb (full.getD b newNode) : ℚ) : WithTop ℚ) ≤ ((enl : ℚ) : WithTop ℚ) :=
            le_trans h2 (le_of_lt hgt)
          exact_mod_cast this
        · exact h3 j hjk hj

end ChooseChild

/-! ### Rectangle and bound-containment toolkit -/

section RectLemmas

theorem containsR_refl (r : Rectf) : r.containsR r = true := by
  simp [Rectf.containsR]

theorem containsR_trans {a b c : Rectf} (h1 : a.containsR b = true)
    (h2 : b.containsR c = true) : a.containsR c = true := by
  simp only [Rectf.containsR, decide_eq_true_eq] at *
  exact ⟨le_trans h1.1 h2.1, le_trans h1.2.1 h2.2.1,
    le_trans h2.2.2.1 h1.2.2.1, le_trans h2.2.2.2 h1.2.2.2⟩

theorem mergeR_containsR_left (a b : Rectf) : (a.mergeR b).containsR a = true := by
  simp only [Rectf.containsR, Rectf.mergeR, decide_eq_true_eq]
  exact ⟨min_le_left _ _, min_le_left _ _, le_max_left _ _, le_max_left _ _⟩

theorem mergeR_containsR_right (a b : Rectf) : (a.mergeR b).containsR b = true := by
  simp only [Rectf.containsR, Rectf.mergeR, decide_eq_true_eq]
  exact ⟨min_le_right _ _, min_le_right _ _, le_max_right _ _, le_max_right _ _⟩

theorem subO_refl (a : ORect) : subO a a = true := by
  cases a with
  | none => rfl
  | some r => simpa [subO] using containsR_refl r

theorem subO_trans {a b c : ORect} (h1 : subO a b = true) (h2 : subO b c = true) :
    subO a c = true := by
  cases a with
  | none => rfl
  | some ra =>
    cases b with
    | none => simp [subO] at h1
    | some rb =>
      cases c with
      | none => simp [subO] at h2
      | some rc =>
        simp only [subO] at *
        exact containsR_trans h2 h1

theorem subO_mergeO_left (a b : ORect) : subO a (mergeO a b) = true := by
  cases a with
  | none => rfl
  | some ra =>
    cases b with
    | none => exact subO_refl _
    | some rb => simpa [subO, mergeO] using mergeR_containsR_left ra rb

theorem subO_mergeO_right (a b : ORect) : subO b (mergeO a b) = true := by
  cases b with
  | none => rfl
  | some rb =>
    cases a with
    | none => exact subO_refl _
    | some ra => simpa [subO, mergeO] using mergeR_containsR_right ra rb

theorem containsO'_eq_subO (b : ORect) (r : Rectf) :
    containsO' b r = subO (some r) b := by
  cases b <;> rfl

theorem containsO'_mono {a b : ORect} {r : Rectf} (hab : subO a b = true)
    (h : containsO' a r = true) : containsO' b r = true := by
  rw [containsO'_eq_subO] at *
  exact subO_trans h hab

theorem foldl_mergeO_acc (bs : List ORect) :
    ∀ acc : ORect, subO acc (bs.foldl mergeO acc) = true := by
  induction bs with
  | nil => intro acc; exact subO_refl acc
  | cons b bs ih =>
    intro acc
    exact subO_trans (subO_mergeO_left acc b) (ih (mergeO acc b))

theorem foldl_mergeO_superset {b : ORect} (bs : List ORect) (hb : b ∈ bs) :
    ∀ acc : ORect, subO b (bs.foldl mergeO acc) = true := by
  induction bs with
  | nil => exact absurd hb (List.not_mem_nil _)
  | cons b0 bs ih =>
    intro acc
    rcases List.mem_cons.mp hb with h0 | h0
    · subst h0
      exact subO_trans (subO_mergeO_right acc b) (foldl_mergeO_acc bs _)
    · exact ih h0 _

theorem foldBounds_superset {b : ORect} {bs : List ORect} (hb : b ∈ bs) :
    subO b (foldBounds bs) = true :=
  foldl_mergeO_superset bs hb none

end RectLemmas

/-! ### Invariant projections and basic preservation -/

section InvLemmas

variable {α : Type} {bf : α → Rectf}

theorem subItemsF_extendO (f : ℕ) (n : Node α) (bb : ORect) :
    subItemsF f (extendO n bb) = subItemsF f n := by
  cases n with
  | mk cs its h l b => cases f <;> rfl

theorem okB_dest {maxE : ℕ} {ir : Bool} {f : ℕ} {n : Node α}
    (h : okB bf maxE ir (f + 1) n = true) :
    n.height = f + 1 ∧
    (n.leaf = true → n.children = [] ∧ n.height = 1 ∧ (ir = true ∨ n.items ≠ [])) ∧
    (n.leaf = false → n.items = [] ∧ n.children ≠ [] ∧
      ∀ c ∈ n.children, c.height + 1 = n.height) ∧
    n.entryCount ≤ maxE ∧
    (∀ x ∈ subItemsF (f + 1) n, containsO' n.bounds (bf x) = true) ∧
    (∀ c ∈ n.children, okB bf maxE false f c = true) := by
  unfold okB at h
  simp only [Bool.and_eq_true, decide_eq_true_eq, List.all_eq_true] at h
  obtain ⟨⟨⟨⟨hh, hlf⟩, hcnt⟩, hcov⟩, hkids⟩ := h
  refine ⟨hh, ?_, ?_, hcnt, hcov, hkids⟩
  · intro hl
    rw [hl] at hlf
    simp only [if_true] at hlf
    simp only [Bool.and_eq_true, List.isEmpty_iff, beq_iff_eq, Bool.or_eq_true,
      Bool.not_eq_true', List.isEmpty_eq_false] at hlf
    exact ⟨hlf.1.1, hlf.1.2, hlf.2⟩
  · intro hl
    rw [hl] at hlf
    simp only [Bool.false_eq_true, if_false] at hlf
    simp only [Bool.and_eq_true, List.isEmpty_iff, Bool.not_eq_true',
      List.isEmpty_eq_false, List.all_eq_true, beq_iff_eq] at hlf
    exact ⟨hlf.1.1, hlf.1.2, hlf.2⟩

theorem okB_intro {maxE : ℕ} {ir : Bool} {f : ℕ} {n : Node α}
    (hh : n.height = f + 1)
    (hleaf : n.leaf = true → n.children = [] ∧ n.height = 1 ∧ (ir = true ∨ n.items ≠ []))
    (hint : n.leaf = false → n.items = [] ∧ n.children ≠ [] ∧
      ∀ c ∈ n.children, c.height + 1 = n.height)
    (hcnt : n.entryCount ≤ maxE)
    (hcov : ∀ x ∈ subItemsF (f + 1) n, containsO' n.bounds (bf x) = true)
    (hkids : ∀ c ∈ n.children, okB bf maxE false f c = true) :
    okB bf maxE ir (f + 1) n = true := by
  unfold okB
  simp only [Bool.and_eq_true, decide_eq_true_eq, List.all_eq_true]
  refine ⟨⟨⟨⟨hh, ?_⟩, hcnt⟩, hcov⟩, hkids⟩
  cases hl : n.leaf with
  | true =>
    obtain ⟨h1, h2, h3⟩ := hleaf hl
    simp only [if_true]
    simp only [Bool.and_eq_true, List.isEmpty_iff, beq_iff_eq, Bool.or_eq_true,
      Bool.not_eq_true', List.isEmpty_eq_false]
    exact ⟨⟨h1, h2⟩, h3⟩
  | false =>
    obtain ⟨h1, h2, h3⟩ := hint hl
    simp only [Bool.false_eq_true, if_false]
    simp only [Bool.and_eq_true, List.isEmpty_iff, Bool.not_eq_true',
      List.isEmpty_eq_false, List.all_eq_true, beq_iff_eq]
    exact ⟨⟨h1, h2⟩, h3⟩

theorem okB_isRoot_mono {maxE : ℕ} {f : ℕ} {n : Node α}
    (h : okB bf maxE false f n = true) : okB bf maxE true f n = true := by
  cases f with
  | zero => unfold okB at h; exact Bool.noConfusion h
  | succ f =>
    obtain ⟨h1, h2, h3, h4, h5, h6⟩ := okB_dest h
    exact okB_intro h1 (fun hl => ⟨(h2 hl).1, (h2 hl).2.1, Or.inl rfl⟩) h3 h4 h5 h6

theorem okB_extendO {maxE : ℕ} {ir : Bool} {f : ℕ} {n : Node α} {bb : ORect}
    (h : okB bf maxE ir f n = true) : okB bf maxE ir f (extendO n bb) = true := by
  cases f with
  | zero => unfold okB at h; exact Bool.noConfusion h
  | succ f =>
    obtain ⟨h1, h2, h3, h4, h5, h6⟩ := okB_dest h
    cases n with
    | mk cs its hh l b =>
      refine okB_intro h1 (fun hl => h2 hl) (fun hl => h3 hl) h4 ?_ h6
      intro x hx
      rw [subItemsF_extendO] at hx
      exact containsO'_mono (subO_mergeO_left _ _) (h5 x hx)

theorem okB_coversB {maxE : ℕ} :
    ∀ {f : ℕ} {ir : Bool} {n : Node α}, okB bf maxE ir f n = true → coversB bf f n = true := by
  intro f
  induction f with
  | zero => intro ir n _; rfl
  | succ f ih =>
    intro ir n h
    obtain ⟨_, _, _, _, h5, h6⟩ := okB_dest h
    unfold coversB
    simp only [Bool.and_eq_true, List.all_eq_true]
    exact ⟨h5, fun c hc => ih (h6 c hc)⟩

theorem okB_entryLeB {maxE : ℕ} :
    ∀ {f : ℕ} {ir : Bool} {n : Node α}, okB bf maxE ir f n = true → entryLeB maxE f n = true := by
  intro f
  induction f with
  | zero => intro ir n _; rfl
  | succ f ih =>
    intro ir n h
    obtain ⟨_, _, _, h4, _, h6⟩ := okB_dest h
    unfold entryLeB
    simp only [Bool.and_eq_true, List.all_eq_true, decide_eq_true_eq]
    exact ⟨h4, fun c hc => ih (h6 c hc)⟩

theorem foldl_third_pred {γ : Type} (f : γ × γ × ℕ → ℕ → γ × γ × ℕ)
    (hf : ∀ st i, (f st i).2.2 = st.2.2 ∨ (f st i).2.2 = i) (P : ℕ → Prop) :
    ∀ (l : List ℕ) (st : γ × γ × ℕ), (∀ i ∈ l, P i) → P st.2.2 →
      P ((l.foldl f st).2.2) := by
  intro l
  induction l with
  | nil => intro st _ hst; exact hst
  | cons i l ih =>
    intro st hl hst
    rw [List.foldl_cons]
    refine ih _ (fun j hj => hl j (List.mem_cons_of_mem i hj)) ?_
    rcases hf st i with h | h
    · rw [h]; exact hst
    · rw [h]; exact hl i (List.mem_cons_self i l)

theorem chooseSplitIndexB_range (minE cnt : ℕ) (bbs : List ORect) (h : 2 * minE ≤ cnt) :
    minE ≤ chooseSplitIndexB minE cnt bbs ∧ chooseSplitIndexB minE cnt bbs ≤ cnt - minE := by
  unfold chooseSplitIndexB
  refine foldl_third_pred _ ?_ (fun j => minE ≤ j ∧ j ≤ cnt - minE) _ _ ?_
    ⟨by show minE ≤ cnt - minE; omega, by show cnt - minE ≤ cnt - minE; exact le_rfl⟩
  · intro st i
    dsimp only
    split
    · exact Or.inr rfl
    · split
      · split
        · exact Or.inr rfl
        · exact Or.inl rfl
      · exact Or.inl rfl
  · intro i hi
    simp only [List.mem_map, List.mem_range] at hi
    obtain ⟨k, hk, rfl⟩ := hi
    omega

theorem pairs_fst_mem {α : Type} {mark : Option ℕ} {cs : List (Node α)}
    {p : Node α × Bool}
    (hp : p ∈ cs.enum.map (fun q => (q.2, mark == some q.1))) : p.1 ∈ cs := by
  simp only [List.mem_map] at hp
  obtain ⟨q, hq, rfl⟩ := hp
  have : q.2 ∈ cs.enum.map Prod.snd := List.mem_map_of_mem Prod.snd hq
  rwa [List.enum_map_snd] at this

theorem extendO_height {α : Type} (n : Node α) (bb : ORect) :
    (extendO n bb).height = n.height := by cases n; rfl

theorem extendO_leaf {α : Type} (n : Node α) (bb : ORect) :
    (extendO n bb).leaf = n.leaf := by cases n; rfl

theorem splitLeaf_spec {α : Type} [Inhabited α] [DecidableEq α] (bf : α → Rectf)
    (minE : ℕ) (n : Node α) :
    ∃ (sorted : List α) (idx : ℕ),
      sorted.Perm n.items ∧
      (2 * minE ≤ n.entryCount → minE ≤ idx ∧ idx ≤ n.entryCount - minE) ∧
      splitLeaf bf minE n =
        (Node.mk n.children (sorted.take idx) n.height n.leaf
          (foldBounds (itemBBs bf (sorted.take idx))),
         Node.mk [] (sorted.drop idx) n.height n.leaf
          (foldBounds (itemBBs bf (sorted.drop idx)))) := by
  unfold splitLeaf
  dsimp only
  refine ⟨_, _, ?_, fun h2 => chooseSplitIndexB_range _ _ _ h2, rfl⟩
  split
  · exact ((List.perm_insertionSort _ _).trans
      ((List.perm_insertionSort _ _).trans (List.perm_insertionSort _ _)))
  · exact ((List.perm_insertionSort _ _).trans (List.perm_insertionSort _ _))

theorem splitInternal_spec {α : Type} (minE : ℕ) (mark : Option ℕ) (bb : ORect)
    (n : Node α) :
    ∃ (sorted : List (Node α × Bool)) (idx : ℕ),
      sorted.Perm (n.children.enum.map (fun p => (p.2, mark == some p.1))) ∧
      (2 * minE ≤ n.entryCount → minE ≤ idx ∧ idx ≤ n.entryCount - minE) ∧
      splitInternal minE mark bb n =
        (Node.mk ((sorted.take idx).map
            (fun p => if p.2 then extendO p.1 bb else p.1)) n.items n.height n.leaf
          (foldBounds ((sorted.take idx).map (fun p => p.1.bounds))),
         Node.mk ((sorted.drop idx).map
            (fun p => if p.2 then extendO p.1 bb else p.1)) [] n.height n.leaf
          (foldBounds ((sorted.drop idx).map (fun p => p.1.bounds)))) := by
  unfold splitInternal
  dsimp only
  refine ⟨_, _, ?_, fun h2 => chooseSplitIndexB_range _ _ _ h2, rfl⟩
  split
  · exact ((List.perm_insertionSort _ _).trans
      ((List.perm_insertionSort _ _).trans (List.perm_insertionSort _ _)))
  · exact ((List.perm_insertionSort _ _).trans (List.perm_insertionSort _ _))

theorem splitLeaf_ok {α : Type} [Inhabited α] [DecidableEq α] {bf : α → Rectf}
    {maxE minE : ℕ} {n : Node α}
    (hleaf : n.leaf = true) (hch : n.children = []) (hh : n.height = 1)
    (hcnt : n.entryCount = maxE + 1) (hminE : 2 ≤ minE) (h2m : 2 * minE ≤ maxE + 1) :
    (splitLeaf bf minE n).1.height = n.height ∧ (splitLeaf bf minE n).1.leaf = n.leaf ∧
    (splitLeaf bf minE n).2.height = n.height ∧ (splitLeaf bf minE n).2.leaf = n.leaf ∧
    okB bf maxE false 1 (splitLeaf bf minE n).1 = true ∧
    okB bf maxE false 1 (splitLeaf bf minE n).2 = true ∧
    (∀ x ∈ subItemsF 1 (splitLeaf bf minE n).1, x ∈ n.items) ∧
    (∀ x ∈ subItemsF 1 (splitLeaf bf minE n).2, x ∈ n.items) := by
  obtain ⟨sorted, idx, hperm, hrange, heq⟩ := splitLeaf_spec bf minE n
  have hitems : n.entryCount = n.items.length := by
    unfold Node.entryCount
    rw [hch]
    simp
  obtain ⟨hi1, hi2⟩ := hrange (by omega)
  have hlen : sorted.length = n.items.length := hperm.length_eq
  have htk : (sorted.take idx).length = idx := by
    rw [List.length_take]
    omega
  have hdp : (sorted.drop idx).length = n.entryCount - idx := by
    rw [List.length_drop]
    omega
  have hsubK : subItemsF 1 (splitLeaf bf minE n).1 = sorted.take idx := by
    rw [heq]
    show sorted.take idx ++ (n.children.map (subItemsF 0)).flatten = _
    rw [hch]
    simp
  have hsubS : subItemsF 1 (splitLeaf bf minE n).2 = sorted.drop idx := by
    rw [heq]
    show sorted.drop idx ++ (([] : List (Node α)).map (subItemsF 0)).flatten = _
    simp
  have hcovK : ∀ x ∈ sorted.take idx,
      containsO' (foldBounds (itemBBs bf (sorted.take idx))) (bf x) = true := by
    intro x hx
    rw [containsO'_eq_subO]
    exact foldBounds_superset (List.mem_map_of_mem (fun it => some (bf it)) hx)
  have hcovS : ∀ x ∈ sorted.drop idx,
      containsO' (foldBounds (itemBBs bf (sorted.drop idx))) (bf x) = true := by
    intro x hx
    rw [containsO'_eq_subO]
    exact foldBounds_superset (List.mem_map_of_mem (fun it => some (bf it)) hx)
  refine ⟨by rw [heq]; rfl, by rw [heq]; rfl, by rw [heq]; rfl, by rw [heq]; rfl, ?_, ?_,
    fun x hx => hperm.subset (List.mem_of_mem_take (hsubK ▸ hx)),
    fun x hx => hperm.subset (List.mem_of_mem_drop (hsubS ▸ hx))⟩
  · have hK := hsubK
    rw [heq] at hK ⊢
    refine okB_intro (show n.height = 0 + 1 by omega) ?_ ?_ ?_ ?_ ?_
    · intro _
      refine ⟨hch, hh, Or.inr ?_⟩
      show sorted.take idx ≠ []
      have : 0 < (sorted.take idx).length := by omega
      exact List.ne_nil_of_length_pos this
    · intro hl
      have : n.leaf = false := hl
      rw [hleaf] at this
      exact Bool.noConfusion this
    · show n.children.length + (sorted.take idx).length ≤ maxE
      rw [hch]
      simp only [List.length_nil]
      omega
    · intro x hx
      rw [hK] at hx
      exact hcovK x hx
    · intro c hc
      have : c ∈ n.children := hc
      rw [hch] at this
      exact absurd this (List.not_mem_nil c)
  · have hS := hsubS
    rw [heq] at hS ⊢
    refine okB_intro (show n.height = 0 + 1 by omega) ?_ ?_ ?_ ?_ ?_
    · intro _
      refine ⟨rfl, hh, Or.inr ?_⟩
      show sorted.drop idx ≠ []
      have : 0 < (sorted.drop idx).length := by omega
      exact List.ne_nil_of_length_pos this
    · intro hl
      have : n.leaf = false := hl
      rw [hleaf] at this
      exact Bool.noConfusion this
    · show ([] : List (Node α)).length + (sorted.drop idx).length ≤ maxE
      simp only [List.length_nil]
      omega
    · intro x hx
      rw [hS] at hx
      exact hcovS x hx
    · intro c hc
      exact absurd hc (List.not_mem_nil c)

theorem splitInternal_ok {α : Type} [Inhabited α] [DecidableEq α] {bf : α → Rectf}
    {maxE minE g : ℕ} {mark : Option ℕ} {bb : ORect} {n : Node α}
    (hleaf : n.leaf = false) (hit : n.items = []) (hh : n.height = g + 2)
    (hkids : ∀ c ∈ n.children, okB bf maxE false (g + 1) c = true)
    (hhh : ∀ c ∈ n.children, c.height + 1 = n.height)
    (hcnt : n.entryCount = maxE + 1) (hminE : 2 ≤ minE) (h2m : 2 * minE ≤ maxE + 1) :
    (splitInternal minE mark bb n).1.height = n.height ∧
    (splitInternal minE mark bb n).1.leaf = n.leaf ∧
    (splitInternal minE mark bb n).2.height = n.height ∧
    (splitInternal minE mark bb n).2.leaf = n.leaf ∧
    okB bf maxE false (g + 2) (splitInternal minE mark bb n).1 = true ∧
    okB bf maxE false (g + 2) (splitInternal minE mark bb n).2 = true ∧
    (∀ x ∈ subItemsF (g + 2) (splitInternal minE mark bb n).1,
      ∃ c ∈ n.children, x ∈ subItemsF (g + 1) c) ∧
    (∀ x ∈ subItemsF (g + 2) (splitInternal minE mark bb n).2,
      ∃ c ∈ n.children, x ∈ subItemsF (g + 1) c) := by
  obtain ⟨sorted, idx, hperm, hrange, heq⟩ := splitInternal_spec minE mark bb n
  have hccnt : n.entryCount = n.children.length := by
    unfold Node.entryCount
    rw [hit]
    simp
  obtain ⟨hi1, hi2⟩ := hrange (by omega)
  have hlen : sorted.length = n.children.length := by
    rw [hperm.length_eq, List.length_map, List.enum_length]
  have hfst : ∀ p ∈ sorted, p.1 ∈ n.children := fun p hp =>
    pairs_fst_mem (hperm.subset hp)
  have hunm : ∀ p ∈ sorted,
      okB bf maxE false (g + 1) (if p.2 then extendO p.1 bb else p.1) = true ∧
      (if p.2 then extendO p.1 bb else p.1).height = p.1.height ∧
      subItemsF (g + 1) (if p.2 then extendO p.1 bb else p.1) = subItemsF (g + 1) p.1 := by
    intro p hp
    cases hp2 : p.2 with
    | true =>
      simp only [if_true]
      exact ⟨okB_extendO (hkids p.1 (hfst p hp)), extendO_height _ _,
        subItemsF_extendO _ _ _⟩
    | false =>
      rw [if_neg (show ¬(false = true) by simp)]
      exact ⟨hkids p.1 (hfst p hp), rfl, rfl⟩
  have htk : (sorted.take idx).length = idx := by
    rw [List.length_take]
    omega
  have hdp : (sorted.drop idx).length = n.entryCount - idx := by
    rw [List.length_drop]
    omega
  have side : ∀ (part : List (Node α × Bool)), part.length ≠ 0 →
      (∀ p ∈ part, p ∈ sorted) →
      ∀ (its : List α), its = [] → part.length + its.length ≤ maxE →
      okB bf maxE false (g + 2)
        (Node.mk (part.map (fun p => if p.2 then extendO p.1 bb else p.1)) its
          n.height n.leaf (foldBounds (part.map (fun p => p.1.bounds)))) = true ∧
      (∀ x ∈ subItemsF (g + 2)
          (Node.mk (part.map (fun p => if p.2 then extendO p.1 bb else p.1)) its
            n.height n.leaf (foldBounds (part.map (fun p => p.1.bounds)))),
        ∃ c ∈ n.children, x ∈ subItemsF (g + 1) c) := by
    intro part hne hsub its hits hcnt2
    have hxmem : ∀ x ∈ subItemsF (g + 2)
        (Node.mk (part.map (fun p => if p.2 then extendO p.1 bb else p.1)) its
          n.height n.leaf (foldBounds (part.map (fun p => p.1.bounds)))),
        ∃ p ∈ part, x ∈ subItemsF (g + 1) p.1 := by
      intro x hx
      have hx2 : x ∈ its ++ ((part.map (fun p => if p.2 then extendO p.1 bb else p.1)).map
          (subItemsF (g + 1))).flatten := hx
      rw [hits] at hx2
      simp only [List.nil_append, List.mem_flatten, List.mem_map] at hx2
      obtain ⟨l, ⟨c', ⟨p, hp, rfl⟩, rfl⟩, hxl⟩ := hx2
      refine ⟨p, hp, ?_⟩
      rwa [(hunm p (hsub p hp)).2.2] at hxl
    refine ⟨okB_intro (show n.height = (g + 1) + 1 by omega) ?_ ?_ ?_ ?_ ?_, ?_⟩
    · intro hl
      have : n.leaf = true := hl
      rw [hleaf] at this
      exact Bool.noConfusion this
    · intro _
      refine ⟨hits, ?_, ?_⟩
      · show part.map (fun p => if p.2 then extendO p.1 bb else p.1) ≠ []
        have : 0 < (part.map (fun p => if p.2 then extendO p.1 bb else p.1)).length := by
          rw [List.length_map]
          omega
        exact List.ne_nil_of_length_pos this
      · intro c hc
        have hc2 : c ∈ part.map (fun p => if p.2 then extendO p.1 bb else p.1) := hc
        simp only [List.mem_map] at hc2
        obtain ⟨p, hp, rfl⟩ := hc2
        show (if p.2 then extendO p.1 bb else p.1).height + 1 = n.height
        rw [(hunm p (hsub p hp)).2.1]
        exact hhh p.1 (hfst p (hsub p hp))
    · show (part.map (fun p => if p.2 then extendO p.1 bb else p.1)).length
        + its.length ≤ maxE
      rwa [List.length_map]
    · intro x hx
      obtain ⟨p, hp, hxp⟩ := hxmem x hx
      have hokp := okB_dest (hkids p.1 (hfst p (hsub p hp)))
      have hcv := hokp.2.2.2.2.1 x hxp
      refine containsO'_mono ?_ hcv
      exact foldBounds_superset (List.mem_map_of_mem (fun p => p.1.bounds) hp)
    · intro c hc
      have hc2 : c ∈ part.map (fun p => if p.2 then extendO p.1 bb else p.1) := hc
      simp only [List.mem_map] at hc2
      obtain ⟨p, hp, rfl⟩ := hc2
      exact (hunm p (hsub p hp)).1
    · intro x hx
      obtain ⟨p, hp, hxp⟩ := hxmem x hx
      exact ⟨p.1, hfst p (hsub p hp), hxp⟩
  have hK := side (sorted.take idx) (by omega)
    (fun p hp => List.mem_of_mem_take hp) n.items hit
    (by rw [htk, hit]; show idx + 0 ≤ maxE; omega)
  have hS := side (sorted.drop idx) (by omega)
    (fun p hp => List.mem_of_mem_drop hp) [] rfl
    (by rw [hdp]; show n.entryCount - idx + 0 ≤ maxE; omega)
  rw [heq]
  exact ⟨rfl, rfl, rfl, rfl, hK.1, hS.1, hK.2, hS.2⟩

theorem mem_subItemsF_succ {α : Type} {g : ℕ} {n : Node α} {x : α} :
    x ∈ subItemsF (g + 1) n ↔ x ∈ n.items ∨ ∃ c ∈ n.children, x ∈ subItemsF g c := by
  cases n with
  | mk cs its h l b =>
    show x ∈ its ++ (cs.map (subItemsF g)).flatten ↔ _
    simp only [List.mem_append, List.mem_flatten, List.mem_map]
    constructor
    · rintro (hx | ⟨l1, ⟨c, hc, rfl⟩, hx⟩)
      · exact Or.inl hx
      · exact Or.inr ⟨c, hc, hx⟩
    · rintro (hx | ⟨c, hc, hx⟩)
      · exact Or.inl hx
      · exact Or.inr ⟨subItemsF g c, ⟨c, hc, rfl⟩, hx⟩

theorem mem_set_cases {α : Type} {l : List α} {i : ℕ} {a x : α}
    (hx : x ∈ l.set i a) : x ∈ l ∨ x = a := by
  rcases List.mem_or_eq_of_mem_set hx with h | h
  · exact Or.inl h
  · exact Or.inr h

theorem getD_mem_of_lt {α : Type} {l : List α} {i : ℕ} (d : α) (h : i < l.length) :
    l.getD i d ∈ l := by
  rw [List.getD_eq_getElem l d h]
  exact List.getElem_mem h

theorem set_append_left {α : Type} (l₁ l₂ : List α) (i : ℕ) (a : α)
    (h : i < l₁.length) : (l₁ ++ l₂).set i a = l₁.set i a ++ l₂ := by
  induction l₁ generalizing i with
  | nil => simp at h
  | cons b l ih =>
    cases i with
    | zero => rfl
    | succ i =>
      simp only [List.cons_append, List.set_cons_succ]
      rw [ih i (by simpa using h)]

theorem chooseChildGo_ne_nil_isSome {α : Type} (bb : ORect) (c : Node α)
    (cs : List (Node α)) :
    ∃ i, chooseChildGo bb (c :: cs) 0 ⊤ ⊤ none = some i ∧ i < (c :: cs).length := by
  have hstep : chooseChildGo bb (c :: cs) 0 ⊤ ⊤ none
      = chooseChildGo bb cs (0 + 1)
          ((enlargedAreaOO bb c.bounds - areaO c.bounds : ℚ) : WithTop ℚ)
          (Min.min ⊤ ((areaO c.bounds : ℚ) : WithTop ℚ)) (some 0) := by
    conv_lhs => rw [chooseChildGo]
    rw [if_pos (WithTop.coe_lt_top _)]
  obtain ⟨i, hi⟩ := Option.isSome_iff_exists.mp
    (hstep ▸ chooseChildGo_isSome bb cs (0 + 1) _ _ 0)
  have hspec := chooseChildGo_spec bb (c :: cs) cs (0 + 1)
    ((enlargedAreaOO bb c.bounds - areaO c.bounds : ℚ) : WithTop ℚ)
    (Min.min ⊤ ((areaO c.bounds : ℚ) : WithTop ℚ)) (some 0) rfl
    (fun b hb => by
      have hb0 : 0 = b := by injection hb
      subst hb0
      exact ⟨by simp, rfl⟩)
    i (by rw [← hstep]; exact hi)
  exact ⟨i, hi, hspec.1⟩

theorem insertStep_ok {α : Type} [Inhabited α] [DecidableEq α] {bf : α → Rectf}
    {maxE minE : ℕ} {bb : ORect} {rec : Node α → Node α × Option (Node α)}
    {i : ℕ} {n : Node α} {g : ℕ} (NEWS : α → Prop)
    (hok : okB bf maxE true (g + 2) n = true)
    (hleaf : n.leaf = false)
    (hi : i < n.children.length)
    (hbb : ∀ x : α, NEWS x → subO (some (bf x)) bb = true)
    (hminE : 2 ≤ minE) (h2m : 2 * minE ≤ maxE + 1)
    (hrec :
      (rec (n.children.getD i newNode)).1.height = g + 1 ∧
      okB bf maxE false (g + 1) (extendO (rec (n.children.getD i newNode)).1 bb) = true ∧
      (∀ x ∈ subItemsF (g + 1) (rec (n.children.getD i newNode)).1,
        x ∈ subItemsF (g + 1) (n.children.getD i newNode) ∨ NEWS x) ∧
      (∀ s, (rec (n.children.getD i newNode)).2 = some s →
        s.height = g + 1 ∧
        okB bf maxE false (g + 1) s = true ∧
        okB bf maxE false (g + 1) (rec (n.children.getD i newNode)).1 = true ∧
        (∀ x ∈ subItemsF (g + 1) s,
          x ∈ subItemsF (g + 1) (n.children.getD i newNode) ∨ NEWS x))) :
    (insertStep bf bb maxE minE rec i n).1.height = n.height ∧
    okB bf maxE false (g + 2) (extendO (insertStep bf bb maxE minE rec i n).1 bb) = true ∧
    (∀ x ∈ subItemsF (g + 2) (insertStep bf bb maxE minE rec i n).1,
      x ∈ subItemsF (g + 2) n ∨ NEWS x) ∧
    (∀ s, (insertStep bf bb maxE minE rec i n).2 = some s →
      s.height = n.height ∧
      okB bf maxE false (g + 2) s = true ∧
      okB bf maxE false (g + 2) (insertStep bf bb maxE minE rec i n).1 = true ∧
      (∀ x ∈ subItemsF (g + 2) s, x ∈ subItemsF (g + 2) n ∨ NEWS x)) := by
  obtain ⟨hH, _, hIntCl, hCnt, hCov, hKids⟩ := okB_dest hok
  obtain ⟨hItems, hNeKids, hHeights⟩ := hIntCl hleaf
  have hcmem : n.children.getD i newNode ∈ n.children := getD_mem_of_lt newNode hi
  have hch : (n.children.getD i newNode).height = g + 1 := by
    have := hHeights _ hcmem
    omega
  obtain ⟨hr1, hr2, hr3, hr4⟩ := hrec
  have covOld : ∀ x ∈ subItemsF (g + 2) n,
      containsO' (mergeO n.bounds bb) (bf x) = true := fun x hx =>
    containsO'_mono (subO_mergeO_left _ _) (hCov x hx)
  have covNew : ∀ x, NEWS x → containsO' (mergeO n.bounds bb) (bf x) = true := by
    intro x hx
    rw [containsO'_eq_subO]
    exact subO_trans (hbb x hx) (subO_mergeO_right _ _)
  have hcnt' : n.children.length + n.items.length ≤ maxE := hCnt
  have hil0 : n.items.length = 0 := by rw [hItems]; rfl
  unfold insertStep
  dsimp only
  cases hpr2 : (rec (n.children.getD i newNode)).2 with
  | none =>
    dsimp only
    refine ⟨rfl, ?_, ?_, ?_⟩
    · -- okB of the extended settled node
      refine okB_intro (show n.height = (g + 1) + 1 from hH) ?_ ?_ ?_ ?_ ?_
      · intro hl
        have : n.leaf = true := hl
        rw [hleaf] at this
        exact Bool.noConfusion this
      · intro _
        refine ⟨hItems, ?_, ?_⟩
        · show n.children.set i (extendO (rec (n.children.getD i newNode)).1 bb) ≠ []
          have : 0 < (n.children.set i
              (extendO (rec (n.children.getD i newNode)).1 bb)).length := by
            rw [List.length_set]
            omega
          exact List.ne_nil_of_length_pos this
        · intro cc hcc
          have hcc2 : cc ∈ n.children.set i
              (extendO (rec (n.children.getD i newNode)).1 bb) := hcc
          rcases mem_set_cases hcc2 with h | h
          · show cc.height + 1 = n.height
            exact hHeights cc h
          · subst h
            show (extendO (rec (n.children.getD i newNode)).1 bb).height + 1 = n.height
            rw [extendO_height, hr1]
            omega
      · show (n.children.set i
            (extendO (rec (n.children.getD i newNode)).1 bb)).length
            + n.items.length ≤ maxE
        rw [List.length_set]
        exact hcnt'
      · intro x hx
        have hx2 : x ∈ subItemsF ((g + 1) + 1) (Node.mk
            (n.children.set i (extendO (rec (n.children.getD i newNode)).1 bb))
            n.items n.height n.leaf n.bounds) := by
          rwa [subItemsF_extendO] at hx
        rcases mem_subItemsF_succ.mp hx2 with hx3 | ⟨cc, hcc, hx3⟩
        · exact covOld x (mem_subItemsF_succ.mpr (Or.inl hx3))
        · rcases mem_set_cases hcc with h | h
          · exact covOld x (mem_subItemsF_succ.mpr (Or.inr ⟨cc, h, hx3⟩))
          · subst h
            rw [subItemsF_extendO] at hx3
            rcases hr3 x hx3 with h4 | h4
            · exact covOld x (mem_subItemsF_succ.mpr (Or.inr ⟨_, hcmem, h4⟩))
            · exact covNew x h4
      · intro cc hcc
        have hcc2 : cc ∈ n.children.set i
            (extendO (rec (n.children.getD i newNode)).1 bb) := hcc
        rcases mem_set_cases hcc2 with h | h
        · exact hKids cc h
        · subst h
          exact hr2
    · -- origin of the settled node's items
      intro x hx
      rcases mem_subItemsF_succ.mp hx with hx3 | ⟨cc, hcc, hx3⟩
      · exact Or.inl (mem_subItemsF_succ.mpr (Or.inl hx3))
      · rcases mem_set_cases hcc with h | h
        · exact Or.inl (mem_subItemsF_succ.mpr (Or.inr ⟨cc, h, hx3⟩))
        · subst h
          rw [subItemsF_extendO] at hx3
          rcases hr3 x hx3 with h4 | h4
          · exact Or.inl (mem_subItemsF_succ.mpr (Or.inr ⟨_, hcmem, h4⟩))
          · exact Or.inr h4
    · intro s hs
      exact Option.noConfusion hs
  | some s0 =>
    dsimp only
    obtain ⟨hs1, hs2, hs3, hs4⟩ := hr4 s0 hpr2
    have hlen1 : (n.children.set i (rec (n.children.getD i newNode)).1 ++ [s0]).length
        = n.children.length + 1 := by
      rw [List.length_append, List.length_set]
      rfl
    have members1 : ∀ cc ∈ n.children.set i (rec (n.children.getD i newNode)).1 ++ [s0],
        cc ∈ n.children ∨ cc = (rec (n.children.getD i newNode)).1 ∨ cc = s0 := by
      intro cc hcc
      rcases List.mem_append.mp hcc with h | h
      · rcases mem_set_cases h with h2 | h2
        · exact Or.inl h2
        · exact Or.inr (Or.inl h2)
      · exact Or.inr (Or.inr (List.mem_singleton.mp h))
    have heights1 : ∀ cc ∈ n.children.set i (rec (n.children.getD i newNode)).1 ++ [s0],
        cc.height + 1 = n.height := by
      intro cc hcc
      rcases members1 cc hcc with h | h | h
      · exact hHeights cc h
      · subst h; rw [hr1]; omega
      · subst h; rw [hs1]; omega
    have ok1 : ∀ cc ∈ n.children.set i (rec (n.children.getD i newNode)).1 ++ [s0],
        okB bf maxE false (g + 1) cc = true := by
      intro cc hcc
      rcases members1 cc hcc with h | h | h
      · exact hKids cc h
      · subst h; exact hs3
      · subst h; exact hs2
    have origin1 : ∀ cc ∈ n.children.set i (rec (n.children.getD i newNode)).1 ++ [s0],
        ∀ x ∈ subItemsF (g + 1) cc, x ∈ subItemsF (g + 2) n ∨ NEWS x := by
      intro cc hcc x hx
      rcases members1 cc hcc with h | h | h
      · exact Or.inl (mem_subItemsF_succ.mpr (Or.inr ⟨cc, h, hx⟩))
      · subst h
        rcases hr3 x hx with h4 | h4
        · exact Or.inl (mem_subItemsF_succ.mpr (Or.inr ⟨_, hcmem, h4⟩))
        · exact Or.inr h4
      · subst h
        rcases hs4 x hx with h4 | h4
        · exact Or.inl (mem_subItemsF_succ.mpr (Or.inr ⟨_, hcmem, h4⟩))
        · exact Or.inr h4
    by_cases hov : maxE < (Node.mk
        (n.children.set i (rec (n.children.getD i newNode)).1 ++ [s0])
        n.items n.height n.leaf n.bounds).entryCount
    · rw [if_pos hov]
      dsimp only
      have hcnt1 : (Node.mk
          (n.children.set i (rec (n.children.getD i newNode)).1 ++ [s0])
          n.items n.height n.leaf n.bounds).entryCount = maxE + 1 := by
        have hov2 : maxE < (n.children.set i (rec (n.children.getD i newNode)).1
            ++ [s0]).length + n.items.length := hov
        rw [hlen1] at hov2
        show (n.children.set i (rec (n.children.getD i newNode)).1
            ++ [s0]).length + n.items.length = maxE + 1
        rw [hlen1]
        omega
      have hsi : splitStep bf minE (some i) bb (Node.mk
          (n.children.set i (rec (n.children.getD i newNode)).1 ++ [s0])
          n.items n.height n.leaf n.bounds)
          = splitInternal minE (some i) bb (Node.mk
          (n.children.set i (rec (n.children.getD i newNode)).1 ++ [s0])
          n.items n.height n.leaf n.bounds) := by
        unfold splitStep
        rw [if_neg (show ¬((Node.mk (n.children.set i
          (rec (n.children.getD i newNode)).1 ++ [s0])
          n.items n.height n.leaf n.bounds).leaf = true) by
            show ¬(n.leaf = true)
            rw [hleaf]
            simp)]
      have SI := @splitInternal_ok α _ _ bf maxE minE g (some i) bb
        (Node.mk (n.children.set i (rec (n.children.getD i newNode)).1 ++ [s0])
          n.items n.height n.leaf n.bounds)
        (show n.leaf = false from hleaf) (show n.items = [] from hItems)
        (show n.height = g + 2 from hH) ok1 heights1 hcnt1 hminE h2m
      obtain ⟨si1, _, si3, _, si5, si6, si7, si8⟩ := SI
      rw [hsi]
      refine ⟨si1, okB_extendO si5, ?_, ?_⟩
      · intro x hx
        obtain ⟨cc, hcc, hxc⟩ := si7 x hx
        exact origin1 cc hcc x hxc
      · intro s hs
        have hseq : (splitInternal minE (some i) bb (Node.mk
            (n.children.set i (rec (n.children.getD i newNode)).1 ++ [s0])
            n.items n.height n.leaf n.bounds)).2 = s := by injection hs
        subst hseq
        refine ⟨si3, si6, si5, ?_⟩
        intro x hx
        obtain ⟨cc, hcc, hxc⟩ := si8 x hx
        exact origin1 cc hcc x hxc
    · rw [if_neg hov]
      dsimp only
      have hcomm : (n.children.set i (rec (n.children.getD i newNode)).1 ++ [s0]).set i
          (extendO (rec (n.children.getD i newNode)).1 bb)
          = n.children.set i (extendO (rec (n.children.getD i newNode)).1 bb) ++ [s0] := by
        rw [set_append_left _ _ _ _ (by rw [List.length_set]; exact hi), List.set_set]
      have hcnt2 : n.children.length + 1 ≤ maxE := by
        have h2 : ¬ (maxE < (n.children.set i (rec (n.children.getD i newNode)).1
            ++ [s0]).length + n.items.length) := hov
        rw [hlen1] at h2
        omega
      have members2 : ∀ cc ∈ (n.children.set i (rec (n.children.getD i newNode)).1
          ++ [s0]).set i (extendO (rec (n.children.getD i newNode)).1 bb),
          cc ∈ n.children ∨ cc = extendO (rec (n.children.getD i newNode)).1 bb
            ∨ cc = s0 := by
        intro cc hcc
        rw [hcomm] at hcc
        rcases List.mem_append.mp hcc with h | h
        · rcases mem_set_cases h with h2 | h2
          · exact Or.inl h2
          · exact Or.inr (Or.inl h2)
        · exact Or.inr (Or.inr (List.mem_singleton.mp h))
      refine ⟨rfl, ?_, ?_, ?_⟩
      · refine okB_intro (show n.height = (g + 1) + 1 from hH) ?_ ?_ ?_ ?_ ?_
        · intro hl
          have : n.leaf = true := hl
          rw [hleaf] at this
          exact Bool.noConfusion this
        · intro _
          refine ⟨hItems, ?_, ?_⟩
          · show (n.children.set i (rec (n.children.getD i newNode)).1 ++ [s0]).set i
              (extendO (rec (n.children.getD i newNode)).1 bb) ≠ []
            have : 0 < ((n.children.set i (rec (n.children.getD i newNode)).1
                ++ [s0]).set i (extendO (rec (n.children.getD i newNode)).1 bb)).length := by
              rw [List.length_set, hlen1]
              omega
            exact List.ne_nil_of_length_pos this
          · intro cc hcc
            have hcc2 := members2 cc hcc
            show cc.height + 1 = n.height
            rcases hcc2 with h | h | h
            · exact hHeights cc h
            · subst h
              rw [extendO_height, hr1]
              omega
            · subst h
              rw [hs1]
              omega
        · show ((n.children.set i (rec (n.children.getD i newNode)).1 ++ [s0]).set i
            (extendO (rec (n.children.getD i newNode)).1 bb)).length
            + n.items.length ≤ maxE
          rw [List.length_set, hlen1]
          omega
        · intro x hx
          have hx2 : x ∈ subItemsF ((g + 1) + 1) (Node.mk
              ((n.children.set i (rec (n.children.getD i newNode)).1 ++ [s0]).set i
                (extendO (rec (n.children.getD i newNode)).1 bb))
              n.items n.height n.leaf n.bounds) := by
            rwa [subItemsF_extendO] at hx
          rcases mem_subItemsF_succ.mp hx2 with hx3 | ⟨cc, hcc, hx3⟩
          · exact covOld x (mem_subItemsF_succ.mpr (Or.inl hx3))
          · rcases members2 cc hcc with h | h | h
            · exact covOld x (mem_subItemsF_succ.mpr (Or.inr ⟨cc, h, hx3⟩))
            · subst h
              rw [subItemsF_extendO] at hx3
              rcases hr3 x hx3 with h4 | h4
              · exact covOld x (mem_subItemsF_succ.mpr (Or.inr ⟨_, hcmem, h4⟩))
              · exact covNew x h4
            · subst h
              rcases hs4 x hx3 with h4 | h4
              · exact covOld x (mem_subItemsF_succ.mpr (Or.inr ⟨_, hcmem, h4⟩))
              · exact covNew x h4
        · intro cc hcc
          rcases members2 cc hcc with h | h | h
          · exact hKids cc h
          · subst h
            exact hr2
          · subst h
            exact hs2
      · intro x hx
        rcases mem_subItemsF_succ.mp hx with hx3 | ⟨cc, hcc, hx3⟩
        · exact Or.inl (mem_subItemsF_succ.mpr (Or.inl hx3))
        · rcases members2 cc hcc with h | h | h
          · exact Or.inl (mem_subItemsF_succ.mpr (Or.inr ⟨cc, h, hx3⟩))
          · subst h
            rw [subItemsF_extendO] at hx3
            rcases hr3 x hx3 with h4 | h4
            · exact Or.inl (mem_subItemsF_succ.mpr (Or.inr ⟨_, hcmem, h4⟩))
            · exact Or.inr h4
          · subst h
            rcases hs4 x hx3 with h4 | h4
            · exact Or.inl (mem_subItemsF_succ.mpr (Or.inr ⟨_, hcmem, h4⟩))
            · exact Or.inr h4
      · intro s hs
        exact Option.noConfusion hs

theorem okB_zero_false {α : Type} {bf : α → Rectf} {maxE : ℕ} {ir : Bool} {n : Node α}
    (h : okB bf maxE ir 0 n = true) : False := by
  unfold okB at h
  exact Bool.noConfusion h

theorem okB_height_pos {α : Type} {bf : α → Rectf} {maxE : ℕ} {ir : Bool} {n : Node α}
    (h : okB bf maxE ir n.height n = true) (hleaf : n.leaf = false) :
    ∃ g, n.height = g + 2 := by
  rcases hnh : n.height with _ | nh
  · rw [hnh] at h
    exact absurd h (fun h => okB_zero_false h)
  · cases nh with
    | zero =>
      rw [hnh] at h
      obtain ⟨_, _, hInt, _, _, hKids⟩ := okB_dest h
      obtain ⟨_, hne, _⟩ := hInt hleaf
      obtain ⟨c, hc⟩ := List.exists_mem_of_ne_nil _ hne
      exact absurd (hKids c hc) (fun h => okB_zero_false h)
    | succ nh => exact ⟨nh, rfl⟩

theorem insertGo_ok {α : Type} [Inhabited α] [DecidableEq α] {bf : α → Rectf}
    {maxE minE : ℕ} (it : α) (hminE : 2 ≤ minE) (h2m : 2 * minE ≤ maxE + 1) :
    ∀ (path : List ℕ) (n : Node α),
      leafPathB path n = true →
      okB bf maxE true n.height n = true →
      (insertGo bf (bf it) it maxE minE path n).1.height = n.height ∧
      okB bf maxE false n.height
        (extendO (insertGo bf (bf it) it maxE minE path n).1 (some (bf it))) = true ∧
      (∀ x ∈ subItemsF n.height (insertGo bf (bf it) it maxE minE path n).1,
        x ∈ subItemsF n.height n ∨ x = it) ∧
      (∀ s, (insertGo bf (bf it) it maxE minE path n).2 = some s →
        s.height = n.height ∧
        okB bf maxE false n.height s = true ∧
        okB bf maxE false n.height (insertGo bf (bf it) it maxE minE path n).1 = true ∧
        (∀ x ∈ subItemsF n.height s, x ∈ subItemsF n.height n ∨ x = it)) := by
  intro path
  induction path with
  | nil =>
    intro n hpath hok
    have hleaf : n.leaf = true := hpath
    have hh1 : n.height = 1 := by
      rcases hnh : n.height with _ | nh
      · rw [hnh] at hok
        exact absurd hok (fun h => okB_zero_false h)
      · rw [hnh] at hok
        have := (okB_dest hok).2.1 hleaf
        omega
    rw [hh1] at hok ⊢
    obtain ⟨_, hLf, _, hCnt, hCov, _⟩ := okB_dest hok
    obtain ⟨hch, _, _⟩ := hLf hleaf
    unfold insertGo
    dsimp only
    have hsub1 : ∀ m : Node α, m.children = [] →
        ∀ (its : List α) (hh : ℕ) (l : Bool) (b : ORect),
        subItemsF 1 (Node.mk m.children its hh l b) = its := by
      intro m hm its hh l b
      show its ++ (m.children.map (subItemsF 0)).flatten = its
      rw [hm]
      simp
    have hcov1 : ∀ x ∈ n.items, containsO' n.bounds (bf x) = true := by
      intro x hx
      exact hCov x (mem_subItemsF_succ.mpr (Or.inl hx))
    by_cases hov : maxE < (Node.mk n.children (n.items ++ [it]) n.height n.leaf
        (mergeO n.bounds (some (bf it)))).entryCount
    · rw [if_pos hov]
      dsimp only
      have hn1leaf : (Node.mk n.children (n.items ++ [it]) n.height n.leaf
          (mergeO n.bounds (some (bf it)))).leaf = true := hleaf
      have hsplit : splitStep bf minE none (some (bf it))
          (Node.mk n.children (n.items ++ [it]) n.height n.leaf
            (mergeO n.bounds (some (bf it))))
          = splitLeaf bf minE (Node.mk n.children (n.items ++ [it]) n.height n.leaf
            (mergeO n.bounds (some (bf it)))) := by
        unfold splitStep
        rw [if_pos hn1leaf]
      have hcnt1 : (Node.mk n.children (n.items ++ [it]) n.height n.leaf
          (mergeO n.bounds (some (bf it)))).entryCount = maxE + 1 := by
        have h1 : maxE < n.children.length + (n.items ++ [it]).length := hov
        have h2 : n.children.length + n.items.length ≤ maxE := hCnt
        show n.children.length + (n.items ++ [it]).length = maxE + 1
        rw [List.length_append] at h1 ⊢
        simp only [List.length_singleton] at h1 ⊢
        omega
      have SL := @splitLeaf_ok α _ _ bf maxE minE
        (Node.mk n.children (n.items ++ [it]) n.height n.leaf
          (mergeO n.bounds (some (bf it))))
        hn1leaf (show n.children = [] from hch) (show n.height = 1 from hh1)
        hcnt1 hminE h2m
      obtain ⟨sl1, _, sl3, _, sl5, sl6, sl7, sl8⟩ := SL
      rw [hsplit]
      have horig : ∀ x ∈ (n.items ++ [it]), x ∈ subItemsF 1 n ∨ x = it := by
        intro x hx
        rcases List.mem_append.mp hx with h | h
        · exact Or.inl (mem_subItemsF_succ.mpr (Or.inl h))
        · exact Or.inr (List.mem_singleton.mp h)
      refine ⟨sl1.trans hh1, okB_extendO sl5, ?_, ?_⟩
      · intro x hx
        exact horig x (sl7 x hx)
      · intro s hs
        injection hs with hseq
        subst hseq
        exact ⟨sl3.trans hh1, sl6, sl5, fun x hx => horig x (sl8 x hx)⟩
    · rw [if_neg hov]
      dsimp only
      refine ⟨hh1, ?_, ?_, ?_⟩
      · refine okB_intro hh1 ?_ ?_ ?_ ?_ ?_
        · intro _
          refine ⟨hch, hh1, Or.inr ?_⟩
          show ¬ (n.items ++ [it]) = []
          simp
        · intro hl
          have : n.leaf = false := hl
          rw [hleaf] at this
          exact Bool.noConfusion this
        · have h1 : ¬ (maxE < n.children.length + (n.items ++ [it]).length) := hov
          show n.children.length + (n.items ++ [it]).length ≤ maxE
          omega
        · intro x hx
          rw [subItemsF_extendO, hsub1 _ hch] at hx
          rcases List.mem_append.mp hx with h | h
          · refine containsO'_mono ?_ (hcov1 x h)
            exact subO_trans (subO_mergeO_left _ _) (subO_mergeO_left _ _)
          · rw [List.mem_singleton.mp h, containsO'_eq_subO]
            exact subO_mergeO_right _ _
        · intro c hc
          have : c ∈ n.children := hc
          rw [hch] at this
          exact absurd this (List.not_mem_nil c)
      · intro x hx
        rw [hsub1 _ hch] at hx
        rcases List.mem_append.mp hx with h | h
        · exact Or.inl (mem_subItemsF_succ.mpr (Or.inl h))
        · exact Or.inr (List.mem_singleton.mp h)
      · intro s hs
        exact Option.noConfusion hs
  | cons i rest ih =>
    intro n hpath hok
    unfold leafPathB at hpath
    simp only [Bool.and_eq_true, Bool.not_eq_true', decide_eq_true_eq] at hpath
    obtain ⟨⟨hnl, hi⟩, hrest⟩ := hpath
    obtain ⟨g, hg⟩ := okB_height_pos hok hnl
    rw [hg] at hok
    have hch : (n.children.getD i newNode).height = g + 1 := by
      have := ((okB_dest hok).2.2.1 hnl).2.2 _ (getD_mem_of_lt newNode hi)
      omega
    have hcok : okB bf maxE true (n.children.getD i newNode).height
        (n.children.getD i newNode) = true := by
      rw [hch]
      exact okB_isRoot_mono ((okB_dest hok).2.2.2.2.2 _ (getD_mem_of_lt newNode hi))
    have IH := ih (n.children.getD i newNode) hrest hcok
    rw [hch] at IH
    have SO := @insertStep_ok α _ _ bf maxE minE (some (bf it))
      (insertGo bf (bf it) it maxE minE rest) i n g (fun x => x = it) hok hnl hi
      (fun x hx => by rw [hx]; exact subO_refl _) hminE h2m
      ⟨IH.1, IH.2.1, IH.2.2.1, IH.2.2.2⟩
    have hgoal : insertGo bf (bf it) it maxE minE (i :: rest) n
        = insertStep bf (some (bf it)) maxE minE
          (insertGo bf (bf it) it maxE minE rest) i n := rfl
    rw [hgoal, hg]
    rw [hg] at SO
    exact SO

theorem insertNodeGo_ok {α : Type} [Inhabited α] [DecidableEq α] {bf : α → Rectf}
    {maxE minE : ℕ} (nn : Node α) (hminE : 2 ≤ minE) (h2m : 2 * minE ≤ maxE + 1)
    (hnn : okB bf maxE false nn.height nn = true) :
    ∀ (path : List ℕ) (n : Node α),
      descPathB (nn.height + 1) path n = true →
      okB bf maxE true n.height n = true →
      (insertNodeGo bf nn.bounds nn maxE minE path n).1.height = n.height ∧
      okB bf maxE false n.height
        (extendO (insertNodeGo bf nn.bounds nn maxE minE path n).1 nn.bounds) = true ∧
      (∀ x ∈ subItemsF n.height (insertNodeGo bf nn.bounds nn maxE minE path n).1,
        x ∈ subItemsF n.height n ∨ x ∈ subItemsF nn.height nn) ∧
      (∀ s, (insertNodeGo bf nn.bounds nn maxE minE path n).2 = some s →
        s.height = n.height ∧
        okB bf maxE false n.height s = true ∧
        okB bf maxE false n.height (insertNodeGo bf nn.bounds nn maxE minE path n).1 = true ∧
        (∀ x ∈ subItemsF n.height s,
          x ∈ subItemsF n.height n ∨ x ∈ subItemsF nn.height nn)) := by
  have hg0 : ∃ g0, nn.height = g0 + 1 := by
    rcases hnh : nn.height with _ | g0
    · rw [hnh] at hnn
      exact absurd hnn (fun h => okB_zero_false h)
    · exact ⟨g0, rfl⟩
  obtain ⟨g0, hg0⟩ := hg0
  have hbb : ∀ x, x ∈ subItemsF nn.height nn → subO (some (bf x)) nn.bounds = true := by
    intro x hx
    rw [← containsO'_eq_subO]
    rw [hg0] at hx
    have hnn' := hnn
    rw [hg0] at hnn'
    exact (okB_dest hnn').2.2.2.2.1 x hx
  intro path
  induction path with
  | nil =>
    intro n hpath hok
    unfold descPathB at hpath
    simp only [Bool.and_eq_true, Bool.not_eq_true', decide_eq_true_eq] at hpath
    obtain ⟨hnh, hnl⟩ := hpath
    have hg : n.height = g0 + 2 := by omega
    rw [hg] at hok
    obtain ⟨_, _, hIntCl, hCnt, hCov, hKids⟩ := okB_dest hok
    obtain ⟨hItems, hNeKids, hHeights⟩ := hIntCl hnl
    have covOld : ∀ x ∈ subItemsF (g0 + 2) n,
        containsO' (mergeO n.bounds nn.bounds) (bf x) = true := fun x hx =>
      containsO'_mono (subO_mergeO_left _ _) (hCov x hx)
    have covNew : ∀ x, x ∈ subItemsF nn.height nn →
        containsO' (mergeO n.bounds nn.bounds) (bf x) = true := by
      intro x hx
      rw [containsO'_eq_subO]
      exact subO_trans (hbb x hx) (subO_mergeO_right _ _)
    have hnnok : okB bf maxE false (g0 + 1) nn = true := by
      rw [← hg0]
      exact hnn
    have members0 : ∀ cc ∈ n.children ++ [nn], cc ∈ n.children ∨ cc = nn := by
      intro cc hcc
      rcases List.mem_append.mp hcc with h | h
      · exact Or.inl h
      · exact Or.inr (List.mem_singleton.mp h)
    have heights0 : ∀ cc ∈ n.children ++ [nn], cc.height + 1 = n.height := by
      intro cc hcc
      rcases members0 cc hcc with h | h
      · exact hHeights cc h
      · subst h; omega
    have ok0 : ∀ cc ∈ n.children ++ [nn], okB bf maxE false (g0 + 1) cc = true := by
      intro cc hcc
      rcases members0 cc hcc with h | h
      · exact hKids cc h
      · subst h; exact hnnok
    have origin0 : ∀ cc ∈ n.children ++ [nn], ∀ x ∈ subItemsF (g0 + 1) cc,
        x ∈ subItemsF (g0 + 2) n ∨ x ∈ subItemsF nn.height nn := by
      intro cc hcc x hx
      rcases members0 cc hcc with h | h
      · exact Or.inl (mem_subItemsF_succ.mpr (Or.inr ⟨cc, h, hx⟩))
      · subst h
        rw [← hg0] at hx
        exact Or.inr hx
    unfold insertNodeGo
    dsimp only
    rw [hg]
    by_cases hov : maxE < (Node.mk (n.children ++ [nn]) n.items (g0 + 2) n.leaf
        (mergeO n.bounds nn.bounds)).entryCount
    · rw [if_pos hov]
      dsimp only
      have hn1leaf : ¬ ((Node.mk (n.children ++ [nn]) n.items (g0 + 2) n.leaf
          (mergeO n.bounds nn.bounds)).leaf = true) := by
        show ¬ (n.leaf = true)
        rw [hnl]
        simp
      have hsplit : splitStep bf minE none nn.bounds
          (Node.mk (n.children ++ [nn]) n.items (g0 + 2) n.leaf
            (mergeO n.bounds nn.bounds))
          = splitInternal minE none nn.bounds
            (Node.mk (n.children ++ [nn]) n.items (g0 + 2) n.leaf
              (mergeO n.bounds nn.bounds)) := by
        unfold splitStep
        rw [if_neg hn1leaf]
      have hcnt1 : (Node.mk (n.children ++ [nn]) n.items (g0 + 2) n.leaf
          (mergeO n.bounds nn.bounds)).entryCount = maxE + 1 := by
        have h1 : maxE < (n.children ++ [nn]).length + n.items.length := hov
        have h2 : n.children.length + n.items.length ≤ maxE := hCnt
        show (n.children ++ [nn]).length + n.items.length = maxE + 1
        rw [List.length_append] at h1 ⊢
        simp only [List.length_singleton] at h1 ⊢
        omega
      have SI := @splitInternal_ok α _ _ bf maxE minE g0 none nn.bounds
        (Node.mk (n.children ++ [nn]) n.items (g0 + 2) n.leaf
          (mergeO n.bounds nn.bounds))
        (show n.leaf = false from hnl) (show n.items = [] from hItems)
        rfl ok0 (fun cc hcc => (heights0 cc hcc).trans hg) hcnt1 hminE h2m
      obtain ⟨si1, _, si3, _, si5, si6, si7, si8⟩ := SI
      rw [hsplit]
      refine ⟨si1, okB_extendO si5, ?_, ?_⟩
      · intro x hx
        obtain ⟨cc, hcc, hxc⟩ := si7 x hx
        exact origin0 cc hcc x hxc
      · intro s hs
        injection hs with hseq
        subst hseq
        refine ⟨si3, si6, si5, ?_⟩
        intro x hx
        obtain ⟨cc, hcc, hxc⟩ := si8 x hx
        exact origin0 cc hcc x hxc
    · rw [if_neg hov]
      dsimp only
      refine ⟨rfl, ?_, ?_, ?_⟩
      · refine okB_intro rfl ?_ ?_ ?_ ?_ ?_
        · intro hl
          have hl2 : n.leaf = true := hl
          rw [hnl] at hl2
          exact Bool.noConfusion hl2
        · intro _
          refine ⟨hItems, ?_, ?_⟩
          · show n.children ++ [nn] ≠ []
            simp
          · intro cc hcc
            exact (heights0 cc hcc).trans hg
        · have h1 : ¬ (maxE < (n.children ++ [nn]).length + n.items.length) := hov
          show (n.children ++ [nn]).length + n.items.length ≤ maxE
          omega
        · intro x hx
          have hx2 : x ∈ subItemsF ((g0 + 1) + 1) (Node.mk (n.children ++ [nn])
              n.items (g0 + 2) n.leaf (mergeO n.bounds nn.bounds)) := by
            rwa [subItemsF_extendO] at hx
          rcases mem_subItemsF_succ.mp hx2 with hx3 | ⟨cc, hcc, hx3⟩
          · exact containsO'_mono (subO_mergeO_left _ _)
              (covOld x (mem_subItemsF_succ.mpr (Or.inl hx3)))
          · rcases origin0 cc hcc x hx3 with h4 | h4
            · exact containsO'_mono (subO_mergeO_left _ _) (covOld x h4)
            · exact containsO'_mono (subO_mergeO_left _ _) (covNew x h4)
        · intro cc hcc
          exact ok0 cc hcc
      · intro x hx
        have hx2 : x ∈ subItemsF ((g0 + 1) + 1) (Node.mk (n.children ++ [nn])
            n.items (g0 + 2) n.leaf (mergeO n.bounds nn.bounds)) := hx
        rcases mem_subItemsF_succ.mp hx2 with hx3 | ⟨cc, hcc, hx3⟩
        · exact Or.inl (mem_subItemsF_succ.mpr (Or.inl hx3))
        · exact origin0 cc hcc x hx3
      · intro s hs
        exact Option.noConfusion hs
  | cons i rest ih =>
    intro n hpath hok
    unfold descPathB at hpath
    simp only [Bool.and_eq_true, Bool.not_eq_true', decide_eq_true_eq] at hpath
    obtain ⟨⟨hnl, hi⟩, hrest⟩ := hpath
    obtain ⟨g, hg⟩ := okB_height_pos hok hnl
    rw [hg] at hok
    have hch : (n.children.getD i newNode).height = g + 1 := by
      have := ((okB_dest hok).2.2.1 hnl).2.2 _ (getD_mem_of_lt newNode hi)
      omega
    have hcok : okB bf maxE true (n.children.getD i newNode).height
        (n.children.getD i newNode) = true := by
      rw [hch]
      exact okB_isRoot_mono ((okB_dest hok).2.2.2.2.2 _ (getD_mem_of_lt newNode hi))
    have IH := ih (n.children.getD i newNode) hrest hcok
    rw [hch] at IH
    have SO := @insertStep_ok α _ _ bf maxE minE nn.bounds
      (insertNodeGo bf nn.bounds nn maxE minE rest) i n g
      (fun x => x ∈ subItemsF nn.height nn) hok hnl hi hbb hminE h2m
      ⟨IH.1, IH.2.1, IH.2.2.1, IH.2.2.2⟩
    have hgoal : insertNodeGo bf nn.bounds nn maxE minE (i :: rest) n
        = insertStep bf nn.bounds maxE minE
          (insertNodeGo bf nn.bounds nn maxE minE rest) i n := rfl
    rw [hgoal, hg]
    rw [hg] at SO
    exact SO

theorem okB_one_leaf {α : Type} {bf : α → Rectf} {maxE : ℕ} {ir : Bool} {n : Node α}
    (h : okB bf maxE ir 1 n = true) : n.leaf = true := by
  have h' : okB bf maxE ir (0 + 1) n = true := h
  obtain ⟨_, _, h3, _, _, h6⟩ := okB_dest h'
  cases hl : n.leaf with
  | true => rfl
  | false =>
    obtain ⟨_, hne, _⟩ := h3 hl
    obtain ⟨c, hc⟩ := List.exists_mem_of_ne_nil _ hne
    exact absurd (h6 c hc) (fun hcc => okB_zero_false hcc)

theorem chooseSubtreePath_leafPathB {α : Type} {bf : α → Rectf} {maxE : ℕ} (bb : ORect) :
    ∀ (f : ℕ) (n : Node α) (d level : ℕ),
      okB bf maxE true n.height n = true →
      n.height ≤ f →
      level = d + n.height - 1 →
      leafPathB (chooseSubtreePath bb f n d level) n = true := by
  intro f
  induction f with
  | zero =>
    intro n d level hok hf _
    rcases hh : n.height with _ | g
    · rw [hh] at hok
      exact absurd hok (fun h => okB_zero_false h)
    · omega
  | succ f ih =>
    intro n d level hok hf hlev
    rcases hh : n.height with _ | g
    · rw [hh] at hok
      exact absurd hok (fun h => okB_zero_false h)
    rw [hh] at hok
    cases hl : n.leaf with
    | true =>
      have hcond : (n.leaf || (d == level)) = true := by rw [hl]; rfl
      unfold chooseSubtreePath
      rw [if_pos hcond]
      exact hl
    | false =>
      obtain ⟨hitems, hne, hhh⟩ := (okB_dest hok).2.2.1 hl
      have hkids := (okB_dest hok).2.2.2.2.2
      have hg1 : 1 ≤ g := by
        obtain ⟨c, hc⟩ := List.exists_mem_of_ne_nil _ hne
        have hcok := hkids c hc
        by_contra hgg
        have hg0 : g = 0 := by omega
        rw [hg0] at hcok
        exact okB_zero_false hcok
      have hcond : ¬ ((n.leaf || (d == level)) = true) := by
        rw [hl, Bool.false_or]
        simp only [beq_iff_eq]
        omega
      unfold chooseSubtreePath
      rw [if_neg hcond]
      cases hc : n.children with
      | nil => exact absurd hc hne
      | cons c cs =>
        obtain ⟨j, hj, hjlt⟩ := chooseChildGo_ne_nil_isSome bb c cs
        rw [hj]
        dsimp only
        have hmem : (c :: cs).getD j newNode ∈ n.children := by
          rw [hc]
          exact getD_mem_of_lt newNode hjlt
        have hch : ((c :: cs).getD j newNode).height = g := by
          have := hhh _ hmem
          omega
        have hcok : okB bf maxE true ((c :: cs).getD j newNode).height
            ((c :: cs).getD j newNode) = true := by
          rw [hch]
          exact okB_isRoot_mono (hkids _ hmem)
        have hrec := ih ((c :: cs).getD j newNode) (d + 1) level hcok
          (by rw [hch]; omega) (by rw [hch]; omega)
        unfold leafPathB
        simp only [Bool.and_eq_true, Bool.not_eq_true', decide_eq_true_eq]
        refine ⟨⟨hl, ?_⟩, ?_⟩
        · rw [hc]
          exact hjlt
        · rw [hc]
          exact hrec

theorem chooseSubtreePath_descPathB {α : Type} {bf : α → Rectf} {maxE : ℕ}
    (bb : ORect) (th : ℕ) (hth : 2 ≤ th) :
    ∀ (f : ℕ) (n : Node α) (d level : ℕ),
      okB bf maxE true n.height n = true →
      n.height ≤ f →
      th ≤ n.height →
      level = d + n.height - th →
      descPathB th (chooseSubtreePath bb f n d level) n = true := by
  intro f
  induction f with
  | zero =>
    intro n d level hok hf _ _
    rcases hh : n.height with _ | g
    · rw [hh] at hok
      exact absurd hok (fun h => okB_zero_false h)
    · omega
  | succ f ih =>
    intro n d level hok hf hthn hlev
    rcases hh : n.height with _ | g
    · rw [hh] at hok
      exact absurd hok (fun h => okB_zero_false h)
    rw [hh] at hok
    have hl : n.leaf = false := by
      cases hl : n.leaf with
      | false => rfl
      | true =>
        have := (okB_dest hok).2.1 hl
        omega
    obtain ⟨hitems, hne, hhh⟩ := (okB_dest hok).2.2.1 hl
    have hkids := (okB_dest hok).2.2.2.2.2
    by_cases hEq : n.height = th
    · have hcond : (n.leaf || (d == level)) = true := by
        rw [hl, Bool.false_or]
        simp only [beq_iff_eq]
        omega
      unfold chooseSubtreePath
      rw [if_pos hcond]
      unfold descPathB
      simp only [Bool.and_eq_true, Bool.not_eq_true', decide_eq_true_eq]
      exact ⟨hEq, hl⟩
    · have hg1 : th ≤ g := by omega
      have hcond : ¬ ((n.leaf || (d == level)) = true) := by
        rw [hl, Bool.false_or]
        simp only [beq_iff_eq]
        omega
      unfold chooseSubtreePath
      rw [if_neg hcond]
      cases hc : n.children with
      | nil => exact absurd hc hne
      | cons c cs =>
        obtain ⟨j, hj, hjlt⟩ := chooseChildGo_ne_nil_isSome bb c cs
        rw [hj]
        dsimp only
        have hmem : (c :: cs).getD j newNode ∈ n.children := by
          rw [hc]
          exact getD_mem_of_lt newNode hjlt
        have hch : ((c :: cs).getD j newNode).height = g := by
          have := hhh _ hmem
          omega
        have hcok : okB bf maxE true ((c :: cs).getD j newNode).height
            ((c :: cs).getD j newNode) = true := by
          rw [hch]
          exact okB_isRoot_mono (hkids _ hmem)
        have hrec := ih ((c :: cs).getD j newNode) (d + 1) level hcok
          (by rw [hch]; omega) (by rw [hch]; omega) (by rw [hch]; omega)
        unfold descPathB
        simp only [Bool.and_eq_true, Bool.not_eq_true', decide_eq_true_eq]
        refine ⟨⟨hl, ?_⟩, ?_⟩
        · rw [hc]
          exact hjlt
        · rw [hc]
          exact hrec

theorem mergeO_none_left (b : ORect) : mergeO none b = b := by
  cases b <;> rfl

theorem finishInsert_ok {α : Type} [Inhabited α] [DecidableEq α] {bf : α → Rectf}
    {maxE : ℕ} {bb : ORect} {pr : Node α × Option (Node α)} {H : ℕ}
    (hmax : 2 ≤ maxE)
    (h1 : pr.1.height = H)
    (h2 : okB bf maxE false H (extendO pr.1 bb) = true)
    (h4 : ∀ s, pr.2 = some s → s.height = H ∧ okB bf maxE false H s = true ∧
      okB bf maxE false H pr.1 = true) :
    okB bf maxE true (finishInsert bb pr).height (finishInsert bb pr) = true := by
  cases hs : pr.2 with
  | none =>
    have hfi : finishInsert bb pr = extendO pr.1 bb := by
      unfold finishInsert
      rw [hs]
    rw [hfi]
    have hh : (extendO pr.1 bb).height = H := (extendO_height _ _).trans h1
    rw [hh]
    exact okB_isRoot_mono h2
  | some s =>
    obtain ⟨hsH, hsok, hpok⟩ := h4 s hs
    have hfi : finishInsert bb pr = Node.mk [extendO pr.1 bb, s] [] (pr.1.height + 1) false
        (mergeO (mergeO none pr.1.bounds) s.bounds) := by
      unfold finishInsert
      rw [hs]
    rw [hfi]
    rcases hH : H with _ | g
    · rw [hH] at hsok
      exact absurd hsok (fun h => okB_zero_false h)
    rw [hH] at h1 h2 hsH hsok hpok
    have hhmk : (Node.mk [extendO pr.1 bb, s] ([] : List α) (pr.1.height + 1) false
        (mergeO (mergeO none pr.1.bounds) s.bounds)).height = (g + 1) + 1 := by
      show pr.1.height + 1 = (g + 1) + 1
      omega
    rw [hhmk]
    refine okB_intro ?_ ?_ ?_ ?_ ?_ ?_
    · show pr.1.height + 1 = (g + 1) + 1
      omega
    · intro hlf
      exact Bool.noConfusion hlf
    · intro _
      refine ⟨rfl, ?_, ?_⟩
      · show [extendO pr.1 bb, s] ≠ []
        exact List.cons_ne_nil _ _
      · intro c hcmem
        have hcm : c ∈ [extendO pr.1 bb, s] := hcmem
        rcases List.mem_cons.mp hcm with hcc | hcc
        · subst hcc
          show (extendO pr.1 bb).height + 1 = pr.1.height + 1
          rw [extendO_height]
        · have hcc2 : c = s := List.mem_singleton.mp hcc
          subst hcc2
          show c.height + 1 = pr.1.height + 1
          omega
    · show [extendO pr.1 bb, s].length + ([] : List α).length ≤ maxE
      simp only [List.length_cons, List.length_singleton, List.length_nil]
      omega
    · intro x hx
      have hx2 : x ∈ subItemsF ((g + 1) + 1) (Node.mk [extendO pr.1 bb, s] ([] : List α)
          (pr.1.height + 1) false (mergeO (mergeO none pr.1.bounds) s.bounds)) := hx
      rcases mem_subItemsF_succ.mp hx2 with hx3 | ⟨c, hcmem, hx3⟩
      · exact absurd hx3 (List.not_mem_nil x)
      · have hcm : c ∈ [extendO pr.1 bb, s] := hcmem
        rcases List.mem_cons.mp hcm with hcc | hcc
        · subst hcc
          rw [subItemsF_extendO] at hx3
          have hcov := (okB_dest hpok).2.2.2.2.1 x hx3
          have hcov2 : containsO' (mergeO none pr.1.bounds) (bf x) = true := by
            rw [mergeO_none_left]
            exact hcov
          exact containsO'_mono (subO_mergeO_left (mergeO none pr.1.bounds) s.bounds) hcov2
        · have hcc2 : c = s := List.mem_singleton.mp hcc
          rw [hcc2] at hx3
          have hcov := (okB_dest hsok).2.2.2.2.1 x hx3
          exact containsO'_mono (subO_mergeO_right (mergeO none pr.1.bounds) s.bounds) hcov
    · intro c hcmem
      have hcm : c ∈ [extendO pr.1 bb, s] := hcmem
      rcases List.mem_cons.mp hcm with hcc | hcc
      · subst hcc
        exact h2
      · have hcc2 : c = s := List.mem_singleton.mp hcc
        subst hcc2
        exact hsok

theorem paramsOkB_dest {α : Type} {t : RTree α} (h : paramsOkB t = true) :
    4 ≤ t.maxEntries ∧ 2 ≤ t.minEntries ∧ 2 * t.minEntries ≤ t.maxEntries + 1 := by
  unfold paramsOkB at h
  simp only [Bool.and_eq_true, decide_eq_true_eq] at h
  exact ⟨h.1.1, h.1.2, h.2⟩

theorem insertItem_treeOk {α : Type} [Inhabited α] [DecidableEq α] {bf : α → Rectf}
    {t : RTree α} (it : α) (hok : treeOkB bf t = true) :
    treeOkB bf (RTree.insertItem bf t it) = true := by
  unfold treeOkB at hok
  simp only [Bool.and_eq_true] at hok
  obtain ⟨hpar, hroot⟩ := hok
  obtain ⟨hmax, hmin, h2m⟩ := paramsOkB_dest hpar
  have hpath := chooseSubtreePath_leafPathB (some (bf it)) (t.root.height + 1) t.root 0
    (t.root.height - 1) hroot (by omega) (by omega)
  obtain ⟨hi1, hi2, _, hi4⟩ := insertGo_ok it hmin h2m
    (chooseSubtreePath (some (bf it)) (t.root.height + 1) t.root 0 (t.root.height - 1))
    t.root hpath hroot
  have hfin := @finishInsert_ok α _ _ bf t.maxEntries (some (bf it))
    (insertGo bf (bf it) it t.maxEntries t.minEntries
      (chooseSubtreePath (some (bf it)) (t.root.height + 1) t.root 0 (t.root.height - 1))
      t.root)
    t.root.height (by omega) hi1 hi2
    (fun s hs => ⟨(hi4 s hs).1, (hi4 s hs).2.1, (hi4 s hs).2.2.1⟩)
  unfold treeOkB
  simp only [Bool.and_eq_true]
  exact ⟨hpar, hfin⟩

theorem insertNodeOp_treeOk {α : Type} [Inhabited α] [DecidableEq α] {bf : α → Rectf}
    {t : RTree α} {nn : Node α} (hok : treeOkB bf t = true)
    (hnn : okB bf t.maxEntries false nn.height nn = true)
    (hlt : nn.height < t.root.height) :
    treeOkB bf (RTree.insertNodeOp bf t nn (t.root.height - nn.height - 1)) = true := by
  unfold treeOkB at hok
  simp only [Bool.and_eq_true] at hok
  obtain ⟨hpar, hroot⟩ := hok
  obtain ⟨hmax, hmin, h2m⟩ := paramsOkB_dest hpar
  have hnh1 : 1 ≤ nn.height := by
    rcases hx : nn.height with _ | g
    · rw [hx] at hnn
      exact absurd hnn (fun h => okB_zero_false h)
    · omega
  have hpath := chooseSubtreePath_descPathB nn.bounds (nn.height + 1) (by omega)
    (t.root.height + 1) t.root 0 (t.root.height - nn.height - 1) hroot
    (by omega) (by omega) (by omega)
  obtain ⟨hi1, hi2, _, hi4⟩ := insertNodeGo_ok nn hmin h2m hnn
    (chooseSubtreePath nn.bounds (t.root.height + 1) t.root 0
      (t.root.height - nn.height - 1))
    t.root hpath hroot
  have hfin := @finishInsert_ok α _ _ bf t.maxEntries nn.bounds
    (insertNodeGo bf nn.bounds nn t.maxEntries t.minEntries
      (chooseSubtreePath nn.bounds (t.root.height + 1) t.root 0
        (t.root.height - nn.height - 1))
      t.root)
    t.root.height (by omega) hi1 hi2
    (fun s hs => ⟨(hi4 s hs).1, (hi4 s hs).2.1, (hi4 s hs).2.2.1⟩)
  unfold treeOkB
  simp only [Bool.and_eq_true]
  exact ⟨hpar, hfin⟩

theorem removeFirstMatch_some {α : Type} {eqF : α → α → Bool} {target : α} :
    ∀ {xs ys : List α}, removeFirstMatch eqF target xs = some ys →
      ∃ y, eqF target y = true ∧ List.Perm xs (y :: ys) := by
  intro xs
  induction xs with
  | nil =>
    intro ys h
    exact Option.noConfusion h
  | cons x rest ih =>
    intro ys h
    unfold removeFirstMatch at h
    by_cases hx : eqF target x = true
    · rw [if_pos hx] at h
      injection h with h1
      subst h1
      exact ⟨x, hx, List.Perm.refl _⟩
    · rw [if_neg hx] at h
      cases hr : removeFirstMatch eqF target rest with
      | none =>
        rw [hr] at h
        exact Option.noConfusion h
      | some xs1 =>
        rw [hr] at h
        injection h with h1
        subst h1
        obtain ⟨y, hy, hperm⟩ := ih hr
        exact ⟨y, hy, (hperm.cons x).trans (List.Perm.swap y x xs1)⟩

theorem removeFirstMatch_isSome {α : Type} {eqF : α → α → Bool} {target : α} :
    ∀ {xs : List α}, (∃ x ∈ xs, eqF target x = true) →
      (removeFirstMatch eqF target xs).isSome = true := by
  intro xs
  induction xs with
  | nil =>
    rintro ⟨x, hx, -⟩
    exact absurd hx (List.not_mem_nil x)
  | cons a rest ih =>
    rintro ⟨x, hx, hxeq⟩
    unfold removeFirstMatch
    by_cases ha : eqF target a = true
    · rw [if_pos ha]
      rfl
    · rw [if_neg ha]
      have hxr : x ∈ rest := by
        rcases List.mem_cons.mp hx with h1 | h1
        · subst h1
          exact absurd hxeq ha
        · exact h1
      have hs := ih ⟨x, hxr, hxeq⟩
      cases hr : removeFirstMatch eqF target rest with
      | none =>
        rw [hr] at hs
        simp at hs
      | some xs1 => rfl

theorem removeFirstMatch_none_of {α : Type} {eqF : α → α → Bool} {target : α} :
    ∀ {xs : List α}, (∀ x ∈ xs, eqF target x = false) →
      removeFirstMatch eqF target xs = none := by
  intro xs
  induction xs with
  | nil =>
    intro _
    rfl
  | cons a rest ih =>
    intro hall
    have ha := hall a (List.mem_cons_self a rest)
    unfold removeFirstMatch
    rw [if_neg (by rw [ha]; simp)]
    rw [ih (fun x hx => hall x (List.mem_cons_of_mem a hx))]

theorem removeKidsAux_some {α : Type} {rec : Node α → Option (Option (Node α))} :
    ∀ {cs cs1 : List (Node α)}, removeKidsAux rec cs = some cs1 →
      ∃ pre c post, cs = pre ++ c :: post ∧
        ((rec c = some none ∧ cs1 = pre ++ post) ∨
         (∃ c1, rec c = some (some c1) ∧ cs1 = pre ++ c1 :: post)) := by
  intro cs
  induction cs with
  | nil =>
    intro cs1 h
    exact Option.noConfusion h
  | cons c rest ih =>
    intro cs1 h
    unfold removeKidsAux at h
    cases hc : rec c with
    | some r =>
      cases r with
      | none =>
        rw [hc] at h
        dsimp only at h
        injection h with h1
        subst h1
        exact ⟨[], c, rest, rfl, Or.inl ⟨hc, rfl⟩⟩
      | some c1 =>
        rw [hc] at h
        dsimp only at h
        injection h with h1
        subst h1
        exact ⟨[], c, rest, rfl, Or.inr ⟨c1, hc, rfl⟩⟩
    | none =>
      rw [hc] at h
      dsimp only at h
      cases hr : removeKidsAux rec rest with
      | none =>
        rw [hr] at h
        exact Option.noConfusion h
      | some cs2 =>
        rw [hr] at h
        dsimp only at h
        injection h with h1
        subst h1
        obtain ⟨pre, c0, post, hsplit, hcase⟩ := ih hr
        refine ⟨c :: pre, c0, post, by rw [hsplit]; rfl, ?_⟩
        rcases hcase with ⟨h2, h3⟩ | ⟨c1, h2, h3⟩
        · exact Or.inl ⟨h2, by rw [h3]; rfl⟩
        · exact Or.inr ⟨c1, h2, by rw [h3]; rfl⟩

theorem removeKidsAux_isSome {α : Type} {rec : Node α → Option (Option (Node α))} :
    ∀ {cs : List (Node α)}, (∃ c ∈ cs, (rec c).isSome = true) →
      (removeKidsAux rec cs).isSome = true := by
  intro cs
  induction cs with
  | nil =>
    rintro ⟨c, hc, -⟩
    exact absurd hc (List.not_mem_nil c)
  | cons a rest ih =>
    rintro ⟨c, hc, hcs⟩
    unfold removeKidsAux
    cases ha : rec a with
    | some r =>
      cases r with
      | none => rfl
      | some a1 => rfl
    | none =>
      have hcr : c ∈ rest := by
        rcases List.mem_cons.mp hc with h1 | h1
        · subst h1
          rw [ha] at hcs
          simp at hcs
        · exact h1
      have hs := ih ⟨c, hcr, hcs⟩
      cases hr : removeKidsAux rec rest with
      | none =>
        rw [hr] at hs
        simp at hs
      | some cs2 => rfl

theorem removeKidsAux_none_of {α : Type} {rec : Node α → Option (Option (Node α))} :
    ∀ {cs : List (Node α)}, (∀ c ∈ cs, rec c = none) →
      removeKidsAux rec cs = none := by
  intro cs
  induction cs with
  | nil =>
    intro _
    rfl
  | cons a rest ih =>
    intro hall
    unfold removeKidsAux
    rw [hall a (List.mem_cons_self a rest)]
    rw [ih (fun c hc => hall c (List.mem_cons_of_mem a hc))]

theorem flatten_map_mid {α β : Type} (f : α → List β) (pre post : List α) (c : α) :
    ((pre ++ c :: post).map f).flatten
      = (pre.map f).flatten ++ (f c ++ (post.map f).flatten) := by
  simp [List.map_append]

theorem removeGo_none_of_nomatch {α : Type} [Inhabited α] [DecidableEq α] {bf : α → Rectf}
    {bb : Rectf} {target : α} {eqF : α → α → Bool} :
    ∀ (h : ℕ) (n : Node α),
      (∀ y ∈ subItemsF h n, eqF target y = false) →
      removeGo bf bb target eqF h n = none := by
  intro h
  induction h with
  | zero =>
    intro n _
    rfl
  | succ g ih =>
    intro n hall
    unfold removeGo
    cases hl : n.leaf with
    | true =>
      simp only [if_true]
      rw [removeFirstMatch_none_of (fun x hx => hall x (mem_subItemsF_succ.mpr (Or.inl hx)))]
    | false =>
      simp only [Bool.false_eq_true, if_false]
      by_cases hcont : containsO' n.bounds bb = true
      · rw [if_pos hcont]
        rw [removeKidsAux_none_of (fun c hc => ih c (fun y hy =>
          hall y (mem_subItemsF_succ.mpr (Or.inr ⟨c, hc, hy⟩))))]
      · rw [if_neg hcont]

theorem removeGo_isSome_of_mem {α : Type} [Inhabited α] [DecidableEq α] {bf : α → Rectf}
    {maxE : ℕ} {target : α} :
    ∀ (h : ℕ) (ir : Bool) (n : Node α),
      okB bf maxE ir h n = true →
      target ∈ subItemsF h n →
      (removeGo bf (bf target) target (fun a b => decide (a = b)) h n).isSome = true := by
  intro h
  induction h with
  | zero =>
    intro ir n _ hmem
    exact absurd hmem (List.not_mem_nil target)
  | succ g ih =>
    intro ir n hok hmem
    unfold removeGo
    cases hl : n.leaf with
    | true =>
      simp only [if_true]
      have hch : n.children = [] := ((okB_dest hok).2.1 hl).1
      have hmem2 : target ∈ n.items := by
        rcases mem_subItemsF_succ.mp hmem with h1 | ⟨c, hc, -⟩
        · exact h1
        · rw [hch] at hc
          exact absurd hc (List.not_mem_nil c)
      have hsome := @removeFirstMatch_isSome α (fun a b => decide (a = b)) target
        n.items ⟨target, hmem2, by simp⟩
      cases hr : removeFirstMatch (fun a b => decide (a = b)) target n.items with
      | none =>
        rw [hr] at hsome
        simp at hsome
      | some items1 =>
        dsimp only
        split
        · rfl
        · rfl
    | false =>
      simp only [Bool.false_eq_true, if_false]
      have hcov := (okB_dest hok).2.2.2.2.1 target hmem
      rw [if_pos hcov]
      obtain ⟨hitems, -, -⟩ := (okB_dest hok).2.2.1 hl
      have hmem2 : ∃ c ∈ n.children, target ∈ subItemsF g c := by
        rcases mem_subItemsF_succ.mp hmem with h1 | h2
        · rw [hitems] at h1
          exact absurd h1 (List.not_mem_nil target)
        · exact h2
      obtain ⟨c, hcmem, hcx⟩ := hmem2
      have hkid := (okB_dest hok).2.2.2.2.2 c hcmem
      have hsome := removeKidsAux_isSome ⟨c, hcmem, ih false c hkid hcx⟩
      cases hr : removeKidsAux (removeGo bf (bf target) target
          (fun a b => decide (a = b)) g) n.children with
      | none =>
        rw [hr] at hsome
        simp at hsome
      | some cs1 =>
        dsimp only
        split
        · rfl
        · rfl

theorem removeGo_ok {α : Type} [Inhabited α] [DecidableEq α] {bf : α → Rectf}
    {maxE : ℕ} {bb : Rectf} {target : α} {eqF : α → α → Bool} :
    ∀ (h : ℕ) (ir : Bool) (n : Node α),
      okB bf maxE ir h n = true →
      ∀ r, removeGo bf bb target eqF h n = some r →
        ∃ y, eqF target y = true ∧
          (r = none → List.Perm (subItemsF h n) [y]) ∧
          (∀ n1, r = some n1 →
            n1.height = n.height ∧ okB bf maxE ir h n1 = true ∧
            List.Perm (subItemsF h n) (y :: subItemsF h n1)) := by
  intro h
  induction h with
  | zero =>
    intro ir n _ r hr
    exact Option.noConfusion hr
  | succ g ih =>
    intro ir n hok r hr
    obtain ⟨hH, hLf, hInt, hCnt, hCov, hKids⟩ := okB_dest hok
    unfold removeGo at hr
    cases hl : n.leaf with
    | true =>
      rw [hl] at hr
      simp only [if_true] at hr
      obtain ⟨hch, hh1, -⟩ := hLf hl
      cases hm : removeFirstMatch eqF target n.items with
      | none =>
        rw [hm] at hr
        exact Option.noConfusion hr
      | some items1 =>
        rw [hm] at hr
        dsimp only at hr
        obtain ⟨y, hy, hperm⟩ := removeFirstMatch_some hm
        have hsub : subItemsF (g + 1) n = n.items := by
          show n.items ++ (n.children.map (subItemsF g)).flatten = n.items
          rw [hch]
          simp
        by_cases hz : (n.children.length + items1.length == 0) = true
        · rw [if_pos hz] at hr
          injection hr with hr1
          subst hr1
          refine ⟨y, hy, ?_, ?_⟩
          · intro _
            have hz2 : items1 = [] := by
              simp only [beq_iff_eq] at hz
              have hlen0 : items1.length = 0 := by omega
              exact List.length_eq_zero.mp hlen0
            rw [hsub]
            rw [hz2] at hperm
            exact hperm
          · intro n1 hn1
            exact Option.noConfusion hn1
        · rw [if_neg hz] at hr
          injection hr with hr1
          subst hr1
          refine ⟨y, hy, ?_, ?_⟩
          · intro hcon
            exact Option.noConfusion hcon
          · intro n1 hn1
            injection hn1 with hn2
            subst hn2
            have hne : items1 ≠ [] := by
              intro hcc
              apply hz
              simp only [beq_iff_eq]
              rw [hcc, hch]
              rfl
            have hlen : n.items.length = items1.length + 1 := by
              have hle := hperm.length_eq
              simp only [List.length_cons] at hle
              omega
            have hsub1 : subItemsF (g + 1) (Node.mk n.children items1 n.height true
                (foldBounds (itemBBs bf items1))) = items1 := by
              show items1 ++ (n.children.map (subItemsF g)).flatten = items1
              rw [hch]
              simp
            refine ⟨rfl, ?_, ?_⟩
            · refine okB_intro ?_ ?_ ?_ ?_ ?_ ?_
              · show n.height = g + 1
                exact hH
              · intro _
                exact ⟨hch, hh1, Or.inr hne⟩
              · intro hlf
                exact Bool.noConfusion hlf
              · show n.children.length + items1.length ≤ maxE
                have hc2 : n.children.length + n.items.length ≤ maxE := hCnt
                omega
              · intro x hx
                have hx2 : x ∈ items1 := by
                  rw [hsub1] at hx
                  exact hx
                rw [containsO'_eq_subO]
                exact foldBounds_superset (List.mem_map_of_mem _ hx2)
              · intro ch hc
                have hc2 : ch ∈ n.children := hc
                rw [hch] at hc2
                exact absurd hc2 (List.not_mem_nil ch)
            · rw [hsub, hsub1]
              exact hperm
    | false =>
      rw [hl] at hr
      simp only [Bool.false_eq_true, if_false] at hr
      obtain ⟨hitems, hchne, hhh⟩ := hInt hl
      by_cases hcont : containsO' n.bounds bb = true
      · rw [if_pos hcont] at hr
        cases hm : removeKidsAux (removeGo bf bb target eqF g) n.children with
        | none =>
          rw [hm] at hr
          exact Option.noConfusion hr
        | some cs1 =>
          rw [hm] at hr
          dsimp only at hr
          obtain ⟨pre, c, post, hsplit, hcase⟩ := removeKidsAux_some hm
          have hcmem : c ∈ n.children := by
            rw [hsplit]
            simp
          have hcok := hKids c hcmem
          have hsubn : subItemsF (g + 1) n
              = (pre.map (subItemsF g)).flatten
                ++ (subItemsF g c ++ (post.map (subItemsF g)).flatten) := by
            show n.items ++ (n.children.map (subItemsF g)).flatten = _
            rw [hitems, hsplit, flatten_map_mid]
            simp
          by_cases hz : (cs1.length + n.items.length == 0) = true
          · rw [if_pos hz] at hr
            injection hr with hr1
            subst hr1
            rcases hcase with ⟨hrec, hcs1⟩ | ⟨c1, hrec, hcs1⟩
            · obtain ⟨y, hy, hnone, -⟩ := ih false c hcok none hrec
              have hsc : List.Perm (subItemsF g c) [y] := hnone rfl
              have hpre0 : pre = [] ∧ post = [] := by
                simp only [beq_iff_eq] at hz
                have hlen0 : cs1.length = 0 := by omega
                rw [hcs1] at hlen0
                simp only [List.length_append] at hlen0
                constructor
                · exact List.length_eq_zero.mp (by omega)
                · exact List.length_eq_zero.mp (by omega)
              refine ⟨y, hy, ?_, ?_⟩
              · intro _
                rw [hsubn, hpre0.1, hpre0.2]
                simp only [List.map_nil, List.flatten_nil, List.nil_append,
                  List.append_nil]
                exact hsc
              · intro n1 hn1
                exact Option.noConfusion hn1
            · exfalso
              simp only [beq_iff_eq] at hz
              have hlen0 : cs1.length = 0 := by omega
              rw [hcs1] at hlen0
              simp only [List.length_append, List.length_cons] at hlen0
              omega
          · rw [if_neg hz] at hr
            injection hr with hr1
            subst hr1
            have hgpos : ∃ g1, g = g1 + 1 := by
              obtain ⟨c0, hc0⟩ := List.exists_mem_of_ne_nil _ hchne
              have hk0 := hKids c0 hc0
              cases g with
              | zero => exact absurd hk0 (fun hq => okB_zero_false hq)
              | succ g1 => exact ⟨g1, rfl⟩
            obtain ⟨g1, hg1⟩ := hgpos
            subst hg1
            rcases hcase with ⟨hrec, hcs1⟩ | ⟨c1, hrec, hcs1⟩
            · obtain ⟨y, hy, hnone, -⟩ := ih false c hcok none hrec
              have hsc : List.Perm (subItemsF (g1 + 1) c) [y] := hnone rfl
              have hcs1ne : cs1 ≠ [] := by
                intro hcc
                apply hz
                simp only [beq_iff_eq]
                rw [hcc, hitems]
                rfl
              have hmemcs1 : ∀ c' ∈ cs1, c' ∈ n.children := by
                intro c' hc'
                rw [hcs1] at hc'
                rw [hsplit]
                rcases List.mem_append.mp hc' with h1 | h1
                · exact List.mem_append.mpr (Or.inl h1)
                · exact List.mem_append.mpr (Or.inr (List.mem_cons_of_mem c h1))
              have hsubn1 : subItemsF ((g1 + 1) + 1) (Node.mk cs1 n.items n.height false
                  (foldBounds (nodeBBs cs1)))
                  = (pre.map (subItemsF (g1 + 1))).flatten
                    ++ (post.map (subItemsF (g1 + 1))).flatten := by
                show n.items ++ (cs1.map (subItemsF (g1 + 1))).flatten = _
                rw [hitems, hcs1]
                simp [List.map_append]
              refine ⟨y, hy, ?_, ?_⟩
              · intro hcon
                exact Option.noConfusion hcon
              · intro n1 hn1
                injection hn1 with hn2
                subst hn2
                refine ⟨rfl, ?_, ?_⟩
                · refine okB_intro ?_ ?_ ?_ ?_ ?_ ?_
                  · show n.height = (g1 + 1) + 1
                    exact hH
                  · intro hlf
                    exact Bool.noConfusion hlf
                  · intro _
                    refine ⟨hitems, hcs1ne, ?_⟩
                    intro c' hc'
                    exact hhh c' (hmemcs1 c' hc')
                  · show cs1.length + n.items.length ≤ maxE
                    have hc2 : n.children.length + n.items.length ≤ maxE := hCnt
                    have hlen : cs1.length ≤ n.children.length := by
                      rw [hcs1, hsplit]
                      simp only [List.length_append, List.length_cons]
                      omega
                    omega
                  · intro x hx
                    have hx2 : x ∈ n.items ++ (cs1.map (subItemsF (g1 + 1))).flatten := hx
                    rw [hitems] at hx2
                    simp only [List.nil_append] at hx2
                    obtain ⟨l, hl2, hx3⟩ := List.mem_flatten.mp hx2
                    obtain ⟨c', hc', hceq⟩ := List.mem_map.mp hl2
                    subst hceq
                    have hcov2 := (okB_dest (hKids c' (hmemcs1 c' hc'))).2.2.2.2.1 x hx3
                    rw [containsO'_eq_subO] at hcov2 ⊢
                    refine subO_trans hcov2 ?_
                    exact foldBounds_superset (List.mem_map_of_mem _ hc')
                  · intro c' hc'
                    exact hKids c' (hmemcs1 c' hc')
                · rw [hsubn, hsubn1]
                  exact (List.Perm.append_left _ (hsc.append_right _)).trans
                    List.perm_middle
            · obtain ⟨y, hy, -, hsome⟩ := ih false c hcok (some c1) hrec
              obtain ⟨hch1, hcok1, hscp⟩ := hsome c1 rfl
              have hcs1ne : cs1 ≠ [] := by
                rw [hcs1]
                intro hcc
                exact absurd hcc (by simp)
              have hmemcs1 : ∀ c' ∈ cs1, c' ∈ n.children ∨ c' = c1 := by
                intro c' hc'
                rw [hcs1] at hc'
                rcases List.mem_append.mp hc' with h1 | h1
                · exact Or.inl (by rw [hsplit]; exact List.mem_append.mpr (Or.inl h1))
                · rcases List.mem_cons.mp h1 with h2 | h2
                  · exact Or.inr h2
                  · exact Or.inl (by
                      rw [hsplit]
                      exact List.mem_append.mpr (Or.inr (List.mem_cons_of_mem c h2)))
              have hsubn1 : subItemsF ((g1 + 1) + 1) (Node.mk cs1 n.items n.height false
                  (foldBounds (nodeBBs cs1)))
                  = (pre.map (subItemsF (g1 + 1))).flatten
                    ++ (subItemsF (g1 + 1) c1 ++ (post.map (subItemsF (g1 + 1))).flatten) := by
                show n.items ++ (cs1.map (subItemsF (g1 + 1))).flatten = _
                rw [hitems, hcs1, flatten_map_mid]
                simp
              refine ⟨y, hy, ?_, ?_⟩
              · intro hcon
                exact Option.noConfusion hcon
              · intro n1 hn1
                injection hn1 with hn2
                subst hn2
                refine ⟨rfl, ?_, ?_⟩
                · refine okB_intro ?_ ?_ ?_ ?_ ?_ ?_
                  · show n.height = (g1 + 1) + 1
                    exact hH
                  · intro hlf
                    exact Bool.noConfusion hlf
                  · intro _
                    refine ⟨hitems, hcs1ne, ?_⟩
                    intro c' hc'
                    rcases hmemcs1 c' hc' with h1 | h1
                    · exact hhh c' h1
                    · subst h1
                      rw [hch1]
                      exact hhh c hcmem
                  · show cs1.length + n.items.length ≤ maxE
                    have hc2 : n.children.length + n.items.length ≤ maxE := hCnt
                    have hlen : cs1.length = n.children.length := by
                      rw [hcs1, hsplit]
                      simp
                    omega
                  · intro x hx
                    have hx2 : x ∈ n.items ++ (cs1.map (subItemsF (g1 + 1))).flatten := hx
                    rw [hitems] at hx2
                    simp only [List.nil_append] at hx2
                    obtain ⟨l, hl2, hx3⟩ := List.mem_flatten.mp hx2
                    obtain ⟨c', hc', hceq⟩ := List.mem_map.mp hl2
                    subst hceq
                    have hok' : okB bf maxE false (g1 + 1) c' = true := by
                      rcases hmemcs1 c' hc' with h1 | h1
                      · exact hKids c' h1
                      · subst h1
                        exact hcok1
                    have hcov2 := (okB_dest hok').2.2.2.2.1 x hx3
                    rw [containsO'_eq_subO] at hcov2 ⊢
                    refine subO_trans hcov2 ?_
                    exact foldBounds_superset (List.mem_map_of_mem _ hc')
                  · intro c' hc'
                    rcases hmemcs1 c' hc' with h1 | h1
                    · exact hKids c' h1
                    · subst h1
                      exact hcok1
                · rw [hsubn, hsubn1]
                  exact (List.Perm.append_left _ (hscp.append_right _)).trans
                    List.perm_middle
      · rw [if_neg hcont] at hr
        exact Option.noConfusion hr

theorem okB_newNode {α : Type} {bf : α → Rectf} {maxE : ℕ} :
    okB bf maxE true 1 (newNode : Node α) = true := by
  show okB bf maxE true (0 + 1) (newNode : Node α) = true
  refine okB_intro rfl ?_ ?_ ?_ ?_ ?_
  · intro _
    exact ⟨rfl, rfl, Or.inl rfl⟩
  · intro hlf
    exact Bool.noConfusion hlf
  · exact Nat.zero_le maxE
  · intro x hx
    exact absurd hx (List.not_mem_nil x)
  · intro c hc
    exact absurd hc (List.not_mem_nil c)

theorem removeOp_treeOk {α : Type} [Inhabited α] [DecidableEq α] {bf : α → Rectf}
    {t : RTree α} (target : α) (eqF : Option (α → α → Bool))
    (hok : treeOkB bf t = true) :
    treeOkB bf (RTree.removeOp bf t target eqF) = true := by
  unfold treeOkB at hok
  simp only [Bool.and_eq_true] at hok
  obtain ⟨hpar, hroot⟩ := hok
  unfold RTree.removeOp
  dsimp only
  cases hm : removeGo bf (bf target) target (eqF.getD fun a b => decide (a = b))
      t.root.height t.root with
  | none =>
    unfold treeOkB
    simp only [Bool.and_eq_true]
    exact ⟨hpar, hroot⟩
  | some r =>
    cases r with
    | none =>
      unfold treeOkB
      simp only [Bool.and_eq_true]
      exact ⟨hpar, okB_newNode⟩
    | some r1 =>
      obtain ⟨y, hy, -, hsome⟩ := removeGo_ok t.root.height true t.root hroot
        (some r1) hm
      obtain ⟨hh, hok1, -⟩ := hsome r1 rfl
      unfold treeOkB
      simp only [Bool.and_eq_true]
      refine ⟨hpar, ?_⟩
      show okB bf t.maxEntries true r1.height r1 = true
      rw [hh]
      exact hok1

theorem removeOp_noop {α : Type} [Inhabited α] [DecidableEq α] {bf : α → Rectf}
    {t : RTree α} (target : α) (eqF : Option (α → α → Bool))
    (hall : ∀ y ∈ subItems t.root,
      (eqF.getD fun a b => decide (a = b)) target y = false) :
    RTree.removeOp bf t target eqF = t := by
  unfold RTree.removeOp
  dsimp only
  rw [removeGo_none_of_nomatch t.root.height t.root hall]

theorem removeOp_erase_perm {α : Type} [Inhabited α] [DecidableEq α] {bf : α → Rectf}
    {t : RTree α} (target : α)
    (hok : treeOkB bf t = true) (hmem : target ∈ subItems t.root) :
    List.Perm (subItems (RTree.removeOp bf t target none).root)
      ((subItems t.root).erase target) := by
  unfold treeOkB at hok
  simp only [Bool.and_eq_true] at hok
  obtain ⟨hpar, hroot⟩ := hok
  have hsome := removeGo_isSome_of_mem t.root.height true t.root hroot hmem
  unfold RTree.removeOp
  dsimp only
  cases hm : removeGo bf (bf target) target ((none : Option (α → α → Bool)).getD
      fun a b => decide (a = b)) t.root.height t.root with
  | none =>
    have hm2 : removeGo bf (bf target) target (fun a b => decide (a = b))
        t.root.height t.root = none := hm
    rw [hm2] at hsome
    simp at hsome
  | some r =>
    obtain ⟨y, hy, hnone, hsome2⟩ := removeGo_ok t.root.height true t.root hroot r hm
    have hyt : target = y := of_decide_eq_true hy
    subst hyt
    cases r with
    | none =>
      have hperm := hnone rfl
      have h1 := hperm.erase target
      rw [List.erase_cons_head] at h1
      exact h1.symm
    | some r1 =>
      obtain ⟨hh, -, hperm⟩ := hsome2 r1 rfl
      have h1 := hperm.erase target
      rw [List.erase_cons_head] at h1
      have h2 : subItems r1 = subItemsF t.root.height r1 := by
        unfold subItems
        rw [hh]
      show List.Perm (subItems r1) _
      rw [h2]
      exact h1.symm

theorem new_treeOk {α : Type} [Inhabited α] [DecidableEq α] {bf : α → Rectf} (m : ℤ) :
    treeOkB bf (RTree.new α m) = true := by
  unfold treeOkB
  simp only [Bool.and_eq_true]
  constructor
  · have h1 : (RTree.new α m).maxEntries
        = Nat.max 4 (if m ≤ 0 then (16 : ℤ) else m).toNat := rfl
    have h2 : (RTree.new α m).minEntries
        = Nat.max 2 ((2 * Nat.max 4 (if m ≤ 0 then (16 : ℤ) else m).toNat + 4) / 5) := rfl
    unfold paramsOkB
    rw [h1, h2]
    simp only [Bool.and_eq_true, decide_eq_true_eq]
    have hM4 : 4 ≤ Nat.max 4 (if m ≤ 0 then (16 : ℤ) else m).toNat :=
      Nat.le_max_left _ _
    have hmin2 : 2 ≤ Nat.max 2
        ((2 * Nat.max 4 (if m ≤ 0 then (16 : ℤ) else m).toNat + 4) / 5) :=
      Nat.le_max_left _ _
    by_cases hq : 2 ≤ (2 * Nat.max 4 (if m ≤ 0 then (16 : ℤ) else m).toNat + 4) / 5
    · have hch : Nat.max 2
          ((2 * Nat.max 4 (if m ≤ 0 then (16 : ℤ) else m).toNat + 4) / 5)
          = (2 * Nat.max 4 (if m ≤ 0 then (16 : ℤ) else m).toNat + 4) / 5 :=
        Nat.max_eq_right hq
      rw [hch]
      refine ⟨⟨hM4, hq⟩, ?_⟩
      omega
    · have hch : Nat.max 2
          ((2 * Nat.max 4 (if m ≤ 0 then (16 : ℤ) else m).toNat + 4) / 5) = 2 :=
        Nat.max_eq_left (by omega)
      rw [hch]
      refine ⟨⟨hM4, Nat.le_refl 2⟩, ?_⟩
      omega
  · exact okB_newNode

theorem clear_treeOk {α : Type} [Inhabited α] [DecidableEq α] {bf : α → Rectf}
    {t : RTree α} (hok : treeOkB bf t = true) :
    treeOkB bf (RTree.clear t) = true := by
  unfold treeOkB at hok ⊢
  simp only [Bool.and_eq_true] at hok ⊢
  exact ⟨hok.1, okB_newNode⟩

theorem ceilDiv_pos {a b : ℕ} (ha : 1 ≤ a) (hb : 1 ≤ b) : 1 ≤ ceilDiv a b := by
  unfold ceilDiv
  rw [Nat.one_le_div_iff hb]
  omega

theorem le_mul_ceilDiv {a b : ℕ} (hb : 1 ≤ b) : a ≤ b * ceilDiv a b := by
  unfold ceilDiv
  rcases Nat.eq_zero_or_pos a with ha | ha
  · subst ha
    exact Nat.zero_le _
  · have h1 : a + b - 1 = (a - 1) + b := by omega
    rw [h1, Nat.add_div_right _ hb, Nat.mul_add, Nat.mul_one]
    have h2 : b * ((a - 1) / b) ≥ (a - 1) - (b - 1) := by
      have := Nat.div_add_mod (a - 1) b
      have hmod := Nat.mod_lt (a - 1) hb
      omega
    have := Nat.div_add_mod (a - 1) b
    have hmod := Nat.mod_lt (a - 1) hb
    omega

theorem mul_ceilDiv_lt {a b : ℕ} (hb : 1 ≤ b) : b * ceilDiv a b < a + b := by
  unfold ceilDiv
  have h1 : b * ((a + b - 1) / b) ≤ a + b - 1 := by
    rw [Nat.mul_comm]
    exact Nat.div_mul_le_self (a + b - 1) b
  omega

theorem ceilDiv_le {a b c : ℕ} (hb : 1 ≤ b) (h : a ≤ b * c) : ceilDiv a b ≤ c := by
  unfold ceilDiv
  rw [Nat.div_le_iff_le_mul_add_pred hb]
  omega

theorem lt_ceilDiv {a b c : ℕ} (hb : 1 ≤ b) (h : b * c < a) : c < ceilDiv a b := by
  by_contra hcon
  have h2 : ceilDiv a b ≤ c := by omega
  have := le_mul_ceilDiv (a := a) hb
  have h3 : b * ceilDiv a b ≤ b * c := Nat.mul_le_mul_left b h2
  omega

theorem csqrtGo_ge (n : ℕ) : ∀ (f k : ℕ), k ≤ csqrtGo n f k := by
  intro f
  induction f with
  | zero =>
    intro k
    exact Nat.le_refl k
  | succ f ih =>
    intro k
    unfold csqrtGo
    by_cases h : k * k < n
    · rw [if_pos h]
      exact le_trans (Nat.le_succ k) (ih (k + 1))
    · rw [if_neg h]

theorem csqrt_pos {n : ℕ} (hn : 1 ≤ n) : 1 ≤ csqrt n := by
  unfold csqrt
  rcases n with _ | n0
  · omega
  · show 1 ≤ csqrtGo (n0 + 1) (n0 + 1) 0
    unfold csqrtGo
    rw [if_pos (by omega)]
    exact csqrtGo_ge (n0 + 1) n0 1

theorem clogGo_le_pow {b n : ℕ} (hb : 2 ≤ b) :
    ∀ (fuel h : ℕ), n ≤ b ^ (h + fuel) →
      n ≤ b ^ (clogGo b n fuel h (b ^ h)) := by
  intro fuel
  induction fuel with
  | zero =>
    intro h hfuel
    unfold clogGo
    simpa using hfuel
  | succ f ih =>
    intro h hfuel
    unfold clogGo
    by_cases hnp : n ≤ b ^ h
    · rw [if_pos hnp]
      exact hnp
    · rw [if_neg hnp]
      have hstep : b ^ h * b = b ^ (h + 1) := (pow_succ b h).symm
      rw [hstep]
      exact ih (h + 1) (by rw [show h + 1 + f = h + (f + 1) by omega]; exact hfuel)

theorem clogGo_min {b n : ℕ} :
    ∀ (fuel h : ℕ),
      clogGo b n fuel h (b ^ h) = h ∨
      ¬ (n ≤ b ^ (clogGo b n fuel h (b ^ h) - 1)) := by
  intro fuel
  induction fuel with
  | zero =>
    intro h
    exact Or.inl rfl
  | succ f ih =>
    intro h
    unfold clogGo
    by_cases hnp : n ≤ b ^ h
    · rw [if_pos hnp]
      exact Or.inl rfl
    · rw [if_neg hnp]
      have hstep : b ^ h * b = b ^ (h + 1) := (pow_succ b h).symm
      rw [hstep]
      rcases ih (h + 1) with h1 | h1
      · rw [h1]
        right
        simpa using hnp
      · exact Or.inr h1

theorem clogCeil_spec {b n : ℕ} (hb : 2 ≤ b) (hn : b < n) :
    2 ≤ clogCeil b n ∧ n ≤ b ^ clogCeil b n ∧
      b ^ (clogCeil b n - 1) < n := by
  have hfuel : n ≤ b ^ (0 + n) := by
    calc n ≤ 2 ^ n := Nat.le_of_lt (Nat.lt_two_pow n)
    _ ≤ b ^ n := Nat.pow_le_pow_left hb n
    _ = b ^ (0 + n) := by rw [Nat.zero_add]
  have hle : n ≤ b ^ (clogGo b n n 0 (b ^ 0)) := clogGo_le_pow hb n 0 hfuel
  have hmin := clogGo_min (b := b) (n := n) n 0
  have hcl : clogCeil b n = clogGo b n n 0 (b ^ 0) := by
    unfold clogCeil
    rfl
  rw [← hcl] at hle hmin
  have hne0 : clogCeil b n ≠ 0 := by
    intro h0
    rw [h0] at hle
    simp at hle
    omega
  have hlast : b ^ (clogCeil b n - 1) < n := by
    rcases hmin with h1 | h1
    · exact absurd h1 hne0
    · omega
  refine ⟨?_, hle, hlast⟩
  by_contra hcon
  have h2 : clogCeil b n = 1 := by omega
  rw [h2] at hle
  simp at hle
  omega

theorem chunkF_struct {α : Type} {g : ℕ} (hg : 1 ≤ g) :
    ∀ (f : ℕ) (l : List α), l.length ≤ f →
      (chunkF f g l).length = ceilDiv l.length g ∧
      (∀ s ∈ chunkF f g l, 1 ≤ s.length ∧ s.length ≤ g ∧
        l.length - g * (ceilDiv l.length g - 1) ≤ s.length) := by
  intro f
  induction f with
  | zero =>
    intro l hl
    have hnil : l = [] := List.length_eq_zero.mp (by omega)
    subst hnil
    unfold chunkF
    simp only [List.isEmpty_nil, if_true]
    constructor
    · show 0 = ceilDiv 0 g
      unfold ceilDiv
      rw [Nat.div_eq_of_lt (by omega)]
    · intro s hs
      exact absurd hs (List.not_mem_nil s)
  | succ f ih =>
    intro l hl
    unfold chunkF
    cases hle : l.isEmpty with
    | true =>
      have hnil : l = [] := List.isEmpty_iff.mp hle
      subst hnil
      simp only [if_true]
      constructor
      · show 0 = ceilDiv 0 g
        unfold ceilDiv
        rw [Nat.div_eq_of_lt (by omega)]
      · intro s hs
        exact absurd hs (List.not_mem_nil s)
    | false =>
      have hne : l ≠ [] := by
        intro hcc
        rw [hcc] at hle
        simp at hle
      have hlen1 : 1 ≤ l.length := by
        rcases l with _ | ⟨a, l0⟩
        · exact absurd rfl hne
        · simp
      simp only [Bool.false_eq_true, if_false]
      obtain ⟨ih1, ih2⟩ := ih (l.drop g) (by simp; omega)
      have hdl : (l.drop g).length = l.length - g := by simp
      by_cases hsm : l.length ≤ g
      · have hd0 : l.drop g = [] := List.drop_eq_nil_of_le hsm
        have hcd : ceilDiv l.length g = 1 := by
          unfold ceilDiv
          exact Nat.div_eq_of_lt_le (by omega) (by omega)
        rw [hd0] at ih1 ⊢
        constructor
        · show (l.take g :: chunkF f g []).length = ceilDiv l.length g
          have hnil2 : chunkF f g ([] : List α) = [] := by
            unfold chunkF
            rcases f with _ | f0 <;> simp
          rw [hnil2, hcd]
          rfl
        · intro s hs
          have hnil2 : chunkF f g ([] : List α) = [] := by
            unfold chunkF
            rcases f with _ | f0 <;> simp
          rw [hnil2] at hs
          have hs2 : s = l.take g := by
            rcases List.mem_cons.mp hs with h1 | h1
            · exact h1
            · exact absurd h1 (List.not_mem_nil s)
          subst hs2
          have htl : (l.take g).length = l.length := by
            simp
            omega
          rw [htl, hcd]
          omega
      · have hbig : g < l.length := by omega
        have hcd : ceilDiv l.length g = ceilDiv (l.length - g) g + 1 := by
          unfold ceilDiv
          have h1 : l.length + g - 1 = (l.length - g + g - 1) + g := by omega
          rw [h1, Nat.add_div_right _ (by omega)]
        constructor
        · show (l.take g :: chunkF f g (l.drop g)).length = ceilDiv l.length g
          simp only [List.length_cons]
          rw [ih1, hdl, hcd]
        · intro s hs
          have hlow : l.length - g * (ceilDiv l.length g - 1)
              = (l.drop g).length - g * (ceilDiv (l.drop g).length g - 1) := by
            rw [hdl, hcd]
            have hcd1 : 1 ≤ ceilDiv (l.length - g) g :=
              ceilDiv_pos (by omega) hg
            have : g * (ceilDiv (l.length - g) g + 1 - 1)
                = g * (ceilDiv (l.length - g) g - 1) + g := by
              have h2 : ceilDiv (l.length - g) g + 1 - 1
                  = (ceilDiv (l.length - g) g - 1) + 1 := by omega
              rw [h2, Nat.mul_add, Nat.mul_one]
            omega
          rcases List.mem_cons.mp hs with h1 | h1
          · subst h1
            have htl : (l.take g).length = g := by
              simp
              omega
            rw [htl]
            refine ⟨by omega, Nat.le_refl g, ?_⟩
            have hub : l.length ≤ g * ceilDiv l.length g :=
              le_mul_ceilDiv hg
            have hcd1 : 1 ≤ ceilDiv l.length g := ceilDiv_pos (by omega) hg
            have hsplit2 : g * ceilDiv l.length g
                = g * (ceilDiv l.length g - 1) + g := by
              have h2 : ceilDiv l.length g = (ceilDiv l.length g - 1) + 1 := by omega
              calc g * ceilDiv l.length g
                  = g * ((ceilDiv l.length g - 1) + 1) := by rw [← h2]
                _ = g * (ceilDiv l.length g - 1) + g := by
                    rw [Nat.mul_add, Nat.mul_one]
            omega
          · obtain ⟨s1, s2, s3⟩ := ih2 s h1
            refine ⟨s1, s2, ?_⟩
            rw [hlow]
            exact s3

theorem chunkF_nil {α : Type} (f g : ℕ) : chunkF f g ([] : List α) = [] := by
  unfold chunkF
  rcases f with _ | f0 <;> simp

theorem chunkF_fuel_irrel {α : Type} {g : ℕ} (hg : 1 ≤ g) :
    ∀ (f1 f2 : ℕ) (l : List α), l.length ≤ f1 → l.length ≤ f2 →
      chunkF f1 g l = chunkF f2 g l := by
  intro f1
  induction f1 with
  | zero =>
    intro f2 l h1 h2
    have hnil : l = [] := List.length_eq_zero.mp (by omega)
    subst hnil
    rw [chunkF_nil, chunkF_nil]
  | succ f ih =>
    intro f2 l h1 h2
    cases hemp : l.isEmpty with
    | true =>
      have hnil : l = [] := List.isEmpty_iff.mp hemp
      subst hnil
      rw [chunkF_nil, chunkF_nil]
    | false =>
      have hne : l ≠ [] := by
        intro hcc
        rw [hcc] at hemp
        simp at hemp
      have hlen1 : 0 < l.length := List.length_pos.mpr hne
      rcases f2 with _ | f2'
      · omega
      · unfold chunkF
        rw [hemp]
        simp only [Bool.false_eq_true, if_false]
        rw [ih f2' (l.drop g) (by simp; omega) (by simp; omega)]

theorem chunk_cons {α : Type} {g : ℕ} (hg : 1 ≤ g) {l : List α} (hne : l ≠ []) :
    chunk g l = l.take g :: chunk g (l.drop g) := by
  have hlen1 : 0 < l.length := List.length_pos.mpr hne
  have hemp : l.isEmpty = false := by
    rcases hll : l with _ | ⟨a, l0⟩
    · exact absurd hll hne
    · rfl
  show chunkF l.length g l = l.take g :: chunkF (l.drop g).length g (l.drop g)
  rcases hll : l.length with _ | m
  · omega
  · conv_lhs => rw [chunkF]
    rw [hemp]
    simp only [Bool.false_eq_true, if_false]
    rw [chunkF_fuel_irrel hg m (l.drop g).length (l.drop g) (by simp; omega)
      (Nat.le_refl _)]

theorem chunk_append_dvd {α : Type} {g : ℕ} (hg : 1 ≤ g) :
    ∀ (k : ℕ) (a b : List α), a.length = g * k →
      chunk g (a ++ b) = chunk g a ++ chunk g b := by
  intro k
  induction k with
  | zero =>
    intro a b ha
    have hnil : a = [] := List.length_eq_zero.mp (by omega)
    subst hnil
    show chunk g b = chunkF 0 g [] ++ chunk g b
    rw [chunkF_nil]
    rfl
  | succ k ih =>
    intro a b ha
    have hmul : g * (k + 1) = g * k + g := by
      rw [Nat.mul_add, Nat.mul_one]
    have hga : g ≤ a.length := by omega
    have hane : a ≠ [] := by
      intro hcc
      rw [hcc] at hga
      simp at hga
      omega
    have habne : a ++ b ≠ [] := by
      intro hcc
      rcases List.append_eq_nil.mp hcc with ⟨h1, -⟩
      exact hane h1
    rw [chunk_cons hg habne, chunk_cons hg hane]
    rw [List.take_append_of_le_length hga, List.drop_append_of_le_length hga]
    rw [ih (a.drop g) b (by simp; omega)]
    rfl

theorem chunk_nest {α : Type} {g G : ℕ} (hg : 1 ≤ g) (hG : 1 ≤ G) (hdvd : g ∣ G) :
    ∀ (n : ℕ) (l : List α), l.length ≤ n →
      ((chunk G l).map (chunk g)).flatten = chunk g l := by
  intro n
  induction n with
  | zero =>
    intro l hl
    have hnil : l = [] := List.length_eq_zero.mp (by omega)
    subst hnil
    show ((chunkF 0 G []).map (chunk g)).flatten = chunk g []
    rw [chunkF_nil]
    rfl
  | succ n ih =>
    intro l hl
    by_cases hne : l = []
    · subst hne
      show ((chunkF 0 G []).map (chunk g)).flatten = chunk g []
      rw [chunkF_nil]
      rfl
    · have hlen1 : 0 < l.length := List.length_pos.mpr hne
      rw [chunk_cons hG hne]
      rw [List.map_cons, List.flatten_cons]
      rw [ih (l.drop G) (by simp; omega)]
      by_cases hsm : l.length ≤ G
      · have hd0 : l.drop G = [] := List.drop_eq_nil_of_le hsm
        have ht0 : l.take G = l := List.take_of_length_le hsm
        rw [hd0, ht0]
        show chunk g l ++ chunkF 0 g [] = chunk g l
        rw [chunkF_nil]
        simp
      · obtain ⟨k, hk⟩ := hdvd
        have htG : (l.take G).length = g * k := by
          simp
          omega
        conv_rhs => rw [show l = l.take G ++ l.drop G from (List.take_append_drop G l).symm]
        rw [chunk_append_dvd hg k (l.take G) (l.drop G) htG]

theorem chunk_map_length {α : Type} {g : ℕ} (hg : 1 ≤ g) :
    ∀ (n : ℕ) (l1 l2 : List α), l1.length = l2.length → l1.length ≤ n →
      (chunk g l1).map List.length = (chunk g l2).map List.length := by
  intro n
  induction n with
  | zero =>
    intro l1 l2 heq h1
    have hn1 : l1 = [] := List.length_eq_zero.mp (by omega)
    have hn2 : l2 = [] := List.length_eq_zero.mp (by omega)
    subst hn1
    subst hn2
    rfl
  | succ n ih =>
    intro l1 l2 heq h1
    by_cases hne1 : l1 = []
    · have hn2 : l2 = [] := by
        refine List.length_eq_zero.mp ?_
        rw [← heq, hne1]
        rfl
      rw [hne1, hn2]
    · have hlen1 : 0 < l1.length := List.length_pos.mpr hne1
      have hne2 : l2 ≠ [] := by
        intro hcc
        rw [hcc] at heq
        simp only [List.length_nil] at heq
        omega
      rw [chunk_cons hg hne1, chunk_cons hg hne2]
      rw [List.map_cons, List.map_cons]
      have htake : (l1.take g).length = (l2.take g).length := by
        rw [List.length_take, List.length_take, heq]
      rw [htake]
      rw [ih (l1.drop g) (l2.drop g) (by simp; omega) (by simp; omega)]

theorem partGo_len {α : Type} [Inhabited α] (lt : α → α → Bool) (f l : ℕ) :
    ∀ (fuel : ℕ) (a : List α) (left right : ℕ),
      (partGo lt f l fuel a left right).1.length = a.length := by
  intro fuel
  induction fuel with
  | zero =>
    intro a left right
    rfl
  | succ fu ih =>
    intro a left right
    unfold partGo
    dsimp only
    split
    · split
      · rw [ih]
        exact length_swapL a _ _
      · rfl
    · rfl

theorem partitionL_len {α : Type} [Inhabited α] (lt : α → α → Bool)
    (a : List α) (f l g : ℕ) : (partitionL lt a f l g).1.length = a.length := by
  unfold partitionL
  dsimp only
  rw [length_swapL, partGo_len, length_swapL]

theorem quickselectF_len {α : Type} [Inhabited α] (lt : α → α → Bool) (σ : ℕ → ℕ)
    (n : ℕ) :
    ∀ (fuel : ℕ) (a : List α) (f l : ℕ) (r : List α),
      quickselectF lt σ fuel a n f l = some r → r.length = a.length := by
  intro fuel
  induction fuel with
  | zero =>
    intro a f l r hr
    exact Option.noConfusion hr
  | succ fu ih =>
    intro a f l r hr
    unfold quickselectF at hr
    dsimp only at hr
    by_cases h1 : n = (partitionL lt a f l (f + σ fu % (l - f + 1))).2
    · rw [if_pos h1] at hr
      injection hr with hr1
      subst hr1
      exact partitionL_len lt a f l _
    · rw [if_neg h1] at hr
      by_cases h2 : n < (partitionL lt a f l (f + σ fu % (l - f + 1))).2
      · rw [if_pos h2] at hr
        rw [ih _ _ _ r hr]
        exact partitionL_len lt a f l _
      · rw [if_neg h2] at hr
        rw [ih _ _ _ r hr]
        exact partitionL_len lt a f l _

theorem quickselect_len {α : Type} [Inhabited α] (lt : α → α → Bool) (σ : ℕ → ℕ)
    (a : List α) (n : ℕ) : (quickselect lt σ a n).length = a.length := by
  unfold quickselect
  cases hq : quickselectF lt σ (a.length + 1) a n 0 (a.length - 1) with
  | none => rfl
  | some r =>
    show r.length = a.length
    exact quickselectF_len lt σ n _ a 0 (a.length - 1) r hq

theorem pivot_le {d gs : ℕ} (hd : gs < d) : ceilDiv d (2 * gs) * gs ≤ d := by
  rcases Nat.eq_zero_or_pos gs with h0 | hpos
  · subst h0
    simp
  · have h2g : 1 ≤ 2 * gs := by omega
    by_cases hq1 : ceilDiv d (2 * gs) ≤ 1
    · have hh : ceilDiv d (2 * gs) * gs ≤ 1 * gs :=
        Nat.mul_le_mul_right gs hq1
      rw [Nat.one_mul] at hh
      omega
    · obtain ⟨q', hq'⟩ : ∃ q', ceilDiv d (2 * gs) = q' + 2 :=
        ⟨ceilDiv d (2 * gs) - 2, by omega⟩
      have hlt : 2 * gs * ceilDiv d (2 * gs) < d + 2 * gs := mul_ceilDiv_lt h2g
      rw [hq'] at hlt ⊢
      have h1 : 2 * gs * (q' + 2) = 2 * gs * (q' + 1) + 2 * gs := by ring
      have h2a : (q' + 2) * gs ≤ (2 * (q' + 1)) * gs :=
        Nat.mul_le_mul_right gs (by omega)
      have h2b : (2 * (q' + 1)) * gs = 2 * gs * (q' + 1) := by ring
      omega

theorem groupItemsGo_len {α : Type} [Inhabited α] [DecidableEq α]
    (key : α → ℚ) (σ : ℕ → ℕ) (gs : ℕ) :
    ∀ (f : ℕ) (xs : List α) (stack : List (ℕ × ℕ)),
      (∀ p ∈ stack, gs < p.2 - p.1 → p.1 ≤ p.2 ∧ p.2 < xs.length) →
      (groupItemsGo key σ gs f xs stack).length = xs.length := by
  intro f
  induction f with
  | zero =>
    intro xs stack hinv
    rfl
  | succ f ih =>
    intro xs stack hinv
    unfold groupItemsGo
    cases hgl : stack.getLast? with
    | none => rfl
    | some pr =>
      obtain ⟨lft, rgt⟩ := pr
      dsimp only
      by_cases hsm : rgt - lft ≤ gs
      · rw [if_pos hsm]
        exact ih xs stack.dropLast
          (fun p hp hw => hinv p (List.dropLast_subset stack hp) hw)
      · rw [if_neg hsm]
        have hmem : (lft, rgt) ∈ stack := by
          obtain ⟨hne2, heq2⟩ := List.mem_getLast?_eq_getLast
            (show (lft, rgt) ∈ stack.getLast? from hgl)
          rw [heq2]
          exact List.getLast_mem hne2
        obtain ⟨hlr, hrl⟩ := hinv (lft, rgt) hmem (by omega)
        have hpl : ceilDiv (rgt - lft) (2 * gs) * gs ≤ rgt - lft :=
          pivot_le (by omega)
        refine Eq.trans (ih _ _ ?_) ?_
        · intro p hp hw
          rcases List.mem_append.mp hp with h1 | h1
          · obtain ⟨q1, q2⟩ := hinv p (List.dropLast_subset stack h1) hw
            refine ⟨q1, ?_⟩
            simp only [List.length_append, List.length_take, List.length_drop,
              quickselect_len]
            rw [Nat.min_eq_left (show lft ≤ xs.length by omega)]
            rw [Nat.min_eq_left (show rgt - lft + 1 ≤ xs.length - lft by omega)]
            omega
          · rcases List.mem_cons.mp h1 with h2 | h2
            · subst h2
              refine ⟨?_, ?_⟩
              · show lft ≤ lft + ceilDiv (rgt - lft) (2 * gs) * gs
                omega
              · show lft + ceilDiv (rgt - lft) (2 * gs) * gs < _
                simp only [List.length_append, List.length_take, List.length_drop,
                  quickselect_len]
                rw [Nat.min_eq_left (show lft ≤ xs.length by omega)]
                rw [Nat.min_eq_left (show rgt - lft + 1 ≤ xs.length - lft by omega)]
                omega
            · rcases List.mem_cons.mp h2 with h3 | h3
              · subst h3
                refine ⟨?_, ?_⟩
                · show lft + ceilDiv (rgt - lft) (2 * gs) * gs ≤ rgt
                  omega
                · show rgt < _
                  simp only [List.length_append, List.length_take, List.length_drop,
                    quickselect_len]
                  rw [Nat.min_eq_left (show lft ≤ xs.length by omega)]
                  rw [Nat.min_eq_left (show rgt - lft + 1 ≤ xs.length - lft by omega)]
                  omega
              · exact absurd h3 (List.not_mem_nil p)
        · simp only [List.length_append, List.length_take, List.length_drop,
            quickselect_len]
          rw [Nat.min_eq_left (show lft ≤ xs.length by omega)]
          rw [Nat.min_eq_left (show rgt - lft + 1 ≤ xs.length - lft by omega)]
          omega

theorem groupItemsL_len {α : Type} [Inhabited α] [DecidableEq α]
    (key : α → ℚ) (σ : ℕ → ℕ) (gs : ℕ) (xs : List α) :
    (groupItemsL key σ gs xs).length = xs.length := by
  unfold groupItemsL
  refine groupItemsGo_len key σ gs _ xs _ ?_
  intro p hp hw
  have hp2 : p = (0, xs.length - 1) := by
    rcases List.mem_cons.mp hp with h1 | h1
    · exact h1
    · exact absurd h1 (List.not_mem_nil p)
  subst hp2
  have hw2 : gs < xs.length - 1 - 0 := hw
  refine ⟨?_, ?_⟩
  · show 0 ≤ xs.length - 1
    omega
  · show xs.length - 1 < xs.length
    omega

theorem mem_enum_snd {α : Type} {l : List α} {p : ℕ × α} (h : p ∈ l.enum) : p.2 ∈ l := by
  have h2 : p.2 ∈ l.enum.map Prod.snd := List.mem_map_of_mem _ h
  rwa [List.enum_map_snd] at h2

theorem enum_sum_snd {α : Type} (l : List α) (w : α → ℕ) :
    (l.enum.map (fun p => w p.2)).sum = (l.map w).sum := by
  have h1 : l.enum.map (fun p => w p.2) = (l.enum.map Prod.snd).map w := by
    rw [List.map_map]
    rfl
  rw [h1, List.enum_map_snd]

theorem mkLeafB_ok {α : Type} [Inhabited α] [DecidableEq α] {bf : α → Rectf} {maxE : ℕ}
    {xs : List α} (h1 : 1 ≤ xs.length) (h2 : xs.length ≤ maxE) :
    (mkLeafB bf xs).height = 1 ∧ okB bf maxE false 1 (mkLeafB bf xs) = true := by
  refine ⟨rfl, ?_⟩
  show okB bf maxE false (0 + 1) (mkLeafB bf xs) = true
  refine okB_intro rfl ?_ ?_ ?_ ?_ ?_
  · intro _
    refine ⟨rfl, rfl, Or.inr ?_⟩
    show xs ≠ []
    intro hcc
    rw [hcc] at h1
    simp at h1
  · intro hlf
    exact Bool.noConfusion hlf
  · show 0 + xs.length ≤ maxE
    omega
  · intro x hx
    have hx2 : x ∈ xs ++ (([] : List (Node α)).map (subItemsF 0)).flatten := hx
    simp only [List.map_nil, List.flatten_nil, List.append_nil] at hx2
    rw [containsO'_eq_subO]
    exact foldBounds_superset (List.mem_map_of_mem _ hx2)
  · intro c hc
    exact absurd hc (List.not_mem_nil c)

theorem buildLayer_children_len {α : Type} [Inhabited α] [DecidableEq α]
    {bf : α → Rectf} (rec : ℕ → List α → Node α) (σ : ℕ → ℕ) {g G : ℕ}
    (hg : 1 ≤ g) (hG : 1 ≤ G) (hdvd : g ∣ G) (H : ℕ) (xs : List α) :
    (buildLayer bf rec σ g G H xs).children.length = ceilDiv xs.length g := by
  show (((chunk G (groupItemsL (fun it => (bf it).min.x)
      (fun k => σ (Nat.pair 0 k)) G xs)).enum.map
      (fun p => (chunk g (groupItemsL (fun it => (bf it).min.y)
        (fun k => σ (Nat.pair 1 (Nat.pair p.1 k))) g p.2)).enum.map
          (fun q => rec (Nat.pair p.1 q.1) q.2))).flatten).length
      = ceilDiv xs.length g
  rw [List.length_flatten, List.map_map]
  have hcongr : ((chunk G (groupItemsL (fun it => (bf it).min.x)
      (fun k => σ (Nat.pair 0 k)) G xs)).enum).map
      (List.length ∘ fun p => (chunk g (groupItemsL (fun it => (bf it).min.y)
        (fun k => σ (Nat.pair 1 (Nat.pair p.1 k))) g p.2)).enum.map
          (fun q => rec (Nat.pair p.1 q.1) q.2))
      = (((chunk G (groupItemsL (fun it => (bf it).min.x)
      (fun k => σ (Nat.pair 0 k)) G xs)).enum).map Prod.snd).map
        (fun s => (chunk g s).length) := by
    rw [List.map_map]
    refine List.map_congr_left ?_
    intro p hp
    show ((chunk g (groupItemsL (fun it => (bf it).min.y)
        (fun k => σ (Nat.pair 1 (Nat.pair p.1 k))) g p.2)).enum.map
          (fun q => rec (Nat.pair p.1 q.1) q.2)).length = (chunk g p.2).length
    rw [List.length_map, List.enum_length]
    have hml := chunk_map_length hg
      (groupItemsL (fun it => (bf it).min.y)
        (fun k => σ (Nat.pair 1 (Nat.pair p.1 k))) g p.2).length
      (groupItemsL (fun it => (bf it).min.y)
        (fun k => σ (Nat.pair 1 (Nat.pair p.1 k))) g p.2) p.2
      (groupItemsL_len _ _ _ _) (Nat.le_refl _)
    have hml2 := congrArg List.length hml
    rw [List.length_map, List.length_map] at hml2
    exact hml2
  rw [hcongr, List.enum_map_snd]
  have h2 : (chunk G (groupItemsL (fun it => (bf it).min.x)
      (fun k => σ (Nat.pair 0 k)) G xs)).map (fun s => (chunk g s).length)
      = (((chunk G (groupItemsL (fun it => (bf it).min.x)
        (fun k => σ (Nat.pair 0 k)) G xs)).map (chunk g)).map List.length) := by
    rw [List.map_map]
    rfl
  rw [h2, ← List.length_flatten]
  rw [chunk_nest hg hG hdvd
    (groupItemsL (fun it => (bf it).min.x) (fun k => σ (Nat.pair 0 k)) G xs).length
    (groupItemsL (fun it => (bf it).min.x) (fun k => σ (Nat.pair 0 k)) G xs)
    (Nat.le_refl _)]
  have hs := (chunkF_struct hg
    (groupItemsL (fun it => (bf it).min.x) (fun k => σ (Nat.pair 0 k)) G xs).length
    (groupItemsL (fun it => (bf it).min.x) (fun k => σ (Nat.pair 0 k)) G xs)
    (Nat.le_refl _)).1
  show (chunkF (groupItemsL (fun it => (bf it).min.x)
      (fun k => σ (Nat.pair 0 k)) G xs).length g
      (groupItemsL (fun it => (bf it).min.x) (fun k => σ (Nat.pair 0 k)) G xs)).length
      = ceilDiv xs.length g
  rw [hs, groupItemsL_len]

theorem buildLayer_mem {α : Type} [Inhabited α] [DecidableEq α]
    {bf : α → Rectf} {rec : ℕ → List α → Node α} {σ : ℕ → ℕ} {g G : ℕ}
    (hg : 1 ≤ g) (hG : 1 ≤ G) (hdvd : g ∣ G) {H : ℕ} {xs : List α} {c : Node α}
    (hc : c ∈ (buildLayer bf rec σ g G H xs).children) :
    ∃ tag ys, c = rec tag ys ∧ 1 ≤ ys.length ∧ ys.length ≤ g ∧
      xs.length - g * (ceilDiv xs.length g - 1) ≤ ys.length := by
  have hc2 : c ∈ ((chunk G (groupItemsL (fun it => (bf it).min.x)
      (fun k => σ (Nat.pair 0 k)) G xs)).enum.map
      (fun p => (chunk g (groupItemsL (fun it => (bf it).min.y)
        (fun k => σ (Nat.pair 1 (Nat.pair p.1 k))) g p.2)).enum.map
          (fun q => rec (Nat.pair p.1 q.1) q.2))).flatten := hc
  obtain ⟨inn, hinn, hcin⟩ := List.mem_flatten.mp hc2
  obtain ⟨p, hp, hpe⟩ := List.mem_map.mp hinn
  subst hpe
  obtain ⟨q, hq, hqe⟩ := List.mem_map.mp hcin
  refine ⟨Nat.pair p.1 q.1, q.2, hqe.symm, ?_⟩
  have hq2 : q.2 ∈ chunk g (groupItemsL (fun it => (bf it).min.y)
      (fun k => σ (Nat.pair 1 (Nat.pair p.1 k))) g p.2) := mem_enum_snd hq
  have hml := chunk_map_length hg
    (groupItemsL (fun it => (bf it).min.y)
      (fun k => σ (Nat.pair 1 (Nat.pair p.1 k))) g p.2).length
    (groupItemsL (fun it => (bf it).min.y)
      (fun k => σ (Nat.pair 1 (Nat.pair p.1 k))) g p.2) p.2
    (groupItemsL_len _ _ _ _) (Nat.le_refl _)
  have hlenmem : q.2.length ∈ (chunk g p.2).map List.length := by
    rw [← hml]
    exact List.mem_map_of_mem List.length hq2
  obtain ⟨c0, hc0, hc0len⟩ := List.mem_map.mp hlenmem
  have hp2 : p.2 ∈ chunk G (groupItemsL (fun it => (bf it).min.x)
      (fun k => σ (Nat.pair 0 k)) G xs) := mem_enum_snd hp
  have hc0' : c0 ∈ chunk g (groupItemsL (fun it => (bf it).min.x)
      (fun k => σ (Nat.pair 0 k)) G xs) := by
    rw [← chunk_nest hg hG hdvd
      (groupItemsL (fun it => (bf it).min.x) (fun k => σ (Nat.pair 0 k)) G xs).length
      (groupItemsL (fun it => (bf it).min.x) (fun k => σ (Nat.pair 0 k)) G xs)
      (Nat.le_refl _)]
    exact List.mem_flatten.mpr ⟨chunk g p.2, List.mem_map_of_mem _ hp2, hc0⟩
  have hstruct := (chunkF_struct hg
    (groupItemsL (fun it => (bf it).min.x) (fun k => σ (Nat.pair 0 k)) G xs).length
    (groupItemsL (fun it => (bf it).min.x) (fun k => σ (Nat.pair 0 k)) G xs)
    (Nat.le_refl _)).2 c0 hc0'
  rw [groupItemsL_len] at hstruct
  rw [← hc0len]
  exact hstruct

theorem buildLayer_ok {α : Type} [Inhabited α] [DecidableEq α] {bf : α → Rectf}
    {maxE : ℕ} (rec : ℕ → List α → Node α) (σ : ℕ → ℕ) (g G hc : ℕ) (xs : List α)
    (hg : 1 ≤ g) (hG : 1 ≤ G) (hdvd : g ∣ G)
    (hxs : 1 ≤ xs.length)
    (hcnt : ceilDiv xs.length g ≤ maxE)
    (hrec : ∀ tag (ys : List α), 1 ≤ ys.length → ys.length ≤ g →
      xs.length - g * (ceilDiv xs.length g - 1) ≤ ys.length →
      (rec tag ys).height = hc ∧ okB bf maxE false hc (rec tag ys) = true) :
    (buildLayer bf rec σ g G (hc + 1) xs).height = hc + 1 ∧
    okB bf maxE false (hc + 1) (buildLayer bf rec σ g G (hc + 1) xs) = true := by
  have hchl := @buildLayer_children_len α _ _ bf rec σ g G hg hG hdvd (hc + 1) xs
  have hkid : ∀ c ∈ (buildLayer bf rec σ g G (hc + 1) xs).children,
      c.height = hc ∧ okB bf maxE false hc c = true := by
    intro c hcm
    obtain ⟨tag, ys, hce, hy1, hy2, hy3⟩ := buildLayer_mem hg hG hdvd hcm
    rw [hce]
    exact hrec tag ys hy1 hy2 hy3
  refine ⟨rfl, ?_⟩
  refine okB_intro rfl ?_ ?_ ?_ ?_ ?_
  · intro hlf
    exact Bool.noConfusion hlf
  · intro _
    refine ⟨rfl, ?_, ?_⟩
    · intro hcc
      have hl0 := congrArg List.length hcc
      rw [hchl] at hl0
      simp only [List.length_nil] at hl0
      have := ceilDiv_pos hxs hg
      omega
    · intro c hcm
      rw [(hkid c hcm).1]
      rfl
  · show (buildLayer bf rec σ g G (hc + 1) xs).children.length
        + ([] : List α).length ≤ maxE
    rw [hchl]
    simp only [List.length_nil]
    omega
  · intro x hx
    rcases mem_subItemsF_succ.mp hx with hx1 | ⟨c, hcm, hx2⟩
    · exact absurd hx1 (List.not_mem_nil x)
    · obtain ⟨hch, hcok⟩ := hkid c hcm
      rcases hhc : hc with _ | hc'
      · rw [hhc] at hcok
        exact absurd hcok (fun hq => okB_zero_false hq)
      · rw [hhc] at hcok hx2
        have hcov := (okB_dest hcok).2.2.2.2.1 x hx2
        rw [containsO'_eq_subO] at hcov ⊢
        refine subO_trans hcov ?_
        exact foldBounds_superset (List.mem_map_of_mem _ hcm)
  · intro c hcm
    exact (hkid c hcm).2

theorem buildRec_ok {α : Type} [Inhabited α] [DecidableEq α] {bf : α → Rectf}
    {maxE : ℕ} (hmax : 4 ≤ maxE) :
    ∀ (f : ℕ) (σ : ℕ → ℕ) (xs : List α),
      ((f = 1 ∧ 1 ≤ xs.length ∧ xs.length ≤ maxE) ∨
       (2 ≤ f ∧ 2 * maxE ^ (f - 1) - maxE < xs.length ∧ xs.length ≤ maxE ^ f)) →
      (buildRec bf maxE f σ xs).height = f ∧
      okB bf maxE false f (buildRec bf maxE f σ xs) = true := by
  intro f
  induction f with
  | zero =>
    intro σ xs hQ
    rcases hQ with ⟨h1, -⟩ | ⟨h1, -⟩ <;> omega
  | succ f' ih =>
    intro σ xs hQ
    rcases hQ with ⟨h1, h2, h3⟩ | ⟨h1, h2, h3⟩
    · have hf0 : f' = 0 := by omega
      subst hf0
      unfold buildRec
      rw [if_pos h3]
      exact mkLeafB_ok h2 h3
    · have hf1 : 1 ≤ f' := by omega
      have hEpos : 1 ≤ maxE := by omega
      have hEf : maxE ≤ maxE ^ f' := Nat.le_self_pow (by omega) maxE
      have hfe : (f' + 1) - 1 = f' := by omega
      rw [hfe] at h2
      have hlenE : maxE < xs.length := by omega
      have hlenpos : 1 ≤ xs.length := by omega
      unfold buildRec
      rw [if_neg (by omega)]
      dsimp only
      have hps : maxE ^ (f' + 1) = maxE * maxE ^ f' := by
        rw [pow_succ, Nat.mul_comm]
      have hg1 : 1 ≤ ceilDiv xs.length maxE := ceilDiv_pos hlenpos hEpos
      have hgub : ceilDiv xs.length maxE ≤ maxE ^ f' :=
        ceilDiv_le hEpos (by rw [← hps]; exact h3)
      have hlc : xs.length ≤ maxE * ceilDiv xs.length maxE := le_mul_ceilDiv hEpos
      have hcnt : ceilDiv xs.length (ceilDiv xs.length maxE) ≤ maxE :=
        ceilDiv_le hg1 (by rw [Nat.mul_comm]; exact hlc)
      have hEg : maxE * ceilDiv xs.length maxE < xs.length + maxE :=
        mul_ceilDiv_lt hEpos
      refine buildLayer_ok _ _ (ceilDiv xs.length maxE)
        (ceilDiv xs.length maxE * csqrt maxE) f' xs hg1
        (Nat.mul_pos hg1 (csqrt_pos (by omega))) (dvd_mul_right _ _)
        hlenpos hcnt ?_
      intro tag ys hy1 hy2 hy3
      refine ih (fun k => σ (Nat.pair 2 (Nat.pair tag k))) ys ?_
      by_cases hf2 : f' = 1
      · left
        refine ⟨hf2, hy1, ?_⟩
        have : maxE ^ f' = maxE := by rw [hf2, pow_one]
        omega
      · right
        refine ⟨by omega, ?_, by omega⟩
        have hf'2 : 2 ≤ f' := by omega
        have hpf : maxE * maxE ^ (f' - 1) = maxE ^ f' := by
          rw [← pow_succ']
          congr 1
          omega
        have hX1 : 1 ≤ maxE ^ (f' - 1) := Nat.one_le_pow _ _ (by omega)
        have hglb : 2 * maxE ^ (f' - 1) - 1 < ceilDiv xs.length maxE := by
          refine lt_ceilDiv hEpos ?_
          have hdist : maxE * (2 * maxE ^ (f' - 1) - 1)
              = 2 * (maxE * maxE ^ (f' - 1)) - maxE := by
            obtain ⟨X', hX'⟩ : ∃ X', maxE ^ (f' - 1) = X' + 1 :=
              ⟨maxE ^ (f' - 1) - 1, by omega⟩
            rw [hX']
            have hs1 : 2 * (X' + 1) - 1 = 2 * X' + 1 := by omega
            rw [hs1]
            have hs2 : 2 * (maxE * (X' + 1)) - maxE = 2 * maxE * X' + maxE := by
              have : 2 * (maxE * (X' + 1)) = 2 * maxE * X' + 2 * maxE := by ring
              omega
            rw [hs2]
            ring
          rw [hdist, hpf]
          omega
        have hcnt1 : 1 ≤ ceilDiv xs.length (ceilDiv xs.length maxE) :=
          ceilDiv_pos hlenpos hg1
        have hmul1 : ceilDiv xs.length maxE * ceilDiv xs.length (ceilDiv xs.length maxE)
            ≤ ceilDiv xs.length maxE * maxE :=
          Nat.mul_le_mul_left _ hcnt
        have hlc2 : xs.length ≤ ceilDiv xs.length maxE
            * ceilDiv xs.length (ceilDiv xs.length maxE) := le_mul_ceilDiv hg1
        have hsplit : ceilDiv xs.length maxE
            * (ceilDiv xs.length (ceilDiv xs.length maxE) - 1)
            = ceilDiv xs.length maxE * ceilDiv xs.length (ceilDiv xs.length maxE)
              - ceilDiv xs.length maxE := by
          obtain ⟨c', hc'⟩ : ∃ c', ceilDiv xs.length (ceilDiv xs.length maxE) = c' + 1 :=
            ⟨ceilDiv xs.length (ceilDiv xs.length maxE) - 1, by omega⟩
          rw [hc']
          have hs0 : c' + 1 - 1 = c' := by omega
          rw [hs0]
          have hd1 : ceilDiv xs.length maxE * (c' + 1)
              = ceilDiv xs.length maxE * c' + ceilDiv xs.length maxE := by ring
          omega
        have hcm : ceilDiv xs.length maxE * maxE = maxE * ceilDiv xs.length maxE :=
          Nat.mul_comm _ _
        omega

theorem buildTop_ok {α : Type} [Inhabited α] [DecidableEq α] {bf : α → Rectf}
    {maxE : ℕ} (hmax : 4 ≤ maxE) (σ : ℕ → ℕ) (xs : List α) (hlen : 1 ≤ xs.length) :
    okB bf maxE false (buildTop bf maxE σ xs).height (buildTop bf maxE σ xs) = true := by
  unfold buildTop
  by_cases hsm : xs.length ≤ maxE
  · rw [if_pos hsm]
    obtain ⟨hh, hok⟩ := mkLeafB_ok hlen hsm
    rw [hh]
    exact hok
  · rw [if_neg hsm]
    dsimp only
    obtain ⟨hH2, hHle, hHlt⟩ := clogCeil_spec (show 2 ≤ maxE by omega)
      (show maxE < xs.length by omega)
    have hEpos : 1 ≤ maxE := by omega
    have hP1 : 1 ≤ maxE ^ (clogCeil maxE xs.length - 1) :=
      Nat.one_le_pow _ _ (by omega)
    have hPH : maxE ^ (clogCeil maxE xs.length - 1) * maxE
        = maxE ^ clogCeil maxE xs.length := by
      rw [← pow_succ]
      congr 1
      omega
    have hmx2 : 2 ≤ ceilDiv xs.length (maxE ^ (clogCeil maxE xs.length - 1)) := by
      have := lt_ceilDiv hP1 (show maxE ^ (clogCeil maxE xs.length - 1) * 1 < xs.length
        by rw [Nat.mul_one]; exact hHlt)
      omega
    have hmxE : ceilDiv xs.length (maxE ^ (clogCeil maxE xs.length - 1)) ≤ maxE :=
      ceilDiv_le hP1 (by rw [hPH]; exact hHle)
    have hg1 : 1 ≤ ceilDiv xs.length
        (ceilDiv xs.length (maxE ^ (clogCeil maxE xs.length - 1))) :=
      ceilDiv_pos hlen (by omega)
    have hlc : xs.length ≤ maxE ^ (clogCeil maxE xs.length - 1)
        * ceilDiv xs.length (maxE ^ (clogCeil maxE xs.length - 1)) :=
      le_mul_ceilDiv hP1
    have hgub : ceilDiv xs.length
        (ceilDiv xs.length (maxE ^ (clogCeil maxE xs.length - 1)))
        ≤ maxE ^ (clogCeil maxE xs.length - 1) :=
      ceilDiv_le (by omega) (by rw [Nat.mul_comm]; exact hlc)
    have hlc2 : xs.length ≤ ceilDiv xs.length
        (ceilDiv xs.length (maxE ^ (clogCeil maxE xs.length - 1)))
        * ceilDiv xs.length (maxE ^ (clogCeil maxE xs.length - 1)) := by
      have h0 := le_mul_ceilDiv (a := xs.length) (show 1 ≤ ceilDiv xs.length
        (maxE ^ (clogCeil maxE xs.length - 1)) by omega)
      rw [Nat.mul_comm] at h0
      exact h0
    have hcnt : ceilDiv xs.length (ceilDiv xs.length
        (ceilDiv xs.length (maxE ^ (clogCeil maxE xs.length - 1)))) ≤ maxE := by
      refine le_trans (ceilDiv_le hg1 hlc2) hmxE
    have hrec : ∀ tag (ys : List α), 1 ≤ ys.length →
        ys.length ≤ ceilDiv xs.length
          (ceilDiv xs.length (maxE ^ (clogCeil maxE xs.length - 1))) →
        xs.length - ceilDiv xs.length
          (ceilDiv xs.length (maxE ^ (clogCeil maxE xs.length - 1)))
          * (ceilDiv xs.length (ceilDiv xs.length
            (ceilDiv xs.length (maxE ^ (clogCeil maxE xs.length - 1)))) - 1)
          ≤ ys.length →
        (buildRec bf maxE (clogCeil maxE xs.length - 1)
          (fun k => σ (Nat.pair 2 (Nat.pair tag k))) ys).height
          = clogCeil maxE xs.length - 1 ∧
        okB bf maxE false (clogCeil maxE xs.length - 1)
          (buildRec bf maxE (clogCeil maxE xs.length - 1)
            (fun k => σ (Nat.pair 2 (Nat.pair tag k))) ys) = true := by
      intro tag ys hy1 hy2 hy3
      refine buildRec_ok hmax (clogCeil maxE xs.length - 1)
        (fun k => σ (Nat.pair 2 (Nat.pair tag k))) ys ?_
      by_cases hH3 : clogCeil maxE xs.length = 2
      · left
        refine ⟨by omega, hy1, ?_⟩
        have hpe : maxE ^ (clogCeil maxE xs.length - 1) = maxE := by
          rw [hH3]
          exact pow_one maxE
        have hgub2 : ceilDiv xs.length
            (ceilDiv xs.length (maxE ^ (clogCeil maxE xs.length - 1))) ≤ maxE :=
          le_trans hgub (Nat.le_of_eq hpe)
        omega
      · right
        have hH4 : 3 ≤ clogCeil maxE xs.length := by omega
        refine ⟨by omega, ?_, by omega⟩
        have hPmx : maxE ^ (clogCeil maxE xs.length - 1)
            * (ceilDiv xs.length (maxE ^ (clogCeil maxE xs.length - 1)) - 1)
            < xs.length := by
          by_contra hcon
          have hcle : ceilDiv xs.length (maxE ^ (clogCeil maxE xs.length - 1))
              ≤ ceilDiv xs.length (maxE ^ (clogCeil maxE xs.length - 1)) - 1 :=
            ceilDiv_le hP1 (by omega)
          omega
        have hkeyC : maxE ^ (clogCeil maxE xs.length - 1)
            * ceilDiv xs.length (maxE ^ (clogCeil maxE xs.length - 1))
            ≤ maxE ^ (clogCeil maxE xs.length - 1)
            * (2 * (ceilDiv xs.length (maxE ^ (clogCeil maxE xs.length - 1)) - 1)) :=
          Nat.mul_le_mul_left _ (by omega)
        have hkeyD : maxE ^ (clogCeil maxE xs.length - 1)
            * (2 * (ceilDiv xs.length (maxE ^ (clogCeil maxE xs.length - 1)) - 1))
            = 2 * (maxE ^ (clogCeil maxE xs.length - 1)
              * (ceilDiv xs.length (maxE ^ (clogCeil maxE xs.length - 1)) - 1)) := by
          ring
        have hkeyE : maxE ^ (clogCeil maxE xs.length - 1)
            * ceilDiv xs.length (maxE ^ (clogCeil maxE xs.length - 1))
            < (2 * ceilDiv xs.length (ceilDiv xs.length
                (maxE ^ (clogCeil maxE xs.length - 1))))
              * ceilDiv xs.length (maxE ^ (clogCeil maxE xs.length - 1)) := by
          have hq : 2 * (ceilDiv xs.length (ceilDiv xs.length
              (maxE ^ (clogCeil maxE xs.length - 1)))
              * ceilDiv xs.length (maxE ^ (clogCeil maxE xs.length - 1)))
              = (2 * ceilDiv xs.length (ceilDiv xs.length
                (maxE ^ (clogCeil maxE xs.length - 1))))
                * ceilDiv xs.length (maxE ^ (clogCeil maxE xs.length - 1)) := by
            ring
          omega
        have h2g : maxE ^ (clogCeil maxE xs.length - 1)
            < 2 * ceilDiv xs.length (ceilDiv xs.length
              (maxE ^ (clogCeil maxE xs.length - 1))) :=
          Nat.lt_of_mul_lt_mul_right hkeyE
        have hPe : maxE ^ (clogCeil maxE xs.length - 1)
            = maxE * maxE ^ (clogCeil maxE xs.length - 2) := by
          rw [← pow_succ']
          congr 1
          omega
        have hX1 : 1 ≤ maxE ^ (clogCeil maxE xs.length - 2) :=
          Nat.one_le_pow _ _ (by omega)
        have hfe2 : (clogCeil maxE xs.length - 1) - 1
            = clogCeil maxE xs.length - 2 := by omega
        rw [hfe2]
        have hPk : 4 * maxE ^ (clogCeil maxE xs.length - 2)
            ≤ maxE * maxE ^ (clogCeil maxE xs.length - 2) :=
          Nat.mul_le_mul_right _ (by omega)
        have hmxg : ceilDiv xs.length (maxE ^ (clogCeil maxE xs.length - 1))
            * ceilDiv xs.length (ceilDiv xs.length
              (maxE ^ (clogCeil maxE xs.length - 1)))
            < xs.length + ceilDiv xs.length (maxE ^ (clogCeil maxE xs.length - 1)) :=
          mul_ceilDiv_lt (by omega)
        have hcnt2 : ceilDiv xs.length (ceilDiv xs.length
            (ceilDiv xs.length (maxE ^ (clogCeil maxE xs.length - 1))))
            ≤ ceilDiv xs.length (maxE ^ (clogCeil maxE xs.length - 1)) :=
          ceilDiv_le hg1 hlc2
        have hcnt3 : 1 ≤ ceilDiv xs.length (ceilDiv xs.length
            (ceilDiv xs.length (maxE ^ (clogCeil maxE xs.length - 1)))) :=
          ceilDiv_pos hlen hg1
        have hlc3 : xs.length ≤ ceilDiv xs.length
            (ceilDiv xs.length (maxE ^ (clogCeil maxE xs.length - 1)))
            * ceilDiv xs.length (ceilDiv xs.length
              (ceilDiv xs.length (maxE ^ (clogCeil maxE xs.length - 1)))) :=
          le_mul_ceilDiv hg1
        have hmul2 : ceilDiv xs.length
            (ceilDiv xs.length (maxE ^ (clogCeil maxE xs.length - 1)))
            * ceilDiv xs.length (ceilDiv xs.length
              (ceilDiv xs.length (maxE ^ (clogCeil maxE xs.length - 1))))
            ≤ ceilDiv xs.length
              (ceilDiv xs.length (maxE ^ (clogCeil maxE xs.length - 1)))
              * ceilDiv xs.length (maxE ^ (clogCeil maxE xs.length - 1)) :=
          Nat.mul_le_mul_left _ hcnt2
        have hflip : ceilDiv xs.length
            (ceilDiv xs.length (maxE ^ (clogCeil maxE xs.length - 1)))
            * ceilDiv xs.length (maxE ^ (clogCeil maxE xs.length - 1))
            = ceilDiv xs.length (maxE ^ (clogCeil maxE xs.length - 1))
            * ceilDiv xs.length (ceilDiv xs.length
              (maxE ^ (clogCeil maxE xs.length - 1))) := Nat.mul_comm _ _
        have hsplit : ceilDiv xs.length
            (ceilDiv xs.length (maxE ^ (clogCeil maxE xs.length - 1)))
            * (ceilDiv xs.length (ceilDiv xs.length
              (ceilDiv xs.length (maxE ^ (clogCeil maxE xs.length - 1)))) - 1)
            = ceilDiv xs.length
              (ceilDiv xs.length (maxE ^ (clogCeil maxE xs.length - 1)))
              * ceilDiv xs.length (ceilDiv xs.length
                (ceilDiv xs.length (maxE ^ (clogCeil maxE xs.length - 1))))
              - ceilDiv xs.length
                (ceilDiv xs.length (maxE ^ (clogCeil maxE xs.length - 1))) := by
          obtain ⟨c', hc'⟩ : ∃ c', ceilDiv xs.length (ceilDiv xs.length
              (ceilDiv xs.length (maxE ^ (clogCeil maxE xs.length - 1)))) = c' + 1 :=
            ⟨ceilDiv xs.length (ceilDiv xs.length
              (ceilDiv xs.length (maxE ^ (clogCeil maxE xs.length - 1)))) - 1,
              by omega⟩
          rw [hc']
          have hs0 : c' + 1 - 1 = c' := by omega
          rw [hs0]
          have hdist : ceilDiv xs.length
              (ceilDiv xs.length (maxE ^ (clogCeil maxE xs.length - 1))) * (c' + 1)
              = ceilDiv xs.length
                (ceilDiv xs.length (maxE ^ (clogCeil maxE xs.length - 1))) * c'
                + ceilDiv xs.length
                  (ceilDiv xs.length (maxE ^ (clogCeil maxE xs.length - 1))) := by
            ring
          omega
        omega
    have hmain := @buildLayer_ok α _ _ bf maxE
      (fun tag => buildRec bf maxE (clogCeil maxE xs.length - 1)
        (fun k => σ (Nat.pair 2 (Nat.pair tag k))))
      (fun k => σ (Nat.pair 3 k))
      (ceilDiv xs.length (ceilDiv xs.length (maxE ^ (clogCeil maxE xs.length - 1))))
      (ceilDiv xs.length (ceilDiv xs.length (maxE ^ (clogCeil maxE xs.length - 1)))
        * csqrt (ceilDiv xs.length (maxE ^ (clogCeil maxE xs.length - 1))))
      (clogCeil maxE xs.length - 1) xs hg1
      (Nat.mul_pos hg1 (csqrt_pos (by omega))) (dvd_mul_right _ _)
      hlen hcnt hrec
    have hHe : (clogCeil maxE xs.length - 1) + 1 = clogCeil maxE xs.length := by
      omega
    rw [hHe] at hmain
    rw [hmain.1]
    exact hmain.2

theorem okB_root_strengthen {α : Type} {bf : α → Rectf} {maxE : ℕ} {f : ℕ} {n : Node α}
    (h : okB bf maxE true f n = true) (hne : n.entryCount ≠ 0) :
    okB bf maxE false f n = true := by
  cases f with
  | zero => exact absurd h (fun hq => okB_zero_false hq)
  | succ f =>
    obtain ⟨h1, h2, h3, h4, h5, h6⟩ := okB_dest h
    refine okB_intro h1 ?_ h3 h4 h5 h6
    intro hl
    obtain ⟨hch, hh1, -⟩ := h2 hl
    refine ⟨hch, hh1, Or.inr ?_⟩
    intro hcc
    apply hne
    show n.children.length + n.items.length = 0
    rw [hch, hcc]
    rfl

theorem splitRootMk_ok {α : Type} [Inhabited α] [DecidableEq α] {bf : α → Rectf}
    {maxE : ℕ} (hmax : 2 ≤ maxE) {a b : Node α}
    (hh : b.height = a.height)
    (ha : okB bf maxE false a.height a = true)
    (hb : okB bf maxE false a.height b = true) :
    okB bf maxE true (splitRootMk a b).height (splitRootMk a b) = true := by
  rcases hH : a.height with _ | g
  · rw [hH] at ha
    exact absurd ha (fun hq => okB_zero_false hq)
  rw [hH] at hh ha hb
  have hfi : splitRootMk a b = Node.mk [a, b] [] (a.height + 1) false
      (mergeO (mergeO none a.bounds) b.bounds) := rfl
  rw [hfi]
  have hhmk : (Node.mk [a, b] ([] : List α) (a.height + 1) false
      (mergeO (mergeO none a.bounds) b.bounds)).height = (g + 1) + 1 := by
    show a.height + 1 = (g + 1) + 1
    omega
  rw [hhmk]
  refine okB_intro ?_ ?_ ?_ ?_ ?_ ?_
  · show a.height + 1 = (g + 1) + 1
    omega
  · intro hlf
    exact Bool.noConfusion hlf
  · intro _
    refine ⟨rfl, ?_, ?_⟩
    · show [a, b] ≠ []
      exact List.cons_ne_nil _ _
    · intro c hcmem
      have hcm : c ∈ [a, b] := hcmem
      rcases List.mem_cons.mp hcm with hcc | hcc
      · rw [hcc]
        rfl
      · have hcc2 : c = b := List.mem_singleton.mp hcc
        rw [hcc2]
        show b.height + 1 = a.height + 1
        omega
  · show [a, b].length + ([] : List α).length ≤ maxE
    simp only [List.length_cons, List.length_singleton, List.length_nil]
    omega
  · intro x hx
    have hx2 : x ∈ subItemsF ((g + 1) + 1) (Node.mk [a, b] ([] : List α)
        (a.height + 1) false (mergeO (mergeO none a.bounds) b.bounds)) := hx
    rcases mem_subItemsF_succ.mp hx2 with hx3 | ⟨c, hcmem, hx3⟩
    · exact absurd hx3 (List.not_mem_nil x)
    · have hcm : c ∈ [a, b] := hcmem
      rcases List.mem_cons.mp hcm with hcc | hcc
      · rw [hcc] at hx3
        have hcov := (okB_dest ha).2.2.2.2.1 x hx3
        have hcov2 : containsO' (mergeO none a.bounds) (bf x) = true := by
          rw [mergeO_none_left]
          exact hcov
        exact containsO'_mono (subO_mergeO_left (mergeO none a.bounds) b.bounds) hcov2
      · have hcc2 : c = b := List.mem_singleton.mp hcc
        rw [hcc2] at hx3
        have hcov := (okB_dest hb).2.2.2.2.1 x hx3
        exact containsO'_mono (subO_mergeO_right (mergeO none a.bounds) b.bounds) hcov
  · intro c hcmem
    have hcm : c ∈ [a, b] := hcmem
    rcases List.mem_cons.mp hcm with hcc | hcc
    · rw [hcc]
      exact ha
    · have hcc2 : c = b := List.mem_singleton.mp hcc
      rw [hcc2]
      exact hb

theorem foldl_insert_treeOk {α : Type} [Inhabited α] [DecidableEq α] {bf : α → Rectf} :
    ∀ (xs : List α) (t : RTree α), treeOkB bf t = true →
      treeOkB bf (xs.foldl (fun tt it => RTree.insertItem bf tt it) t) = true := by
  intro xs
  induction xs with
  | nil =>
    intro t h
    exact h
  | cons x rest ih =>
    intro t h
    exact ih (RTree.insertItem bf t x) (insertItem_treeOk x h)

theorem bulkLoad_treeOk {α : Type} [Inhabited α] [DecidableEq α] {bf : α → Rectf}
    {t : RTree α} (σ : ℕ → ℕ) (xs : List α) (hok : treeOkB bf t = true) :
    treeOkB bf (RTree.bulkLoad bf σ t xs) = true := by
  have hok2 := hok
  unfold treeOkB at hok2
  simp only [Bool.and_eq_true] at hok2
  obtain ⟨hpar, hroot⟩ := hok2
  obtain ⟨hmax, hmin, h2m⟩ := paramsOkB_dest hpar
  unfold RTree.bulkLoad
  by_cases hsmall : xs.length < t.minEntries
  · rw [if_pos hsmall]
    exact foldl_insert_treeOk xs t hok
  · rw [if_neg hsmall]
    dsimp only
    have hlen : 1 ≤ xs.length := by omega
    have hbt : okB bf t.maxEntries false (buildTop bf t.maxEntries σ xs).height
        (buildTop bf t.maxEntries σ xs) = true := buildTop_ok hmax σ xs hlen
    by_cases hz : (t.root.entryCount == 0) = true
    · rw [if_pos hz]
      unfold treeOkB
      simp only [Bool.and_eq_true]
      exact ⟨hpar, okB_isRoot_mono hbt⟩
    · rw [if_neg hz]
      have hne : t.root.entryCount ≠ 0 := by
        intro hcc
        apply hz
        simp [hcc]
      have hrootS : okB bf t.maxEntries false t.root.height t.root = true :=
        okB_root_strengthen hroot hne
      by_cases he : (t.root.height == (buildTop bf t.maxEntries σ xs).height) = true
      · rw [if_pos he]
        have heq : t.root.height = (buildTop bf t.maxEntries σ xs).height := by
          simpa using he
        unfold treeOkB
        simp only [Bool.and_eq_true]
        refine ⟨hpar, ?_⟩
        refine splitRootMk_ok (by omega) heq.symm hrootS ?_
        rw [← heq] at hbt
        exact hbt
      · rw [if_neg he]
        have hne2 : t.root.height ≠ (buildTop bf t.maxEntries σ xs).height := by
          simpa using he
        by_cases hlt : t.root.height < (buildTop bf t.maxEntries σ xs).height
        · rw [if_pos hlt]
          have hok3 : treeOkB bf { t with root := buildTop bf t.maxEntries σ xs }
              = true := by
            unfold treeOkB
            simp only [Bool.and_eq_true]
            exact ⟨hpar, okB_isRoot_mono hbt⟩
          exact insertNodeOp_treeOk hok3 hrootS hlt
        · rw [if_neg hlt]
          have hgt : (buildTop bf t.maxEntries σ xs).height < t.root.height := by
            omega
          exact insertNodeOp_treeOk hok hbt hgt

theorem reachable_ok {α : Type} [Inhabited α] [DecidableEq α] {bf : α → Rectf}
    {t : RTree α} (h : Reachable bf t) : treeOkB bf t = true := by
  induction h with
  | mkNew m => exact new_treeOk m
  | clearOf ha ih => exact clear_treeOk ih
  | insertOf it ha ih => exact insertItem_treeOk it ih
  | bulkLoadOf σ xs ha ih => exact bulkLoad_treeOk σ xs ih
  | removeOf it eq ha ih => exact removeOp_treeOk it eq ih

end InvLemmas

/-! ### Consequences of the invariant used by the claims: union
containment and non-emptiness of well-formed subtrees -/

section SemanticLemmas

variable {α : Type} [Inhabited α] [DecidableEq α] {bf : α → Rectf}

theorem containsR_lub {X a b : Rectf} (ha : X.containsR a = true)
    (hb : X.containsR b = true) : X.containsR (a.mergeR b) = true := by
  simp only [Rectf.containsR, Rectf.mergeR, decide_eq_true_eq] at *
  exact ⟨le_min ha.1 hb.1, le_min ha.2.1 hb.2.1,
    max_le ha.2.2.1 hb.2.2.1, max_le ha.2.2.2 hb.2.2.2⟩

theorem subO_lub {X a b : ORect} (ha : subO a X = true) (hb : subO b X = true) :
    subO (mergeO a b) X = true := by
  cases a with
  | none => rw [mergeO_none_left]; exact hb
  | some ra =>
    cases b with
    | none => exact ha
    | some rb =>
      cases X with
      | none => simp [subO] at ha
      | some rX =>
        simp only [subO, mergeO] at *
        exact containsR_lub ha hb

theorem foldl_mergeO_lub {X : ORect} :
    ∀ (bs : List ORect) (acc : ORect), subO acc X = true →
      (∀ b ∈ bs, subO b X = true) → subO (bs.foldl mergeO acc) X = true := by
  intro bs
  induction bs with
  | nil => intro acc h _; exact h
  | cons b bs ih =>
    intro acc h hall
    exact ih (mergeO acc b) (subO_lub h (hall b (List.mem_cons_self b bs)))
      (fun x hx => hall x (List.mem_cons_of_mem b hx))

theorem foldBounds_lub {X : ORect} {bs : List ORect}
    (hall : ∀ b ∈ bs, subO b X = true) : subO (foldBounds bs) X = true :=
  foldl_mergeO_lub bs none rfl hall

theorem okB_boundsSupB {maxE : ℕ} :
    ∀ {f : ℕ} {ir : Bool} {n : Node α}, okB bf maxE ir f n = true →
      boundsSupB bf f n = true := by
  intro f
  induction f with
  | zero => intro ir n _; rfl
  | succ f ih =>
    intro ir n h
    obtain ⟨_, _, _, _, h5, h6⟩ := okB_dest h
    unfold boundsSupB
    simp only [Bool.and_eq_true, List.all_eq_true]
    refine ⟨?_, fun c hc => ih (h6 c hc)⟩
    refine foldBounds_lub ?_
    intro b hb
    rcases List.mem_map.mp hb with ⟨x, hx, rfl⟩
    rw [← containsO'_eq_subO]
    exact h5 x hx

theorem okB_subItems_ne {maxE : ℕ} :
    ∀ {f : ℕ} {n : Node α}, okB bf maxE false f n = true → subItemsF f n ≠ [] := by
  intro f
  induction f with
  | zero => intro n h; exact absurd h (by simp [okB])
  | succ f ih =>
    intro n h
    obtain ⟨h1, h2, h3, _, _, h6⟩ := okB_dest h
    cases hl : n.leaf with
    | true =>
      obtain ⟨hc, hh, hi⟩ := h2 hl
      rcases hi with hi | hi
      · exact Bool.noConfusion hi
      · intro hcon
        rcases List.exists_mem_of_ne_nil _ hi with ⟨x, hx⟩
        have hmem : x ∈ subItemsF (f + 1) n := mem_subItemsF_succ.mpr (Or.inl hx)
        rw [hcon] at hmem
        exact List.not_mem_nil x hmem
    | false =>
      obtain ⟨hi, hcne, hhs⟩ := h3 hl
      rcases List.exists_mem_of_ne_nil _ hcne with ⟨c, hc⟩
      rcases List.exists_mem_of_ne_nil _ (ih (h6 c hc)) with ⟨x, hx⟩
      intro hcon
      have hmem : x ∈ subItemsF (f + 1) n := mem_subItemsF_succ.mpr (Or.inr ⟨c, hc, hx⟩)
      rw [hcon] at hmem
      exact List.not_mem_nil x hmem

end SemanticLemmas

/-! ### Equivalence of the `Intersects` and `search` traversals

Both loops walk the same work list: a popped node reports a positive on a
fully contained intersecting child or an intersecting item and otherwise
pushes its intersecting, non-contained children.  `hitB` captures one
such expansion step; both loops are reduced to it. -/

section SearchEquiv

variable {α : Type} [Inhabited α] [DecidableEq α] {bf : α → Rectf}

theorem getLast?_decomp {β : Type} : ∀ {l : List β} {x : β}, l.getLast? = some x →
    l = l.dropLast ++ [x] := by
  intro l
  induction l with
  | nil => intro x h; exact Option.noConfusion h
  | cons a l ih =>
    intro x h
    cases l with
    | nil =>
      rw [List.getLast?_singleton] at h
      rw [Option.some.inj h]
      rfl
    | cons b l2 =>
      rw [List.getLast?_cons_cons] at h
      exact congrArg (List.cons a) (ih h)

theorem le_sum_of_mem {x : ℕ} : ∀ {l : List ℕ}, x ∈ l → x ≤ l.sum := by
  intro l
  induction l with
  | nil => intro h; exact absurd h (List.not_mem_nil x)
  | cons a l ih =>
    intro h
    rw [List.sum_cons]
    rcases List.mem_cons.mp h with h | h
    · rw [h]; exact Nat.le_add_right a l.sum
    · exact le_trans (ih h) (Nat.le_add_left _ _)

theorem sum_map_filter_le {β : Type} (f : β → ℕ) (p : β → Bool) :
    ∀ l : List β, ((l.filter p).map f).sum ≤ (l.map f).sum := by
  intro l
  induction l with
  | nil => exact le_rfl
  | cons a l ih =>
    rw [List.filter_cons]
    by_cases hp : p a = true
    · rw [if_pos hp]
      simp only [List.map_cons, List.sum_cons]
      exact Nat.add_le_add_left ih _
    · rw [if_neg hp]
      simp only [List.map_cons, List.sum_cons]
      exact le_trans ih (Nat.le_add_left _ _)

theorem any_congr_mem {β : Type} {p q : β → Bool} :
    ∀ {l : List β}, (∀ a ∈ l, p a = q a) → l.any p = l.any q := by
  intro l
  induction l with
  | nil => intro _; rfl
  | cons a l ih =>
    intro h
    simp only [List.any_cons]
    rw [h a (List.mem_cons_self a l), ih (fun b hb => h b (List.mem_cons_of_mem a hb))]

theorem any_filter_eq {β : Type} (p q : β → Bool) :
    ∀ l : List β, (l.filter p).any q = l.any (fun a => p a && q a) := by
  intro l
  induction l with
  | nil => rfl
  | cons a l ih =>
    rw [List.filter_cons]
    by_cases hp : p a = true
    · rw [if_pos hp]
      simp [List.any_cons, hp, ih]
    · rw [if_neg hp]
      have hp2 : p a = false := Bool.eq_false_iff.mpr hp
      simp [List.any_cons, hp2, ih]

theorem any_or_eq {β : Type} (p q : β → Bool) :
    ∀ l : List β, l.any (fun a => p a || q a) = (l.any p || l.any q) := by
  intro l
  induction l with
  | nil => rfl
  | cons a l ih =>
    simp only [List.any_cons, ih]
    cases p a <;> cases q a <;>
      simp [Bool.or_assoc, Bool.or_comm, Bool.or_left_comm]

theorem okB_children_height {maxE : ℕ} {ir : Bool} {n : Node α}
    (h : okB bf maxE ir n.height n = true) :
    ∀ c ∈ n.children, c.height + 1 = n.height := by
  rcases hh : n.height with _ | g
  · rw [hh] at h; exact absurd h (fun x => okB_zero_false x)
  · rw [hh] at h
    obtain ⟨h1, h2, h3, _, _, _⟩ := okB_dest h
    intro c hc
    cases hl : n.leaf with
    | true =>
      rw [(h2 hl).1] at hc
      exact absurd hc (List.not_mem_nil c)
    | false =>
      have h9 := (h3 hl).2.2 c hc
      omega

theorem okB_child_self {maxE : ℕ} {ir : Bool} {n : Node α}
    (h : okB bf maxE ir n.height n = true) {c : Node α} (hc : c ∈ n.children) :
    okB bf maxE false c.height c = true := by
  rcases hh : n.height with _ | g
  · rw [hh] at h; exact absurd h (fun x => okB_zero_false x)
  · have hgh := okB_children_height h c hc
    rw [hh] at h
    obtain ⟨h1, h2, h3, _, _, h6⟩ := okB_dest h
    have hch : c.height = g := by omega
    rw [hch]
    exact h6 c hc

theorem nodeCount_eq {maxE : ℕ} {ir : Bool} {n : Node α}
    (h : okB bf maxE ir n.height n = true) :
    nodeCount n = 1 + (n.children.map nodeCount).sum := by
  rcases hh : n.height with _ | g
  · rw [hh] at h; exact absurd h (fun x => okB_zero_false x)
  · have hkh := okB_children_height h
    rw [hh] at h
    obtain ⟨h1, h2, h3, _, _, _⟩ := okB_dest h
    unfold nodeCount
    rw [hh]
    show 1 + (n.children.map (nodeCountF g)).sum = 1 + (n.children.map nodeCount).sum
    have hmc : n.children.map (nodeCountF g) = n.children.map nodeCount := by
      apply List.map_congr_left
      intro c hc
      have hch : c.height = g := by have h9 := hkh c hc; omega
      unfold nodeCount
      rw [hch]
    rw [hmc]

theorem nodeCount_child_lt {maxE : ℕ} {ir : Bool} {n : Node α}
    (h : okB bf maxE ir n.height n = true) {c : Node α} (hc : c ∈ n.children) :
    nodeCount c < nodeCount n := by
  have he := nodeCount_eq h
  have hle : nodeCount c ≤ (n.children.map nodeCount).sum :=
    le_sum_of_mem (List.mem_map_of_mem nodeCount hc)
  omega

theorem intersectsKids_snd (area : Rectf) :
    ∀ (cs stack : List (Node α)),
      (intersectsKids area cs stack).2
        = cs.any (fun c => intersectsO area c.bounds && containsO area c.bounds) := by
  intro cs
  induction cs with
  | nil => intro stack; rfl
  | cons c cs ih =>
    intro stack
    unfold intersectsKids
    by_cases hi : intersectsO area c.bounds
    · rw [if_pos hi]
      by_cases hc : containsO area c.bounds
      · rw [if_pos hc]
        simp [hi, hc]
      · rw [if_neg hc]
        have hc2 : containsO area c.bounds = false := Bool.eq_false_iff.mpr hc
        simp only [List.any_cons]
        rw [ih]
        simp [hi, hc2]
    · rw [if_neg hi]
      have hi2 : intersectsO area c.bounds = false := Bool.eq_false_iff.mpr hi
      simp only [List.any_cons]
      rw [ih]
      simp [hi2]

theorem intersectsKids_fst (area : Rectf) :
    ∀ (cs stack : List (Node α)), (intersectsKids area cs stack).2 = false →
      (intersectsKids area cs stack).1
        = stack ++ cs.filter (fun c => intersectsO area c.bounds && !containsO area c.bounds) := by
  intro cs
  induction cs with
  | nil => intro stack _; simp [intersectsKids]
  | cons c cs ih =>
    intro stack hflag
    unfold intersectsKids at hflag ⊢
    by_cases hi : intersectsO area c.bounds
    · rw [if_pos hi] at hflag ⊢
      by_cases hc : containsO area c.bounds
      · rw [if_pos hc] at hflag
        exact Bool.noConfusion hflag
      · rw [if_neg hc] at hflag ⊢
        have hc2 : containsO area c.bounds = false := Bool.eq_false_iff.mpr hc
        rw [ih (stack ++ [c]) hflag, List.filter_cons]
        simp [hi, hc2]
    · rw [if_neg hi] at hflag ⊢
      have hi2 : intersectsO area c.bounds = false := Bool.eq_false_iff.mpr hi
      rw [ih stack hflag, List.filter_cons]
      simp [hi2]

theorem intersectsLoopF_any {maxE : ℕ} (area : Rectf) :
    ∀ (fuel : ℕ) (stack : List (Node α)),
      (stack.map nodeCount).sum < fuel →
      (∀ n ∈ stack, ∃ ir, okB bf maxE ir n.height n = true) →
      intersectsLoopF bf area fuel stack
        = stack.any (fun n => hitB bf area n.height n) := by
  intro fuel
  induction fuel with
  | zero => intro stack hf _; exact absurd hf (Nat.not_lt_zero _)
  | succ f ih =>
    intro stack hf hwf
    unfold intersectsLoopF
    cases hs : stack.getLast? with
    | none =>
      have h0 : stack = [] := by
        cases stack with
        | nil => rfl
        | cons a l => simp at hs
      rw [h0]
      rfl
    | some node =>
      simp only
      have hdec : stack = stack.dropLast ++ [node] := getLast?_decomp hs
      have hmemN : node ∈ stack := by
        rw [hdec]; exact List.mem_append_right _ (List.mem_singleton.mpr rfl)
      obtain ⟨ir, hok⟩ := hwf node hmemN
      rcases hh : node.height with _ | g
      · rw [hh] at hok; exact absurd hok (fun x => okB_zero_false x)
      have hkh := okB_children_height hok
      have hok' := hok
      rw [hh] at hok'
      obtain ⟨hA, hB, hC, _, _, _⟩ := okB_dest hok'
      cases hkr : intersectsKids area node.children stack.dropLast with
      | mk stack1 flag =>
        cases flag with
        | true =>
          have hP : node.children.any
              (fun c => intersectsO area c.bounds && containsO area c.bounds) = true := by
            rw [← intersectsKids_snd area node.children stack.dropLast, hkr]
          have hhit : hitB bf area node.height node = true := by
            rw [hh]
            show (node.children.any (fun c => intersectsO area c.bounds
                && (containsO area c.bounds || hitB bf area g c))
              || node.items.any (fun it => area.intersects (bf it))) = true
            simp only [List.any_eq_true, Bool.and_eq_true, Bool.or_eq_true] at hP ⊢
            rcases hP with ⟨c, hcm, hci, hcc⟩
            exact Or.inl ⟨c, hcm, hci, Or.inl hcc⟩
          rw [hdec, List.any_append]
          simp [hhit]
        | false =>
          simp only
          have hnoP : node.children.any
              (fun c => intersectsO area c.bounds && containsO area c.bounds) = false := by
            rw [← intersectsKids_snd area node.children stack.dropLast, hkr]
          have hst1 : stack1 = stack.dropLast ++ node.children.filter
              (fun c => intersectsO area c.bounds && !containsO area c.bounds) := by
            have h9 := intersectsKids_fst area node.children stack.dropLast (by rw [hkr])
            rw [hkr] at h9
            exact h9
          by_cases hitem : node.items.any (fun it => area.intersects (bf it)) = true
          · rw [if_pos hitem]
            have hhit : hitB bf area node.height node = true := by
              rw [hh]
              show (node.children.any (fun c => intersectsO area c.bounds
                  && (containsO area c.bounds || hitB bf area g c))
                || node.items.any (fun it => area.intersects (bf it))) = true
              rw [hitem]
              simp
            rw [hdec, List.any_append]
            simp [hhit]
          · rw [if_neg hitem]
            have hitemF : node.items.any (fun it => area.intersects (bf it)) = false :=
              Bool.eq_false_iff.mpr hitem
            have hwf1 : ∀ n1 ∈ stack1, ∃ ir', okB bf maxE ir' n1.height n1 = true := by
              rw [hst1]
              intro n1 hn1
              rcases List.mem_append.mp hn1 with hn | hn
              · exact hwf n1 (by rw [hdec]; exact List.mem_append_left _ hn)
              · exact ⟨false, okB_child_self hok (List.mem_of_mem_filter hn)⟩
            have hfl : (stack1.map nodeCount).sum < f := by
              have hnceq := nodeCount_eq hok
              have hfle := sum_map_filter_le nodeCount
                (fun c => intersectsO area c.bounds && !containsO area c.bounds) node.children
              rw [hdec] at hf
              rw [hst1]
              simp only [List.map_append, List.sum_append, List.map_cons, List.sum_cons,
                List.map_nil, List.sum_nil] at hf ⊢
              omega
            rw [ih stack1 hfl hwf1]
            rw [hdec, hst1]
            simp only [List.any_append]
            congr 1
            have hR : ([node].any (fun n1 => hitB bf area n1.height n1))
                = hitB bf area node.height node := by simp
            rw [hR, hh]
            show _ = (node.children.any (fun c => intersectsO area c.bounds
                && (containsO area c.bounds || hitB bf area g c))
              || node.items.any (fun it => area.intersects (bf it)))
            rw [hitemF, Bool.or_false]
            rw [any_filter_eq]
            have hcongr : node.children.any (fun c => (intersectsO area c.bounds
                  && !containsO area c.bounds) && hitB bf area c.height c)
                = node.children.any (fun c => (intersectsO area c.bounds
                  && !containsO area c.bounds) && hitB bf area g c) := by
              apply any_congr_mem
              intro c hc
              have h9 := hkh c hc
              have h10 : c.height = g := by omega
              rw [h10]
            rw [hcongr]
            have hnoP2 : ∀ c ∈ node.children,
                (intersectsO area c.bounds && containsO area c.bounds) = false :=
              fun c hc => Bool.eq_false_iff.mpr (List.any_eq_false.mp hnoP c hc)
            apply any_congr_mem
            intro c hc
            have hPc := hnoP2 c hc
            cases hci : intersectsO area c.bounds with
            | false => simp
            | true =>
              cases hcc : containsO area c.bounds with
              | true =>
                rw [hci, hcc] at hPc
                exact Bool.noConfusion hPc
              | false => simp

theorem addAllItemsNF_ne_of_acc {m : ℤ} (h1 : 1 ≤ m) :
    ∀ (fuel : ℕ) (stack : List (Node α)) (acc : List α), acc ≠ [] →
      addAllItemsNF m fuel stack acc ≠ [] := by
  intro fuel
  induction fuel with
  | zero => intro stack acc h; exact h
  | succ f ih =>
    intro stack acc h
    unfold addAllItemsNF
    cases hs : stack.getLast? with
    | none => exact h
    | some node =>
      simp only
      by_cases hfull : m ≤ ((acc ++ node.items).length : ℤ)
      · rw [if_pos hfull]
        intro hcon
        rcases List.take_eq_nil_iff.mp hcon with h9 | h9
        · omega
        · rw [h9] at hfull
          simp at hfull
          omega
      · rw [if_neg hfull]
        apply ih
        intro hcon
        exact h (List.append_eq_nil.mp hcon).1

theorem addAllItemsNF_ne {maxE : ℕ} {m : ℤ} (h1 : 1 ≤ m) :
    ∀ (fuel : ℕ) (stack : List (Node α)) (acc : List α),
      (stack.map nodeCount).sum < fuel →
      (∀ n ∈ stack, okB bf maxE false n.height n = true) →
      stack ≠ [] →
      addAllItemsNF m fuel stack acc ≠ [] := by
  intro fuel
  induction fuel with
  | zero => intro stack acc hf _ _; exact absurd hf (Nat.not_lt_zero _)
  | succ f ih =>
    intro stack acc hf hwf hne
    unfold addAllItemsNF
    cases hs : stack.getLast? with
    | none =>
      exfalso
      apply hne
      cases stack with
      | nil => rfl
      | cons a l => simp at hs
    | some node =>
      simp only
      have hdec : stack = stack.dropLast ++ [node] := getLast?_decomp hs
      have hmemN : node ∈ stack := by
        rw [hdec]; exact List.mem_append_right _ (List.mem_singleton.mpr rfl)
      have hok := hwf node hmemN
      by_cases hfull : m ≤ ((acc ++ node.items).length : ℤ)
      · rw [if_pos hfull]
        intro hcon
        rcases List.take_eq_nil_iff.mp hcon with h9 | h9
        · omega
        · rw [h9] at hfull
          simp at hfull
          omega
      · rw [if_neg hfull]
        rcases hh : node.height with _ | g
        · rw [hh] at hok; exact absurd hok (fun x => okB_zero_false x)
        have hok' := hok
        rw [hh] at hok'
        obtain ⟨hA, hB, hC, _, _, _⟩ := okB_dest hok'
        cases hl : node.leaf with
        | true =>
          obtain ⟨hc0, _, hit⟩ := hB hl
          rcases hit with hit | hit
          · exact Bool.noConfusion hit
          · apply addAllItemsNF_ne_of_acc h1
            intro hcon
            exact hit (List.append_eq_nil.mp hcon).2
        | false =>
          obtain ⟨_, hcne, _⟩ := hC hl
          apply ih
          · have hnceq := nodeCount_eq hok
            rw [hdec] at hf
            simp only [List.map_append, List.sum_append, List.map_cons, List.sum_cons,
              List.map_nil, List.sum_nil] at hf ⊢
            omega
          · intro n1 hn1
            rcases List.mem_append.mp hn1 with hn | hn
            · exact hwf n1 (by rw [hdec]; exact List.mem_append_left _ hn)
            · exact okB_child_self hok hn
          · intro hcon
            exact hcne (List.append_eq_nil.mp hcon).2

theorem searchItems_acc_ne (area : Rectf) (mc : Bool) (m : ℤ) :
    ∀ (its acc : List α), acc ≠ [] → (searchItems bf area mc m its acc).1 ≠ [] := by
  intro its
  induction its with
  | nil => intro acc h; exact h
  | cons it its ih =>
    intro acc h
    unfold searchItems
    by_cases hsel : (mc && area.containsR (bf it)) || (!mc && area.intersects (bf it))
    · rw [if_pos hsel]
      simp only
      by_cases hfull : m ≤ ((acc ++ [it]).length : ℤ)
      · rw [if_pos hfull]
        simp
      · rw [if_neg hfull]
        exact ih _ (by simp)
    · rw [if_neg hsel]
      exact ih acc h

theorem searchItems_flag_ne (area : Rectf) (mc : Bool) {m : ℤ} (h1 : 1 ≤ m) :
    ∀ (its acc : List α), (searchItems bf area mc m its acc).2 = true →
      (searchItems bf area mc m its acc).1 ≠ [] := by
  intro its
  induction its with
  | nil => intro acc h; exact Bool.noConfusion h
  | cons it its ih =>
    intro acc h
    unfold searchItems at h ⊢
    by_cases hsel : (mc && area.containsR (bf it)) || (!mc && area.intersects (bf it))
    · rw [if_pos hsel] at h ⊢
      simp only at h ⊢
      by_cases hfull : m ≤ ((acc ++ [it]).length : ℤ)
      · rw [if_pos hfull]
        simp
      · rw [if_neg hfull] at h ⊢
        exact ih _ h
    · rw [if_neg hsel] at h ⊢
      exact ih acc h

theorem searchItems_nohit (area : Rectf) (m : ℤ) :
    ∀ (its acc : List α), (∀ it ∈ its, area.intersects (bf it) = false) →
      searchItems bf area false m its acc = (acc, false) := by
  intro its
  induction its with
  | nil => intro acc _; rfl
  | cons it its ih =>
    intro acc hall
    unfold searchItems
    rw [if_neg (by simp [hall it (List.mem_cons_self it its)])]
    exact ih acc (fun x hx => hall x (List.mem_cons_of_mem it hx))

theorem searchItems_hit (area : Rectf) {m : ℤ} (h1 : 1 ≤ m) :
    ∀ (its acc : List α), (∃ it ∈ its, area.intersects (bf it) = true) →
      (searchItems bf area false m its acc).1 ≠ [] := by
  intro its
  induction its with
  | nil =>
    intro acc h
    rcases h with ⟨it, hmem, _⟩
    exact absurd hmem (List.not_mem_nil it)
  | cons it its ih =>
    intro acc h
    unfold searchItems
    by_cases hsel : ((false && area.containsR (bf it)) || (!false && area.intersects (bf it))) = true
    · rw [if_pos hsel]
      simp only
      by_cases hfull : m ≤ ((acc ++ [it]).length : ℤ)
      · rw [if_pos hfull]
        simp
      · rw [if_neg hfull]
        exact searchItems_acc_ne area false m its _ (by simp)
    · rw [if_neg hsel]
      apply ih
      rcases h with ⟨x, hxm, hx⟩
      rcases List.mem_cons.mp hxm with he | he
      · exfalso
        apply hsel
        rw [he] at hx
        simp [hx]
      · exact ⟨x, he, hx⟩

theorem searchItems_flag_sel (area : Rectf) (m : ℤ) :
    ∀ (its acc : List α), (searchItems bf area false m its acc).2 = true →
      its.any (fun it => area.intersects (bf it)) = true := by
  intro its
  induction its with
  | nil => intro acc h; exact Bool.noConfusion h
  | cons it its ih =>
    intro acc h
    unfold searchItems at h
    by_cases hsel : ((false && area.containsR (bf it)) || (!false && area.intersects (bf it))) = true
    · have hint : area.intersects (bf it) = true := by simpa using hsel
      simp [List.any_cons, hint]
    · rw [if_neg hsel] at h
      simp only [List.any_cons]
      rw [ih acc h]
      simp

theorem searchKids_acc_ne (area : Rectf) {m : ℤ} (h1 : 1 ≤ m) (fuelA : ℕ) :
    ∀ (cs stack : List (Node α)) (acc : List α), acc ≠ [] →
      (searchKids area m fuelA cs stack acc).2.1 ≠ [] := by
  intro cs
  induction cs with
  | nil => intro stack acc h; exact h
  | cons c cs ih =>
    intro stack acc h
    unfold searchKids
    by_cases hi : intersectsO area c.bounds
    · rw [if_pos hi]
      by_cases hcnt : containsO area c.bounds
      · rw [if_pos hcnt]
        simp only
        by_cases hfull : m ≤ ((addAllItemsNF m fuelA [c] acc).length : ℤ)
        · rw [if_pos hfull]
          exact addAllItemsNF_ne_of_acc h1 fuelA [c] acc h
        · rw [if_neg hfull]
          exact ih stack _ (addAllItemsNF_ne_of_acc h1 fuelA [c] acc h)
      · rw [if_neg hcnt]
        exact ih (stack ++ [c]) acc h
    · rw [if_neg hi]
      exact ih stack acc h

theorem searchKids_flag_ne (area : Rectf) {m : ℤ} (h1 : 1 ≤ m) (fuelA : ℕ) :
    ∀ (cs stack : List (Node α)) (acc : List α),
      (searchKids area m fuelA cs stack acc).2.2 = true →
      (searchKids area m fuelA cs stack acc).2.1 ≠ [] := by
  intro cs
  induction cs with
  | nil => intro stack acc h; exact Bool.noConfusion h
  | cons c cs ih =>
    intro stack acc h
    unfold searchKids at h ⊢
    by_cases hi : intersectsO area c.bounds
    · rw [if_pos hi] at h ⊢
      by_cases hcnt : containsO area c.bounds
      · rw [if_pos hcnt] at h ⊢
        simp only at h ⊢
        by_cases hfull : m ≤ ((addAllItemsNF m fuelA [c] acc).length : ℤ)
        · rw [if_pos hfull]
          intro hcon
          have hlen := congrArg List.length hcon
          simp only [List.length_nil] at hlen
          omega
        · rw [if_neg hfull] at h ⊢
          exact ih stack _ h
      · rw [if_neg hcnt] at h ⊢
        exact ih (stack ++ [c]) acc h
    · rw [if_neg hi] at h ⊢
      exact ih stack acc h

theorem searchKids_flag_P (area : Rectf) (m : ℤ) (fuelA : ℕ) :
    ∀ (cs stack : List (Node α)) (acc : List α),
      (searchKids area m fuelA cs stack acc).2.2 = true →
      cs.any (fun c => intersectsO area c.bounds && containsO area c.bounds) = true := by
  intro cs
  induction cs with
  | nil => intro stack acc h; exact Bool.noConfusion h
  | cons c cs ih =>
    intro stack acc h
    unfold searchKids at h
    by_cases hi : intersectsO area c.bounds
    · rw [if_pos hi] at h
      by_cases hcnt : containsO area c.bounds
      · simp [List.any_cons, hi, hcnt]
      · rw [if_neg hcnt] at h
        simp only [List.any_cons]
        rw [ih (stack ++ [c]) acc h]
        simp
    · rw [if_neg hi] at h
      simp only [List.any_cons]
      rw [ih stack acc h]
      simp

theorem searchKids_stack (area : Rectf) (m : ℤ) (fuelA : ℕ) :
    ∀ (cs stack : List (Node α)) (acc : List α),
      (searchKids area m fuelA cs stack acc).2.2 = false →
      (searchKids area m fuelA cs stack acc).1
        = stack ++ cs.filter (fun c => intersectsO area c.bounds && !containsO area c.bounds) := by
  intro cs
  induction cs with
  | nil => intro stack acc _; simp [searchKids]
  | cons c cs ih =>
    intro stack acc hflag
    unfold searchKids at hflag ⊢
    by_cases hi : intersectsO area c.bounds
    · rw [if_pos hi] at hflag ⊢
      by_cases hcnt : containsO area c.bounds
      · rw [if_pos hcnt] at hflag ⊢
        simp only at hflag ⊢
        by_cases hfull : m ≤ ((addAllItemsNF m fuelA [c] acc).length : ℤ)
        · rw [if_pos hfull] at hflag
          exact Bool.noConfusion hflag
        · rw [if_neg hfull] at hflag ⊢
          rw [ih stack _ hflag, List.filter_cons]
          simp [hi, hcnt]
      · rw [if_neg hcnt] at hflag ⊢
        have hc2 : containsO area c.bounds = false := Bool.eq_false_iff.mpr hcnt
        rw [ih (stack ++ [c]) acc hflag, List.filter_cons]
        simp [hi, hc2]
    · rw [if_neg hi] at hflag ⊢
      have hi2 : intersectsO area c.bounds = false := Bool.eq_false_iff.mpr hi
      rw [ih stack acc hflag, List.filter_cons]
      simp [hi2]

theorem searchKids_nohit (area : Rectf) (m : ℤ) (fuelA : ℕ) :
    ∀ (cs stack : List (Node α)) (acc : List α),
      (∀ c ∈ cs, (intersectsO area c.bounds && containsO area c.bounds) = false) →
      (searchKids area m fuelA cs stack acc).2.1 = acc ∧
      (searchKids area m fuelA cs stack acc).2.2 = false := by
  intro cs
  induction cs with
  | nil => intro stack acc _; exact ⟨rfl, rfl⟩
  | cons c cs ih =>
    intro stack acc hall
    have hP := hall c (List.mem_cons_self c cs)
    have htail : ∀ x ∈ cs, (intersectsO area x.bounds && containsO area x.bounds) = false :=
      fun x hx => hall x (List.mem_cons_of_mem c hx)
    unfold searchKids
    by_cases hi : intersectsO area c.bounds
    · rw [if_pos hi]
      have hcnt : containsO area c.bounds = false := by
        rw [hi] at hP
        simpa using hP
      rw [if_neg (by simp [hcnt])]
      exact ih (stack ++ [c]) acc htail
    · rw [if_neg hi]
      exact ih stack acc htail

theorem searchKids_hit_ne {maxE : ℕ} (area : Rectf) {m : ℤ} (h1 : 1 ≤ m) (fuelA : ℕ) :
    ∀ (cs stack : List (Node α)) (acc : List α),
      (∀ c ∈ cs, okB bf maxE false c.height c = true) →
      (∀ c ∈ cs, nodeCount c < fuelA) →
      cs.any (fun c => intersectsO area c.bounds && containsO area c.bounds) = true →
      (searchKids area m fuelA cs stack acc).2.1 ≠ [] := by
  intro cs
  induction cs with
  | nil => intro stack acc _ _ h; exact Bool.noConfusion h
  | cons c cs ih =>
    intro stack acc hwf hfA hany
    unfold searchKids
    by_cases hi : intersectsO area c.bounds
    · rw [if_pos hi]
      by_cases hcnt : containsO area c.bounds
      · rw [if_pos hcnt]
        simp only
        have hne1 : addAllItemsNF m fuelA [c] acc ≠ [] := by
          apply addAllItemsNF_ne h1
          · simp only [List.map_cons, List.map_nil, List.sum_cons, List.sum_nil]
            have h9 := hfA c (List.mem_cons_self c cs)
            omega
          · intro n1 hn1
            rw [List.mem_singleton.mp hn1]
            exact hwf c (List.mem_cons_self c cs)
          · simp
        by_cases hfull : m ≤ ((addAllItemsNF m fuelA [c] acc).length : ℤ)
        · rw [if_pos hfull]
          exact hne1
        · rw [if_neg hfull]
          exact searchKids_acc_ne area h1 fuelA cs stack _ hne1
      · rw [if_neg hcnt]
        have hany' : cs.any
            (fun c => intersectsO area c.bounds && containsO area c.bounds) = true := by
          simp only [List.any_cons, Bool.or_eq_true] at hany
          rcases hany with h9 | h9
          · exfalso
            simp only [Bool.and_eq_true] at h9
            exact hcnt h9.2
          · exact h9
        exact ih (stack ++ [c]) acc (fun x hx => hwf x (List.mem_cons_of_mem c hx))
          (fun x hx => hfA x (List.mem_cons_of_mem c hx)) hany'
    · rw [if_neg hi]
      have hany' : cs.any
          (fun c => intersectsO area c.bounds && containsO area c.bounds) = true := by
        simp only [List.any_cons, Bool.or_eq_true] at hany
        rcases hany with h9 | h9
        · exfalso
          simp only [Bool.and_eq_true] at h9
          exact hi h9.1
        · exact h9
      exact ih stack acc (fun x hx => hwf x (List.mem_cons_of_mem c hx))
        (fun x hx => hfA x (List.mem_cons_of_mem c hx)) hany'

theorem searchLoopF_acc_ne (area : Rectf) (mc : Bool) {m : ℤ} (h1 : 1 ≤ m) (fuelA : ℕ) :
    ∀ (fuel : ℕ) (stack : List (Node α)) (acc : List α), acc ≠ [] →
      searchLoopF bf area mc m fuelA fuel stack acc ≠ [] := by
  intro fuel
  induction fuel with
  | zero => intro _ acc h; exact h
  | succ f ih =>
    intro stack acc h
    unfold searchLoopF
    cases hs : stack.getLast? with
    | none => exact h
    | some node =>
      simp only
      cases hkr : searchKids area m fuelA node.children stack.dropLast acc with
      | mk stack1 rest =>
        cases rest with
        | mk acc1 flag =>
          have hacc1 : acc1 ≠ [] := by
            have h9 := searchKids_acc_ne area h1 fuelA node.children stack.dropLast acc h
            rw [hkr] at h9
            exact h9
          cases flag with
          | true => exact hacc1
          | false =>
            simp only
            cases hir : searchItems bf area mc m node.items acc1 with
            | mk acc2 flag2 =>
              have hacc2 : acc2 ≠ [] := by
                have h9 := @searchItems_acc_ne α _ _ bf area mc m node.items acc1 hacc1
                rw [hir] at h9
                exact h9
              cases flag2 with
              | true => exact hacc2
              | false => exact ih stack1 acc2 hacc2

theorem searchLoopF_ne_iff {maxE : ℕ} (area : Rectf) {m : ℤ} (h1 : 1 ≤ m) (fuelA : ℕ) :
    ∀ (fuel : ℕ) (stack : List (Node α)) (acc : List α),
      (stack.map nodeCount).sum < fuel →
      (∀ n ∈ stack, ∃ ir, okB bf maxE ir n.height n = true) →
      (∀ n ∈ stack, nodeCount n < fuelA) →
      (searchLoopF bf area false m fuelA fuel stack acc ≠ [] ↔
        (acc ≠ [] ∨ stack.any (fun n => hitB bf area n.height n) = true)) := by
  intro fuel
  induction fuel with
  | zero => intro stack acc hf _ _; exact absurd hf (Nat.not_lt_zero _)
  | succ f ih =>
    intro stack acc hf hwf hfA
    unfold searchLoopF
    cases hs : stack.getLast? with
    | none =>
      have h0 : stack = [] := by
        cases stack with
        | nil => rfl
        | cons a l => simp at hs
      rw [h0]
      simp
    | some node =>
      simp only
      have hdec : stack = stack.dropLast ++ [node] := getLast?_decomp hs
      have hmemN : node ∈ stack := by
        rw [hdec]; exact List.mem_append_right _ (List.mem_singleton.mpr rfl)
      obtain ⟨ir, hok⟩ := hwf node hmemN
      rcases hh : node.height with _ | g
      · rw [hh] at hok; exact absurd hok (fun x => okB_zero_false x)
      have hkh := okB_children_height hok
      have hkidok : ∀ c ∈ node.children, okB bf maxE false c.height c = true :=
        fun c hc => okB_child_self hok hc
      have hkidfA : ∀ c ∈ node.children, nodeCount c < fuelA := by
        intro c hc
        have h9 := nodeCount_child_lt hok hc
        have h10 := hfA node hmemN
        omega
      cases hkr : searchKids area m fuelA node.children stack.dropLast acc with
      | mk stack1 rest =>
        cases rest with
        | mk acc1 flag =>
          cases flag with
          | true =>
            have hne : acc1 ≠ [] := by
              have h9 := searchKids_flag_ne area h1 fuelA node.children stack.dropLast acc
                (by rw [hkr])
              rw [hkr] at h9
              exact h9
            have hP : node.children.any
                (fun c => intersectsO area c.bounds && containsO area c.bounds) = true :=
              searchKids_flag_P area m fuelA node.children stack.dropLast acc (by rw [hkr])
            have hhit : hitB bf area node.height node = true := by
              rw [hh]
              show (node.children.any (fun c => intersectsO area c.bounds
                  && (containsO area c.bounds || hitB bf area g c))
                || node.items.any (fun it => area.intersects (bf it))) = true
              simp only [List.any_eq_true, Bool.and_eq_true, Bool.or_eq_true] at hP ⊢
              rcases hP with ⟨c, hcm, hci, hcc⟩
              exact Or.inl ⟨c, hcm, hci, Or.inl hcc⟩
            exact iff_of_true hne (Or.inr (by rw [hdec, List.any_append]; simp [hhit]))
          | false =>
            simp only
            have hstack1 : stack1 = stack.dropLast ++ node.children.filter
                (fun c => intersectsO area c.bounds && !containsO area c.bounds) := by
              have h9 := searchKids_stack area m fuelA node.children stack.dropLast acc
                (by rw [hkr])
              rw [hkr] at h9
              exact h9
            have hacc1_iff : acc1 ≠ [] ↔ (acc ≠ [] ∨ node.children.any
                (fun c => intersectsO area c.bounds && containsO area c.bounds) = true) := by
              constructor
              · intro hne
                by_contra hcon
                push_neg at hcon
                obtain ⟨hacc0, hnoP⟩ := hcon
                have hnoP2 : ∀ c ∈ node.children,
                    (intersectsO area c.bounds && containsO area c.bounds) = false :=
                  fun c hc => Bool.eq_false_iff.mpr
                    (List.any_eq_false.mp (Bool.eq_false_iff.mpr hnoP) c hc)
                have h9 := searchKids_nohit area m fuelA node.children stack.dropLast acc hnoP2
                rw [hkr] at h9
                have h10 : acc1 = acc := h9.1
                exact hne (by rw [h10, hacc0])
              · intro hor
                rcases hor with hacc | hP
                · have h9 := searchKids_acc_ne area h1 fuelA node.children stack.dropLast acc hacc
                  rw [hkr] at h9
                  exact h9
                · have h9 := searchKids_hit_ne area h1 fuelA node.children stack.dropLast acc
                    hkidok hkidfA hP
                  rw [hkr] at h9
                  exact h9
            cases hir : searchItems bf area false m node.items acc1 with
            | mk acc2 flag2 =>
              have hacc2_iff : acc2 ≠ [] ↔ (acc1 ≠ [] ∨ node.items.any
                  (fun it => area.intersects (bf it)) = true) := by
                constructor
                · intro hne
                  by_contra hcon
                  push_neg at hcon
                  obtain ⟨h01, hnoI⟩ := hcon
                  have hnoI2 : ∀ it ∈ node.items, area.intersects (bf it) = false :=
                    fun it hit => Bool.eq_false_iff.mpr
                      (List.any_eq_false.mp (Bool.eq_false_iff.mpr hnoI) it hit)
                  have h9 := searchItems_nohit area m node.items acc1 hnoI2
                  rw [hir] at h9
                  have h10 : acc2 = acc1 := congrArg Prod.fst h9
                  exact hne (by rw [h10, h01])
                · intro hor
                  rcases hor with h01 | hI
                  · have h9 := @searchItems_acc_ne α _ _ bf area false m node.items acc1 h01
                    rw [hir] at h9
                    exact h9
                  · have h9 := @searchItems_hit α _ _ bf area m h1 node.items acc1
                      (List.any_eq_true.mp hI)
                    rw [hir] at h9
                    exact h9
              cases flag2 with
              | true =>
                have hne2 : acc2 ≠ [] := by
                  have h9 := @searchItems_flag_ne α _ _ bf area false m h1 node.items acc1
                    (by rw [hir])
                  rw [hir] at h9
                  exact h9
                have hI : node.items.any (fun it => area.intersects (bf it)) = true :=
                  @searchItems_flag_sel α _ _ bf area m node.items acc1 (by rw [hir])
                have hhit : hitB bf area node.height node = true := by
                  rw [hh]
                  show (node.children.any (fun c => intersectsO area c.bounds
                      && (containsO area c.bounds || hitB bf area g c))
                    || node.items.any (fun it => area.intersects (bf it))) = true
                  rw [hI]
                  simp
                exact iff_of_true hne2 (Or.inr (by rw [hdec, List.any_append]; simp [hhit]))
              | false =>
                have hf1 : (stack1.map nodeCount).sum < f := by
                  have hnceq := nodeCount_eq hok
                  have hfle := sum_map_filter_le nodeCount
                    (fun c => intersectsO area c.bounds && !containsO area c.bounds)
                    node.children
                  rw [hdec] at hf
                  rw [hstack1]
                  simp only [List.map_append, List.sum_append, List.map_cons, List.sum_cons,
                    List.map_nil, List.sum_nil] at hf ⊢
                  omega
                have hwf1 : ∀ n1 ∈ stack1, ∃ ir', okB bf maxE ir' n1.height n1 = true := by
                  rw [hstack1]
                  intro n1 hn1
                  rcases List.mem_append.mp hn1 with hn | hn
                  · exact hwf n1 (by rw [hdec]; exact List.mem_append_left _ hn)
                  · exact ⟨false, hkidok n1 (List.mem_of_mem_filter hn)⟩
                have hfA1 : ∀ n1 ∈ stack1, nodeCount n1 < fuelA := by
                  rw [hstack1]
                  intro n1 hn1
                  rcases List.mem_append.mp hn1 with hn | hn
                  · exact hfA n1 (by rw [hdec]; exact List.mem_append_left _ hn)
                  · exact hkidfA n1 (List.mem_of_mem_filter hn)
                rw [ih stack1 acc2 hf1 hwf1 hfA1]
                rw [hacc2_iff, hacc1_iff]
                rw [hstack1]
                conv_rhs => rw [hdec]
                rw [List.any_append, List.any_append]
                simp only [List.any_cons, List.any_nil, Bool.or_false]
                rw [hh]
                have hit_eq : hitB bf area (g + 1) node
                    = (node.children.any (fun c => intersectsO area c.bounds
                        && (containsO area c.bounds || hitB bf area g c))
                      || node.items.any (fun it => area.intersects (bf it))) := rfl
                rw [hit_eq]
                rw [any_filter_eq]
                have hcongr : node.children.any (fun c => (intersectsO area c.bounds
                      && !containsO area c.bounds) && hitB bf area c.height c)
                    = node.children.any (fun c => (intersectsO area c.bounds
                      && !containsO area c.bounds) && hitB bf area g c) := by
                  apply any_congr_mem
                  intro c hc
                  have h9 := hkh c hc
                  have h10 : c.height = g := by omega
                  rw [h10]
                rw [hcongr]
                have hsplit : node.children.any (fun c => intersectsO area c.bounds
                      && (containsO area c.bounds || hitB bf area g c))
                    = (node.children.any
                        (fun c => intersectsO area c.bounds && containsO area c.bounds)
                      || node.children.any (fun c => (intersectsO area c.bounds
                          && !containsO area c.bounds) && hitB bf area g c)) := by
                  rw [← any_or_eq]
                  apply any_congr_mem
                  intro c _
                  cases hci : intersectsO area c.bounds with
                  | false => simp
                  | true =>
                    cases hcc : containsO area c.bounds with
                    | true => simp
                    | false => simp
                rw [hsplit]
                simp only [Bool.or_eq_true]
                tauto

end SearchEquiv

section Claims

/-- C7: for every sequence implementing the sort interface (a list over a
linear order) and every index `n < a.Len()`, after `quickselect(a, n)`,
for any choice of random pivots, the result is a permutation of the
input, the entry at `n` is the one a full sort would place there, all
earlier entries are `≤` it and all later entries are `≥` it. -/
theorem claim_C7 {α : Type} [Inhabited α] [LinearOrder α] (σ : ℕ → ℕ) (a : List α)
    (n : ℕ) (h : n < a.length) :
    (quickselect (ltOrd (α := α)) σ a n).Perm a ∧
      (∀ i, i < n → (quickselect (ltOrd (α := α)) σ a n).getD i default ≤
        (quickselect (ltOrd (α := α)) σ a n).getD n default) ∧
      (∀ j, n < j → j < a.length →
        (quickselect (ltOrd (α := α)) σ a n).getD n default ≤
          (quickselect (ltOrd (α := α)) σ a n).getD j default) ∧
      (quickselect (ltOrd (α := α)) σ a n).getD n default =
        (a.insertionSort (fun x y => x ≤ y)).getD n default := by
  have hlen : 1 ≤ a.length := by omega
  obtain ⟨r, hr0, hr1, hr2, hr3, hr4, hr5⟩ :=
    quickselectF_spec σ n (a.length + 1) a 0 (a.length - 1) (Nat.zero_le _)
      (by omega) (by omega) (by omega)
      (fun i j hi _ _ => absurd hi (Nat.not_lt_zero i))
      (fun i j hi1 hi2 _ _ => by omega)
  have hq : quickselect (ltOrd (α := α)) σ a n = r := by
    rw [quickselect, hr0]
    rfl
  rw [hq]
  have hsortperm : r.Perm (a.insertionSort (fun x y => x ≤ y)) :=
    hr2.trans (List.perm_insertionSort (fun x y => x ≤ y) a).symm
  refine ⟨hr2, hr4, fun j hj1 hj2 => hr5 j hj1 (by omega), ?_⟩
  exact getD_eq_sorted_getD r _ n hsortperm
    (List.sorted_insertionSort (fun x y => x ≤ y) a) (by omega) hr4 hr5

/-- Witness for C7 at a concrete input. -/
theorem claim_C7_witness :
    (2 < ([5, 1, 4, 2] : List ℕ).length) ∧
      ((quickselect (ltOrd (α := ℕ)) (fun k => k) [5, 1, 4, 2] 2).Perm [5, 1, 4, 2] ∧
        (∀ i, i < 2 → (quickselect (ltOrd (α := ℕ)) (fun k => k) [5, 1, 4, 2] 2).getD i default ≤
          (quickselect (ltOrd (α := ℕ)) (fun k => k) [5, 1, 4, 2] 2).getD 2 default) ∧
        (∀ j, 2 < j → j < ([5, 1, 4, 2] : List ℕ).length →
          (quickselect (ltOrd (α := ℕ)) (fun k => k) [5, 1, 4, 2] 2).getD 2 default ≤
            (quickselect (ltOrd (α := ℕ)) (fun k => k) [5, 1, 4, 2] 2).getD j default) ∧
        (quickselect (ltOrd (α := ℕ)) (fun k => k) [5, 1, 4, 2] 2).getD 2 default =
          (([5, 1, 4, 2] : List ℕ).insertionSort (fun x y => x ≤ y)).getD 2 default) :=
  ⟨by decide, claim_C7 (fun k => k) [5, 1, 4, 2] 2 (by decide)⟩

/-- C10: for every sequence with `a.Len() ≥ 1` and every `n < a.Len()`,
`quickselect(a, n)` terminates for every choice of random pivots:
`partition` always returns a pivot position inside the current
`[first, last]` range, and the fuel `a.length + 1` (one step per possible
range length, the range strictly shrinking around `n`) never runs out. -/
theorem claim_C10 {α : Type} [Inhabited α] [LinearOrder α] (σ : ℕ → ℕ) (a : List α)
    (n : ℕ) (hlen : 1 ≤ a.length) (hn : n < a.length) :
    (∀ (b : List α) (f l g : ℕ), f ≤ g → g ≤ l → l < b.length →
      f ≤ (partitionL (ltOrd (α := α)) b f l g).2 ∧
        (partitionL (ltOrd (α := α)) b f l g).2 ≤ l) ∧
      (quickselectF (ltOrd (α := α)) σ (a.length + 1) a n 0 (a.length - 1)).isSome
        = true := by
  constructor
  · intro b f l g h1 h2 h3
    obtain ⟨c1, c2, c3, c4, c5, c6, c7⟩ :=
      partitionL_spec ltOrd_irrefl ltOrd_asym b f l g h1 h2 h3
    exact ⟨c4, c5⟩
  · exact quickselectF_isSome ltOrd_irrefl ltOrd_asym σ n (a.length + 1) a 0
      (a.length - 1) (Nat.zero_le _) (by omega) (by omega) (by omega)

/-- Witness for C10 at a concrete input. -/
theorem claim_C10_witness :
    (1 ≤ ([3, 1, 2] : List ℕ).length) ∧ (1 < ([3, 1, 2] : List ℕ).length) ∧
      ((∀ (b : List ℕ) (f l g : ℕ), f ≤ g → g ≤ l → l < b.length →
        f ≤ (partitionL (ltOrd (α := ℕ)) b f l g).2 ∧
          (partitionL (ltOrd (α := ℕ)) b f l g).2 ≤ l) ∧
        (quickselectF (ltOrd (α := ℕ)) (fun k => k + 1) (([3, 1, 2] : List ℕ).length + 1)
          [3, 1, 2] 1 0 (([3, 1, 2] : List ℕ).length - 1)).isSome = true) :=
  ⟨by decide, by decide, claim_C10 (fun k => k + 1) [3, 1, 2] 1 (by decide) (by decide)⟩

/-- C1 (counterexample): on the reachable tree `tC` (six inserts, then a
removal that strips the support of a split-inflated bound),
`NearestNeighbor` at `posC` returns item 2 at squared distance 52 while
the stored item 5 lies at squared distance 26: the result of the
pruned search is not the brute-force minimum. -/
theorem claim_C1_counterexample :
    Reachable bfC tC ∧ subItems tC.root ≠ [] ∧
    RTree.nearestNeighborQ bfC tC posC = some 2 ∧ 5 ∈ subItems tC.root ∧
    Rectf.sqPointDist (bfC 5) posC < Rectf.sqPointDist (bfC 2) posC :=
  ⟨.removeOf 4 none (.insertOf 5 (.insertOf 4 (.insertOf 3 (.insertOf 2 (.insertOf 1
      (.insertOf 0 (.mkNew 4))))))),
   by decide, by decide, by decide, by decide⟩

/-- C2 (counterexample): the reachable tree `tA` has a node whose cached
bounds differ from the exact union of its subtree's item boxes (the
split kept a leaf with items at 0 and 2 but bounds inflated to x = 4 by
`adjustParentBBoxes`). -/
theorem claim_C2_counterexample :
    Reachable bfA tA ∧ boundsExactB bfA tA.root.height tA.root = false :=
  ⟨.insertOf 4 (.insertOf 3 (.insertOf 2 (.insertOf 1 (.insertOf 0 (.mkNew 4))))), by decide⟩

/-- C3 (counterexample): bulk-loading 13 points into an empty tree with
maxEntries 4 (minEntries 2) yields a non-root leaf holding a single
item, below `minEntries`. -/
theorem claim_C3_counterexample :
    Reachable bfB tB ∧ tB.minEntries = 2 ∧
    tB.root.children.any (fun c => decide (c.entryCount < tB.minEntries)) = true :=
  ⟨.bulkLoadOf (fun _ => 0) (List.range 13) (.mkNew 4), by decide, by decide⟩

/-- C5 (amended): at every descent step of `chooseSubtree` with a
non-empty children list, the selected child is one minimising the area
enlargement `enlargedArea(bbox, child.bounds) - area(child.bounds)`.
(The documented area tie-break among minimisers does not hold; see the
counterexample.) -/
theorem claim_C5 {α : Type} (bb : ORect) (cs : List (Node α)) (hne : cs ≠ []) :
    ∃ i, chooseChildGo bb cs 0 ⊤ ⊤ none = some i ∧ i < cs.length ∧
      ∀ j, j < cs.length →
        enlC bb (cs.getD i newNode) ≤ enlC bb (cs.getD j newNode) := by
  match cs, hne with
  | c :: cs', _ =>
    have hstep : chooseChildGo bb (c :: cs') 0 ⊤ ⊤ none
        = chooseChildGo bb cs' (0 + 1)
            ((enlargedAreaOO bb c.bounds - areaO c.bounds : ℚ) : WithTop ℚ)
            (Min.min ⊤ ((areaO c.bounds : ℚ) : WithTop ℚ)) (some 0) := by
      conv_lhs => rw [chooseChildGo]
      rw [if_pos (WithTop.coe_lt_top _)]
    obtain ⟨i, hi⟩ := Option.isSome_iff_exists.mp
      (hstep ▸ chooseChildGo_isSome bb cs' (0 + 1) _ _ 0)
    have hspec := chooseChildGo_spec bb (c :: cs') cs' (0 + 1)
      ((enlargedAreaOO bb c.bounds - areaO c.bounds : ℚ) : WithTop ℚ)
      (Min.min ⊤ ((areaO c.bounds : ℚ) : WithTop ℚ)) (some 0) rfl
      (fun b hb => by
        have hb0 : 0 = b := by injection hb
        subst hb0
        exact ⟨by simp, rfl⟩)
      i (by rw [← hstep]; exact hi)
    obtain ⟨h1, h2, h3⟩ := hspec
    refine ⟨i, hi, h1, fun j hj => ?_⟩
    rcases Nat.eq_zero_or_pos j with hj0 | hjpos
    · subst hj0
      have hc0 : enlC bb ((c :: cs').getD 0 newNode)
          = enlargedAreaOO bb c.bounds - areaO c.bounds := rfl
      rw [hc0]
      exact_mod_cast h2
    · exact h3 j hjpos hj

/-- C5 (witness): the amended minimal-enlargement property applied to
the concrete children list `kidsC5`. -/
theorem claim_C5_witness :
    ∃ i, chooseChildGo bbC5 kidsC5 0 ⊤ ⊤ none = some i ∧ i < kidsC5.length ∧
      ∀ j, j < kidsC5.length →
        enlC bbC5 (kidsC5.getD i newNode) ≤ enlC bbC5 (kidsC5.getD j newNode) :=
  claim_C5 bbC5 kidsC5 (by unfold kidsC5; exact List.cons_ne_nil _ _)

/-- C5 (counterexample): in a `chooseSubtree` descent step over
`kidsC5`, child 2 ties for the minimal area enlargement and has the
smaller area, yet child 1 is selected — the stale running `minArea`
(fed by the worse child 0) defeats the documented tie-break. -/
theorem claim_C5_counterexample :
    chooseChildGo bbC5 kidsC5 0 ⊤ ⊤ none = some 1 ∧
    (∀ c ∈ kidsC5,
      enlargedAreaOO bbC5 (kidsC5.getD 2 newNode).bounds - areaO (kidsC5.getD 2 newNode).bounds
        ≤ enlargedAreaOO bbC5 c.bounds - areaO c.bounds) ∧
    areaO (kidsC5.getD 2 newNode).bounds < areaO (kidsC5.getD 1 newNode).bounds :=
  ⟨by decide, by decide, by decide⟩

/-- C6 (counterexample): on the reachable tree `tD` every stored item
matches the query under the given `equalsFn` (constantly true), yet
`Remove` changes nothing, because the query item's box (the origin) is
outside the root bounds and the traversal never descends. -/
theorem claim_C6_counterexample :
    Reachable bfD tD ∧ subItems tD.root ≠ [] ∧
    (∀ it ∈ subItems tD.root, (fun _ _ => true : ℕ → ℕ → Bool) 99 it = true) ∧
    RTree.removeOp bfD tD 99 (some (fun _ _ => true)) = tD :=
  ⟨.insertOf 4 (.insertOf 3 (.insertOf 2 (.insertOf 1 (.insertOf 0 (.mkNew 4))))),
   by decide, by decide, rfl⟩

/-- C8 (amended): for every tree, every query rectangle, every mustCover
flag and every cap `≥ 0`, `SearchN` returns at most `max cap 1` items:
the cap is honoured except that cap 0 behaves like cap 1 in the item
loop (and negative caps are out of scope: the Go slice truncation
panics there). -/
theorem claim_C8 {α : Type} [Inhabited α] [DecidableEq α] (bf : α → Rectf)
    (t : RTree α) (area : Rectf) (m : Bool) (cap : ℤ) (hcap : 0 ≤ cap) :
    ((RTree.searchN bf t area m cap).length : ℤ) ≤ max cap 1 := by
  unfold RTree.searchN RTree.searchQ
  dsimp only
  split
  · rcases eq_or_lt_of_le hcap with h0 | h1
    · rw [← h0]
      exact le_trans
        (searchLoopF_zero bf area.normalize m (1 + nodeCount t.root)
          (1 + nodeCount t.root) [t.root])
        (by simp)
    · exact le_trans
        (searchLoopF_len bf area.normalize m cap h1 (1 + nodeCount t.root)
          (1 + nodeCount t.root) [t.root] [] (by simpa using h1))
        (le_max_left _ _)
  · simp

/-- C8 (witness): the amended bound applied to the concrete tree `tA`
with cap 2. -/
theorem claim_C8_witness :
    ((RTree.searchN bfA tA ⟨⟨-1, -1⟩, ⟨11, 1⟩⟩ false 2).length : ℤ) ≤ max 2 1 :=
  claim_C8 bfA tA ⟨⟨-1, -1⟩, ⟨11, 1⟩⟩ false 2 (by decide)

/-- C8 (counterexample): `SearchN` with cap 0 on the reachable tree `tA`
returns one item, exceeding the cap (the item loop appends before it
compares against the cap). -/
theorem claim_C8_counterexample :
    Reachable bfA tA ∧
    RTree.searchN bfA tA ⟨⟨13/2, -1⟩, ⟨15/2, 1⟩⟩ false 0 = [3] ∧
    ¬ (((RTree.searchN bfA tA ⟨⟨13/2, -1⟩, ⟨15/2, 1⟩⟩ false 0).length : ℤ) ≤ 0) :=
  ⟨.insertOf 4 (.insertOf 3 (.insertOf 2 (.insertOf 1 (.insertOf 0 (.mkNew 4))))),
   by decide, by decide⟩

/-- C4: on every tree built through the public interface,
`Intersects(a)` returns `true` exactly when `Search(a, false)` returns a
non-empty result. -/
theorem claim_C4 {α : Type} [Inhabited α] [DecidableEq α] (bf : α → Rectf)
    (t : RTree α) (area0 : Rectf) (h : Reachable bf t) :
    (RTree.intersectsQ bf t area0 = true ↔ RTree.searchA bf t area0 false ≠ []) := by
  have hok := reachable_ok h
  unfold treeOkB at hok
  simp only [Bool.and_eq_true] at hok
  obtain ⟨hpar, hroot⟩ := hok
  unfold RTree.intersectsQ RTree.searchA RTree.searchQ
  dsimp only
  by_cases hg : intersectsO area0.normalize t.root.bounds = true
  · rw [if_pos hg, if_pos hg]
    have hfuel : (([t.root].map nodeCount).sum) < 1 + nodeCount t.root := by
      simp only [List.map_cons, List.map_nil, List.sum_cons, List.sum_nil]
      omega
    have hwf : ∀ n ∈ [t.root], ∃ ir, okB bf t.maxEntries ir n.height n = true := by
      intro n hn
      rw [List.mem_singleton.mp hn]
      exact ⟨true, hroot⟩
    have hfA : ∀ n ∈ [t.root], nodeCount n < 1 + nodeCount t.root := by
      intro n hn
      rw [List.mem_singleton.mp hn]
      omega
    rw [intersectsLoopF_any area0.normalize (1 + nodeCount t.root) [t.root] hfuel hwf]
    rw [searchLoopF_ne_iff area0.normalize (by decide) (1 + nodeCount t.root)
      (1 + nodeCount t.root) [t.root] [] hfuel hwf hfA]
    simp
  · rw [if_neg hg, if_neg hg]
    simp

/-- C4 (witness): the equivalence applied to the concrete reachable tree
`tA` and a concrete query rectangle. -/
theorem claim_C4_witness :
    (RTree.intersectsQ bfA tA ⟨⟨1, -1⟩, ⟨3, 1⟩⟩ = true ↔
      RTree.searchA bfA tA ⟨⟨1, -1⟩, ⟨3, 1⟩⟩ false ≠ []) :=
  claim_C4 bfA tA ⟨⟨1, -1⟩, ⟨3, 1⟩⟩
    (.insertOf 4 (.insertOf 3 (.insertOf 2 (.insertOf 1 (.insertOf 0 (.mkNew 4))))))

/-- C9: for every tree reachable from an empty tree by any sequence of
public operations with a stable bounds function, every node's cached
bounds contain the bounding rectangle of every item stored anywhere in
that node's subtree. -/
theorem claim_C9 {α : Type} [Inhabited α] [DecidableEq α] (bf : α → Rectf)
    (t : RTree α) (h : Reachable bf t) :
    coversB bf t.root.height t.root = true := by
  have hok := reachable_ok h
  unfold treeOkB at hok
  simp only [Bool.and_eq_true] at hok
  exact okB_coversB hok.2

/-- C9 (witness): the subtree-coverage invariant applied to the concrete
reachable tree `tA` (five inserts into an empty tree). -/
theorem claim_C9_witness : coversB bfA tA.root.height tA.root = true :=
  claim_C9 bfA tA
    (.insertOf 4 (.insertOf 3 (.insertOf 2 (.insertOf 1 (.insertOf 0 (.mkNew 4))))))

/-- C2 (amended): on every reachable tree the cached bounds are one-sided
accurate: every node's bounds contain the union of the bounding boxes of
all items in its subtree (equality with the exact union fails, see the
counterexample). -/
theorem claim_C2 {α : Type} [Inhabited α] [DecidableEq α] (bf : α → Rectf)
    (t : RTree α) (h : Reachable bf t) :
    boundsSupB bf t.root.height t.root = true := by
  have hok := reachable_ok h
  unfold treeOkB at hok
  simp only [Bool.and_eq_true] at hok
  exact okB_boundsSupB hok.2

/-- C2 (witness): the union-containment bound applied to the concrete
reachable tree `tA`. -/
theorem claim_C2_witness : boundsSupB bfA tA.root.height tA.root = true :=
  claim_C2 bfA tA
    (.insertOf 4 (.insertOf 3 (.insertOf 2 (.insertOf 1 (.insertOf 0 (.mkNew 4))))))

/-- C3 (amended): on every reachable tree every node holds at most
`maxEntries` entries (the `minEntries` lower bound for non-root nodes
fails, see the counterexample). -/
theorem claim_C3 {α : Type} [Inhabited α] [DecidableEq α] (bf : α → Rectf)
    (t : RTree α) (h : Reachable bf t) :
    entryLeB t.maxEntries t.root.height t.root = true := by
  have hok := reachable_ok h
  unfold treeOkB at hok
  simp only [Bool.and_eq_true] at hok
  exact okB_entryLeB hok.2

/-- C3 (witness): the entry-count upper bound applied to the concrete
reachable tree `tA`. -/
theorem claim_C3_witness : entryLeB tA.maxEntries tA.root.height tA.root = true :=
  claim_C3 bfA tA
    (.insertOf 4 (.insertOf 3 (.insertOf 2 (.insertOf 1 (.insertOf 0 (.mkNew 4))))))

/-- C6 (amended): `Remove` with no matching stored item (for the query's
effective equality) leaves the tree completely unchanged; and on a
reachable tree, `Remove` with `equalsFn = nil` of a stored item removes
exactly one copy of it: the resulting stored items are a permutation of
the original ones with one occurrence of the target erased.  (With a
custom `equalsFn` a matching stored item can be missed entirely, see the
counterexample.) -/
theorem claim_C6 {α : Type} [Inhabited α] [DecidableEq α] (bf : α → Rectf)
    (t : RTree α) (target : α) :
    (∀ eqF : Option (α → α → Bool),
      (∀ y ∈ subItems t.root, (eqF.getD fun a b => decide (a = b)) target y = false) →
      RTree.removeOp bf t target eqF = t) ∧
    (Reachable bf t → target ∈ subItems t.root →
      List.Perm (subItems (RTree.removeOp bf t target none).root)
        ((subItems t.root).erase target)) :=
  ⟨fun eqF hall => removeOp_noop target eqF hall,
   fun hr hmem => removeOp_erase_perm target (reachable_ok hr) hmem⟩

/-- C6 (witness): on the concrete reachable tree `tA`, removing with a
never-matching equality is a no-op, and removing the stored item `0` with
the default equality erases exactly one occurrence. -/
theorem claim_C6_witness :
    RTree.removeOp bfA tA 0 (some fun _ _ => false) = tA ∧
    List.Perm (subItems (RTree.removeOp bfA tA 0 none).root)
      ((subItems tA.root).erase 0) :=
  ⟨(claim_C6 bfA tA 0).1 (some fun _ _ => false) (by decide),
   (claim_C6 bfA tA 0).2
     (.insertOf 4 (.insertOf 3 (.insertOf 2 (.insertOf 1 (.insertOf 0 (.mkNew 4))))))
     (by decide)⟩

end Claims

end RTreeSpec
